import Mathlib

/-!
Chemical formulas parser: stack, expander, bracket validator, proton count.

A shallow embedding of `stack.c`, `periodic_table.c` and `formula_parser.c`,
and of the two checks of the Latin square game, `checkDuplicates` and
`checkInput` of `latinsquare.c`, in the namespace `LatinSquare`.

Conventions of the embedding.

* A C string is the list of its characters up to, not including, the
  terminating NUL; reading the terminator is reading `'\x00'` (`peek`).
* The read cursor `i` over `formula` is the unread suffix `formula + i`.
* A `STACK` is the list of the `data` strings of its nodes, top node first;
  the `size` field is the length of that list (`initStack`, `push` and `pop`
  keep the two in step).  `malloc` is taken to succeed.
* Loops that the C code can run for ever take a `fuel` argument, one unit per
  iteration; `Run.outOfFuel` says the loop was still running when the fuel
  ended.  A read outside a buffer is `Run.outOfBounds`.
* A text file is the list of its characters; `fgets` cuts it into the strings
  the loops see, with the buffer sizes of the source (256, 512 and 2048).
* The `int` counters of the source that count characters and lines (`i`,
  `tempLength`, `tempSize`, `lineNumber`, `invalidLines`) are taken without
  overflow.  The `int count` of `countProtons`, a sum of atomic numbers, is
  kept in the range of a 32-bit `int` after every addition (`wrapInt`).
* An array of `ELEMENT` is the list of its `numElements` entries; a loop over
  its indices is a recursion over the part of the list from the index on.
* A `short square[N][N]` is the function from row and column to the cell; a
  read with an index outside `0..N-1` is `none`.
-/

namespace ChemicalFormulas

/-! ## Outcomes -/

/-- Outcome of running a piece of the C code with a bounded number of loop
iterations. -/
inductive Run (α : Type) where
  | done (a : α) : Run α
  | outOfBounds : Run α
  | outOfFuel : Run α
  deriving DecidableEq, Repr

/-! ## stack.c -/

/-- The node strings of a stack, top first. -/
abbrev STACK := List (List Char)

/-- Value of the macro EXIT_SUCCESS. -/
def EXIT_SUCCESS : Int := 0

/-- Value of the macro EXIT_FAILURE. -/
def EXIT_FAILURE : Int := 1

/-- The stack made by `initStack`: no node, size 0. -/
def initStack : STACK := []

/-- Source `isEmpty`: `stack->size == 0`. -/
def isEmpty (stack : STACK) : Bool := stack.length == 0

/-- Source `top`: return code and the string written to `retValue` (the empty
string when there is no top node). -/
def top (stack : STACK) : Int × List Char :=
  match stack with
  | [] => (EXIT_FAILURE, [])
  | data :: _ => (EXIT_SUCCESS, data)

/-- Source `push` on an initialised stack: a new node in front. -/
def push (stack : STACK) (value : List Char) : STACK := value :: stack

/-- Source `pop`: return code, the stack afterwards and the content of
`retValue` afterwards (left as it was when the stack is empty). -/
def pop (stack : STACK) (retValue : List Char) : Int × STACK × List Char :=
  match stack with
  | [] => (EXIT_FAILURE, [], retValue)
  | data :: next => (EXIT_SUCCESS, next, data)

/-! ## periodic_table.c -/

/-- Source `ELEMENT`: a symbol and its atomic number. -/
structure ELEMENT where
  symbol : List Char
  atomicNumber : Int
  deriving DecidableEq, Repr

/-- Source `findAtomicNumber`: the atomic number of the first entry whose
symbol is `strcmp`-equal to `element`, 0 when there is none. -/
def findAtomicNumber (element : List Char) (elements : List ELEMENT) : Int :=
  match elements with
  | [] => 0
  | e :: rest => if e.symbol = element then e.atomicNumber else findAtomicNumber element rest

/-! ## formula_parser.c: the expander -/

/-- The character `formula[k]` of a C string given by its unread part; the
terminating NUL stands at index `length`. -/
def peek (formula : List Char) (k : Nat) : Char := formula.getD k '\x00'

/-- Library `isupper` in the C locale: the codes 65 to 90, `A` to `Z`. -/
def isupper (c : Char) : Bool := 65 ≤ c.toNat && c.toNat ≤ 90

/-- Library `islower` in the C locale: the codes 97 to 122, `a` to `z`. -/
def islower (c : Char) : Bool := 97 ≤ c.toNat && c.toNat ≤ 122

/-- Library `isalpha` in the C locale: an uppercase or a lowercase letter. -/
def isalpha (c : Char) : Bool := isupper c || islower c

/-- Library `isdigit`: the codes 48 to 57, `0` to `9`. -/
def isdigit (c : Char) : Bool := 48 ≤ c.toNat && c.toNat ≤ 57

/-- The value `c - '0'` of a digit character (`'0'` has code 48). -/
def digitValue (c : Char) : Nat := c.toNat - 48

/-- Source `updateStack`: push `element` `multiplier` times. -/
def updateStack (element : List Char) (multiplier : Nat) (currentStack : STACK) : STACK :=
  match multiplier with
  | 0 => currentStack
  | m + 1 => updateStack element m (push currentStack element)

/-- Lines 53-62 of `parseFormulaHelper`: the first letter and up to two
following lowercase letters; returns the symbol and the unread part. -/
def readSymbol (formula : List Char) : List Char × List Char :=
  let e1 := [peek formula 0]
  let f1 := formula.drop 1
  let (e2, f2) := if islower (peek f1 0) then (e1 ++ [peek f1 0], f1.drop 1) else (e1, f1)
  if islower (peek f2 0) then (e2 ++ [peek f2 0], f2.drop 1) else (e2, f2)

/-- Lines 64-74 and 87-97 of `parseFormulaHelper`: the multiplier rule;
returns the multiplier and the unread part. -/
def readMultiplier (formula : List Char) : Nat × List Char :=
  if isdigit (peek formula 0) && !isdigit (peek formula 1) then
    (digitValue (peek formula 0), formula.drop 1)
  else if isdigit (peek formula 0) && peek formula 1 != '\n' && isdigit (peek formula 1) then
    (10 * digitValue (peek formula 0) + digitValue (peek formula 1), formula.drop 2)
  else
    (1, formula)

/-- Lines 117-136 of `parseFormulaHelper`: while `poppedElement` is not the
marker, pop, append the popped string to `temp`, and look at the new top.
Returns the stack and `temp` when the marker is on top. -/
def popLoop (fuel : Nat) (stack : STACK) (poppedElement temp : List Char) :
    Run (STACK × List Char) :=
  match fuel with
  | 0 => Run.outOfFuel
  | fuel + 1 =>
    if poppedElement = ['('] then Run.done (stack, temp)
    else
      let r := pop stack poppedElement
      popLoop fuel r.2.1 (top r.2.1).2 (temp ++ r.2.2)

/-- Lines 144-163 of `parseFormulaHelper`: one pass of the `j` loop, which
reads `temp` from its last character down to its first; the argument is
`temp` reversed, so its head is `temp[j]`.  Reading `temp[-1]` is out of
bounds. -/
def pushBack (tempRev : List Char) (stack : STACK) : Run STACK :=
  match tempRev with
  | [] => Run.done stack
  | c :: below =>
    if islower c then
      match below with
      | [] => Run.outOfBounds
      | b :: below1 =>
        if islower b then
          match below1 with
          | [] => Run.outOfBounds
          | a :: below2 => pushBack below2 (push stack [a, b, c])
        else pushBack below1 (push stack [b, c])
    else pushBack below (push stack [c])

/-- Lines 142-164 of `parseFormulaHelper`: the `k` loop, `multiplier` passes
of the `j` loop. -/
def pushBackTimes (multiplier : Nat) (temp : List Char) (stack : STACK) : Run STACK :=
  match multiplier with
  | 0 => Run.done stack
  | m + 1 =>
    match pushBack temp.reverse stack with
    | Run.done stack1 => pushBackTimes m temp stack1
    | Run.outOfBounds => Run.outOfBounds
    | Run.outOfFuel => Run.outOfFuel

/-- Source `parseFormulaHelper`: the scan of `formula` from the cursor on,
one unit of fuel per iteration of the outer `while`. -/
def parseFormulaHelper (fuel : Nat) (formula : List Char) (stack : STACK) : Run STACK :=
  match fuel with
  | 0 => Run.outOfFuel
  | fuel + 1 =>
    match formula with
    | [] => Run.done stack
    | c :: rest =>
      if isalpha c then
        let s := readSymbol (c :: rest)
        let m := readMultiplier s.2
        parseFormulaHelper fuel m.2 (updateStack s.1 m.1 stack)
      else if c = '(' then
        parseFormulaHelper fuel rest (push stack ['('])
      else if c = ')' then
        let m := readMultiplier rest
        match popLoop fuel stack (top stack).2 [] with
        | Run.done (stack1, temp) =>
          match pushBackTimes m.1 temp (pop stack1 ['(']).2.1 with
          | Run.done stack2 => parseFormulaHelper fuel m.2 stack2
          | Run.outOfBounds => Run.outOfBounds
          | Run.outOfFuel => Run.outOfFuel
        | Run.outOfBounds => Run.outOfBounds
        | Run.outOfFuel => Run.outOfFuel
      else
        parseFormulaHelper fuel (c :: rest) stack

/-! ## formula_parser.c: reading and writing files -/

/-- Library `fgets`, the characters stored: at most `count` characters of
`input`, ending after the first newline; returns them and the unread rest. -/
def fgetsAux (count : Nat) (input : List Char) : List Char × List Char :=
  match count, input with
  | 0, input => ([], input)
  | _ + 1, [] => ([], [])
  | k + 1, c :: cs =>
    if c = '\n' then ([c], cs)
    else ((c :: (fgetsAux k cs).1), (fgetsAux k cs).2)

/-- Library `fgets(buffer, size, file)`: `none` (NULL) at end of file,
otherwise the string stored, of at most `size - 1` characters, and the unread
rest of the file. -/
def fgets (size : Nat) (input : List Char) : Option (List Char × List Char) :=
  match input with
  | [] => none
  | _ :: _ => some (fgetsAux (size - 1) input)

/-- The strings a loop `while (fgets(buffer, size, file) != NULL)` sees, in
order, in at most `rounds` iterations. -/
def readLines (size : Nat) (rounds : Nat) (input : List Char) : List (List Char) :=
  match rounds with
  | 0 => []
  | rounds + 1 =>
    match fgets size input with
    | none => []
    | some r => r.1 :: readLines size rounds r.2

/-- The strings a loop `while (fgets(buffer, size, file) != NULL)` sees over a
whole file; every iteration reads at least one character, so
`input.length` iterations reach the end of the file. -/
def fileLines (size : Nat) (input : List Char) : List (List Char) :=
  readLines size input.length input

/-- The statement `line[strcspn(line, "\n")] = '\0'`: the string is cut at
its first newline. -/
def stripNewline (line : List Char) : List Char := line.takeWhile (fun c => c != '\n')

/-! ## formula_parser.c: parenthesesValidation -/

/-- Lines 315-342 of `parenthesesValidation`: the `for` loop over the
characters of one line; returns `isValid` and the stack at the end. -/
def scanParentheses (line : List Char) (stack : STACK) : Bool × STACK :=
  match line with
  | [] => (true, stack)
  | c :: rest =>
    if c != '(' && c != ')' then scanParentheses rest stack
    else if c = '(' then scanParentheses rest (push stack [c])
    else if c = ')' then
      if !isEmpty stack then scanParentheses rest (pop stack []).2.1
      else (false, stack)
    else scanParentheses rest stack

/-- Line 344 of `parenthesesValidation`: the line is counted as invalid when
`!isValid || !isEmpty(stack)` after the scan. -/
def lineInvalid (line : List Char) (stack : STACK) : Bool :=
  !(scanParentheses line stack).1 || !isEmpty (scanParentheses line stack).2

/-- Lines 351-355 of `parenthesesValidation`, also `freeStack`: pop until the
stack is empty. -/
def drain (stack : STACK) : STACK :=
  match stack with
  | [] => []
  | _ :: next => drain next

/-- The variables of `parenthesesValidation` and the line numbers it has
printed as not balanced. -/
structure ValidationState where
  invalidLines : Nat
  lineNumber : Nat
  stack : STACK
  reported : List Nat
  deriving DecidableEq, Repr

/-- Lines 309-356 of `parenthesesValidation`: the loop over the lines read. -/
def validationLoop (lines : List (List Char)) (st : ValidationState) : ValidationState :=
  match lines with
  | [] => st
  | line :: more =>
    let lineNumber := st.lineNumber + 1
    let r := scanParentheses line st.stack
    if !r.1 || !isEmpty r.2 then
      validationLoop more
        { invalidLines := st.invalidLines + 1, lineNumber := lineNumber,
          stack := drain r.2, reported := st.reported ++ [lineNumber] }
    else
      validationLoop more
        { invalidLines := st.invalidLines, lineNumber := lineNumber,
          stack := drain r.2, reported := st.reported }

/-- Source `parenthesesValidation` on the text of the input file: the value
returned (`invalidLines`) and the line numbers printed. -/
def parenthesesValidation (input : List Char) : Nat × List Nat :=
  let st := validationLoop (fileLines 512 input)
    { invalidLines := 0, lineNumber := 0, stack := initStack, reported := [] }
  (st.invalidLines, st.reported)

/-! ## formula_parser.c: parseFormula and countProtons -/

/-- Lines 232-238 of `parseFormula`: pop every element of `stack` and push it
onto `reversedStack`. -/
def reverseOnto (stack reversedStack : STACK) : STACK :=
  match stack with
  | [] => reversedStack
  | element :: next => reverseOnto next (push reversedStack element)

/-- Lines 240-247 of `parseFormula`: pop every element of `reversedStack`,
writing it followed by a space, then write a line break. -/
def writeStack (reversedStack : STACK) : List Char :=
  match reversedStack with
  | [] => ['\n']
  | element :: next => element ++ ' ' :: writeStack next

/-- Lines 221-251 of `parseFormula`: the loop over the lines read; `output`
is the text written so far. -/
def expandLines (fuel : Nat) (lines : List (List Char)) (output : List Char) :
    Run (List Char) :=
  match lines with
  | [] => Run.done output
  | formula :: more =>
    match parseFormulaHelper fuel (stripNewline formula) initStack with
    | Run.done stack =>
      expandLines fuel more (output ++ writeStack (reverseOnto stack initStack))
    | Run.outOfBounds => Run.outOfBounds
    | Run.outOfFuel => Run.outOfFuel

/-- Source `parseFormula` on the text of the input file: `none` when it
returns at line 208 without opening the output file, otherwise the text it
writes to the output file. -/
def parseFormula (fuel : Nat) (input : List Char) : Run (Option (List Char)) :=
  if (parenthesesValidation input).1 != 0 then Run.done none
  else
    match expandLines fuel (fileLines 256 input) [] with
    | Run.done output => Run.done (some output)
    | Run.outOfBounds => Run.outOfBounds
    | Run.outOfFuel => Run.outOfFuel

/-- Library `strtok` with the delimiter `" "`, called until it returns NULL:
the maximal runs of characters other than a space; `current` is the run being
read. -/
def strtokSpaces (line : List Char) (current : List Char) : List (List Char) :=
  match line with
  | [] => if current = [] then [] else [current]
  | c :: rest =>
    if c = ' ' then
      if current = [] then strtokSpaces rest [] else current :: strtokSpaces rest []
    else strtokSpaces rest (current ++ [c])

/-- The value an `int` holds after an operation whose mathematical result is
`x`: the number between -2^31 and 2^31 - 1 that differs from `x` by a multiple
of 2^32, as the compiled code computes it. -/
def wrapInt (x : Int) : Int := (x + 2147483648) % 4294967296 - 2147483648

/-- Lines 281-285 of `countProtons`: add the atomic number of every token to
the `int count`. -/
def addTokens (elements : List ELEMENT) (tokens : List (List Char)) (count : Int) : Int :=
  match tokens with
  | [] => count
  | element :: more =>
    addTokens elements more (wrapInt (count + findAtomicNumber element elements))

/-- Lines 277-287 of `countProtons`: the integer written for one line of the
parsed output. -/
def countLine (elements : List ELEMENT) (line : List Char) : Int :=
  addTokens elements (strtokSpaces (stripNewline line) []) 0

/-- Source `countProtons` on the text of the input file: `none` when it
returns without writing, otherwise the integers it writes to the output file,
one per `fprintf`. -/
def countProtons (fuel : Nat) (elements : List ELEMENT) (input : List Char) :
    Run (Option (List Int)) :=
  if (parenthesesValidation input).1 != 0 then Run.done none
  else
    match parseFormula fuel input with
    | Run.done (some parsedOutput) =>
      Run.done (some ((fileLines 2048 parsedOutput).map (countLine elements)))
    | Run.done none => Run.done none
    | Run.outOfBounds => Run.outOfBounds
    | Run.outOfFuel => Run.outOfFuel

/-! ## Well-formed formula lines and their expansion, as the specification
words them -/

/-- An optional multiplier as written in a formula: nothing, one digit or two
digits. -/
inductive Multiplier where
  | absent : Multiplier
  | one (d : Char) : Multiplier
  | two (d1 d2 : Char) : Multiplier
  deriving DecidableEq, Repr

/-- The characters of a written multiplier. -/
def Multiplier.text : Multiplier → List Char
  | Multiplier.absent => []
  | Multiplier.one d => [d]
  | Multiplier.two d1 d2 => [d1, d2]

/-- The number a written multiplier stands for; a missing one counts as 1. -/
def Multiplier.value : Multiplier → Nat
  | Multiplier.absent => 1
  | Multiplier.one d => digitValue d
  | Multiplier.two d1 d2 => 10 * digitValue d1 + digitValue d2

/-- A written multiplier is made of digits. -/
def Multiplier.wellFormed : Multiplier → Bool
  | Multiplier.absent => true
  | Multiplier.one d => isdigit d
  | Multiplier.two d1 d2 => isdigit d1 && isdigit d2

/-- An element symbol: one uppercase letter followed by at most two lowercase
letters. -/
def isSymbol (name : List Char) : Bool :=
  match name with
  | [] => false
  | c :: cs => isupper c && decide (cs.length ≤ 2) && cs.all islower

/-- A formula: a sequence of items, each an element symbol with an optional
multiplier or a parenthesised formula with an optional multiplier. -/
inductive Formula where
  | nil : Formula
  | sym (name : List Char) (m : Multiplier) (rest : Formula) : Formula
  | group (body : Formula) (m : Multiplier) (rest : Formula) : Formula
  deriving DecidableEq, Repr

/-- The formula line that writes a formula. -/
def Formula.text : Formula → List Char
  | Formula.nil => []
  | Formula.sym name m rest => name ++ (m.text ++ rest.text)
  | Formula.group body m rest => '(' :: (body.text ++ (')' :: (m.text ++ rest.text)))

/-- Every symbol of the formula is an element symbol and every multiplier is
made of digits. -/
def Formula.wellFormed : Formula → Bool
  | Formula.nil => true
  | Formula.sym name m rest => isSymbol name && m.wellFormed && rest.wellFormed
  | Formula.group body m rest => body.wellFormed && m.wellFormed && rest.wellFormed

/-- The list `xs` repeated `m` times. -/
def repeatList {α : Type} (m : Nat) (xs : List α) : List α :=
  match m with
  | 0 => []
  | m + 1 => xs ++ repeatList m xs

/-- The recursive expansion of a formula, in reading order: a symbol with
multiplier `m` is `m` copies of the symbol, a group with multiplier `m` is `m`
repetitions of the expansion of its contents. -/
def Formula.expand : Formula → List (List Char)
  | Formula.nil => []
  | Formula.sym name m rest => List.replicate m.value name ++ rest.expand
  | Formula.group body m rest => repeatList m.value body.expand ++ rest.expand

/-- The stack read from bottom to top, oldest push first. -/
def bottomToTop (stack : STACK) : List (List Char) := stack.reverse

/-- The next unread character is neither a lowercase letter nor a digit, so
it ends a symbol and a multiplier. -/
def boundary (rest : List Char) : Prop :=
  islower (peek rest 0) = false ∧ isdigit (peek rest 0) = false

/-! ## Further notions of the specification -/

/-- The symbol occurrences of a formula, each with the product of its own
multiplier and the multipliers of the groups around it; `outer` is the product
of the multipliers of the groups around the formula. -/
def Formula.occurrences (outer : Nat) : Formula → List (List Char × Nat)
  | Formula.nil => []
  | Formula.sym name m rest => (name, m.value * outer) :: rest.occurrences outer
  | Formula.group body m rest => body.occurrences (m.value * outer) ++ rest.occurrences outer

/-- The number of atoms the occurrences of `symbol` stand for: the sum of
their products of multipliers. -/
def atomsFrom (symbol : List Char) (occurrences : List (List Char × Nat)) : Nat :=
  match occurrences with
  | [] => 0
  | (name, product) :: more =>
    if name = symbol then product + atomsFrom symbol more else atomsFrom symbol more

/-- The formula has no parentheses: it is a sequence of symbols with their
multipliers. -/
def Formula.flat : Formula → Bool
  | Formula.nil => true
  | Formula.sym _ _ rest => rest.flat
  | Formula.group _ _ _ => false

/-- The sum of the multipliers of the symbols of a formula without
parentheses, a missing multiplier counting as 1. -/
def Formula.multiplierSum : Formula → Nat
  | Formula.nil => 0
  | Formula.sym _ m rest => m.value + rest.multiplierSum
  | Formula.group _ _ rest => rest.multiplierSum

/-! ## Balanced parentheses, as the specification words them -/

/-- Scanning left to right, the number of `)` seen never exceeds the number
of `(` seen, and the two numbers are equal at the end of the line. -/
def balanced (line : List Char) : Prop :=
  (∀ n, (line.take n).count ')' ≤ (line.take n).count '(') ∧
    line.count ')' = line.count '('

/-- Strings built only from balanced bracket pairs: the empty string, a
pair around such a string, and two such strings side by side. -/
inductive BracketPairs : List Char → Prop where
  | empty : BracketPairs []
  | pair (s : List Char) : BracketPairs s → BracketPairs ('(' :: (s ++ [')']))
  | next (s t : List Char) : BracketPairs s → BracketPairs t → BracketPairs (s ++ t)

/-! ## Lines of a file, tokens and sums, as the specification words them -/

/-- The 1-based numbers, counted from `lineNumber + 1`, of the lines that the
per-line check started on the empty stack counts as invalid. -/
def invalidNumbers (lines : List (List Char)) (lineNumber : Nat) : List Nat :=
  match lines with
  | [] => []
  | line :: more =>
    if lineInvalid line initStack then (lineNumber + 1) :: invalidNumbers more (lineNumber + 1)
    else invalidNumbers more (lineNumber + 1)

/-- A string that `strtok` gives back whole from a line of the parsed output:
not empty, without a space and without a newline. -/
def isToken (a : List Char) : Prop := a ≠ [] ∧ ∀ c ∈ a, c ≠ ' ' ∧ c ≠ '\n'

/-- The sum of the atomic numbers of a sequence of atoms, a symbol absent from
the table counting as 0 (`findAtomicNumber` returns 0 for it). -/
def protonSum (elements : List ELEMENT) (atoms : List (List Char)) : Int :=
  (atoms.map (fun a => findAtomicNumber a elements)).sum

/-- The text of a sequence of atoms, each followed by one space: what lines
240-246 of `parseFormula` write for a line before the line break. -/
def spaced (atoms : List (List Char)) : List Char :=
  (atoms.map (fun a => a ++ [' '])).flatten

/-- The text `line`, without newline, is a line of the file `input`: it
starts at the start of the file or after a newline and ends at the end of the
file or before a newline. -/
def isLineOf (line input : List Char) : Prop :=
  ∃ before after, input = before ++ (line ++ after) ∧
    (before = [] ∨ ∃ p, before = p ++ ['\n']) ∧
    (∀ c ∈ line, c ≠ '\n') ∧
    (after = [] ∨ ∃ q, after = '\n' :: q)

/-- The text file whose lines are `lines`, each ended by a newline. -/
def joinLines (lines : List (List Char)) : List Char :=
  (lines.map (fun l => l ++ ['\n'])).flatten

/-! ## Example formulas -/

/-- The formula `Co3(Fe(CN)6)2`. -/
def cobaltFerricyanide : Formula :=
  Formula.sym ['C', 'o'] (Multiplier.one '3')
    (Formula.group
      (Formula.sym ['F', 'e'] Multiplier.absent
        (Formula.group
          (Formula.sym ['C'] Multiplier.absent (Formula.sym ['N'] Multiplier.absent Formula.nil))
          (Multiplier.one '6') Formula.nil))
      (Multiplier.one '2') Formula.nil)

/-- The formula `((H)2)3`. -/
def hydrogenNested : Formula :=
  Formula.group
    (Formula.group (Formula.sym ['H'] Multiplier.absent Formula.nil) (Multiplier.one '2')
      Formula.nil)
    (Multiplier.one '3') Formula.nil

/-- The formula `XY` of two symbols. -/
def twoSymbols (X Y : List Char) : Formula :=
  Formula.sym X Multiplier.absent (Formula.sym Y Multiplier.absent Formula.nil)

/-- The formula `X(Y)1`. -/
def redundantGroup (X Y : List Char) : Formula :=
  Formula.sym X Multiplier.absent
    (Formula.group (Formula.sym Y Multiplier.absent Formula.nil) (Multiplier.one '1') Formula.nil)

/-- The formula `(A(B)2)3`. -/
def nestedGroups (A B : List Char) : Formula :=
  Formula.group
    (Formula.sym A Multiplier.absent
      (Formula.group (Formula.sym B Multiplier.absent Formula.nil) (Multiplier.one '2')
        Formula.nil))
    (Multiplier.one '3') Formula.nil

/-- The formula `H2O`. -/
def water : Formula :=
  Formula.sym ['H'] (Multiplier.one '2') (Formula.sym ['O'] Multiplier.absent Formula.nil)

/-- The formula `H99` written `k` times in a row. -/
def hydrogenRun (k : Nat) : Formula :=
  match k with
  | 0 => Formula.nil
  | k + 1 => Formula.sym ['H'] (Multiplier.two '9' '9') (hydrogenRun k)

/-- A table with hydrogen and oxygen. -/
def hydrogenOxygen : List ELEMENT :=
  [{ symbol := ['H'], atomicNumber := 1 }, { symbol := ['O'], atomicNumber := 8 }]

/-! ## stack.c as it is called -/

/-- Value of the macro MAX_SIZE: the size of `data` in a node. -/
def MAX_SIZE : Nat := 4

/-- The field `size` of an initialised stack. -/
def stackSize (stack : STACK) : Nat := stack.length

/-- Source `push` as it is called, with the pointer `stack` (`none` is NULL):
return code and the stack afterwards.  A value of `MAX_SIZE` characters or
more is copied past the end of `data`. -/
def pushCall (stack : Option STACK) (value : List Char) : Run (Int × Option STACK) :=
  match stack with
  | none => Run.done (EXIT_FAILURE, none)
  | some s =>
    if value.length < MAX_SIZE then Run.done (EXIT_SUCCESS, some (push s value))
    else Run.outOfBounds

/-- Source `pop` as it is called, with the pointer `stack` (`none` is NULL):
return code, the stack afterwards and the content of `retValue` afterwards. -/
def popCall (stack : Option STACK) (retValue : List Char) : Int × Option STACK × List Char :=
  match stack with
  | none => (EXIT_FAILURE, none, retValue)
  | some s => ((pop s retValue).1, some (pop s retValue).2.1, (pop s retValue).2.2)

/-- Source `top` as it is called, with the pointer `stack` (`none` is NULL):
return code, the stack afterwards and the string in `retValue` afterwards,
which does not depend on what the buffer held.  The function has no
assignment to a field of the stack or of a node; its only writes go to
`retValue`. -/
def topCall (stack : Option STACK) : Int × Option STACK × List Char :=
  match stack with
  | none => (EXIT_FAILURE, none, [])
  | some s => ((top s).1, some s, (top s).2)

/-- The call of `top` repeated `n` times: the return code and the string in
the buffer after each call, and the stack afterwards. -/
def topTimes (n : Nat) (stack : Option STACK) : List (Int × List Char) × Option STACK :=
  match n with
  | 0 => ([], stack)
  | n + 1 =>
    (((topCall stack).1, (topCall stack).2.2) :: (topTimes n (topCall stack).2.1).1,
    (topTimes n (topCall stack).2.1).2)

/-- One call of `push` for each value, in order: the return codes and the
stack afterwards. -/
def pushAll (stack : Option STACK) (values : List (List Char)) :
    Run (List Int × Option STACK) :=
  match values with
  | [] => Run.done ([], stack)
  | v :: more =>
    match pushCall stack v with
    | Run.done r =>
      match pushAll r.2 more with
      | Run.done rs => Run.done (r.1 :: rs.1, rs.2)
      | Run.outOfBounds => Run.outOfBounds
      | Run.outOfFuel => Run.outOfFuel
    | Run.outOfBounds => Run.outOfBounds
    | Run.outOfFuel => Run.outOfFuel

/-- The call of `pop` repeated `n` times on the same buffer: the return code
and the string in the buffer after each call, and the stack afterwards. -/
def popTimes (n : Nat) (stack : Option STACK) (retValue : List Char) :
    List (Int × List Char) × Option STACK :=
  match n with
  | 0 => ([], stack)
  | n + 1 =>
    (((popCall stack retValue).1, (popCall stack retValue).2.2)
      :: (popTimes n (popCall stack retValue).2.1 (popCall stack retValue).2.2).1,
    (popTimes n (popCall stack retValue).2.1 (popCall stack retValue).2.2).2)

/-! ## Further notions of the specification, continued -/

/-- The subsequence of the parentheses of a line: every other character
deleted. -/
def parenthesesOf (line : List Char) : List Char :=
  line.filter (fun c => c == '(' || c == ')')

/-- A table with francium and neptunium. -/
def franciumNeptunium : List ELEMENT :=
  [{ symbol := ['F', 'r'], atomicNumber := 87 }, { symbol := ['N', 'p'], atomicNumber := 93 }]

/-- A string of one letter followed by at most two lowercase letters: an
element symbol but for the case of its first letter. -/
def isLetters (name : List Char) : Bool :=
  match name with
  | [] => false
  | c :: cs => isalpha c && decide (cs.length ≤ 2) && cs.all islower

/-- The formula `H` written `k` times in a row. -/
def hydrogens (k : Nat) : Formula :=
  match k with
  | 0 => Formula.nil
  | k + 1 => Formula.sym ['H'] Multiplier.absent (hydrogens k)

/-- The symbols in order separated by single spaces, a space between
consecutive symbols only. -/
def separated (atoms : List (List Char)) : List Char :=
  match atoms with
  | [] => []
  | [a] => a
  | a :: b :: more => a ++ ' ' :: separated (b :: more)

/-- The formula `H0`. -/
def hydrogenZero : Formula := Formula.sym ['H'] (Multiplier.one '0') Formula.nil

/-! ## periodic_table.c: sortPeriodicTable -/

/-- Lines 20-28 of `sortPeriodicTable`: the `j` loop from the cursor on;
`elements` is the part of the array from index `j` on and `count` is the
number of iterations left, so that `elements[j]` and `elements[j + 1]` are the
first two entries.  The loop bound keeps `j + 1` inside the array, so the last
case is never reached with iterations left. -/
def sortInner (count : Nat) (elements : List ELEMENT) : List ELEMENT :=
  match count, elements with
  | count + 1, a :: b :: rest =>
    if a.atomicNumber > b.atomicNumber then b :: sortInner count (a :: rest)
    else a :: sortInner count (b :: rest)
  | _, elements => elements

/-- Lines 18-29 of `sortPeriodicTable`: the `i` loop, with `rounds` iterations
left; the `j` loop of round `i` makes `numElements - i - 1` iterations. -/
def sortOuter (rounds i : Nat) (elements : List ELEMENT) : List ELEMENT :=
  match rounds with
  | 0 => elements
  | rounds + 1 => sortOuter rounds (i + 1) (sortInner (elements.length - i - 1) elements)

/-- Source `sortPeriodicTable` on the array of the `numElements` entries:
nothing is done for an empty array, otherwise `numElements - 1` rounds. -/
def sortPeriodicTable (elements : List ELEMENT) : List ELEMENT :=
  if elements.length = 0 then elements
  else sortOuter (elements.length - 1) 0 elements

/-- The array of the test `unsortedTester`: H, He, C, B. -/
def unsortedTable : List ELEMENT :=
  [{ symbol := ['H'], atomicNumber := 1 }, { symbol := ['H', 'e'], atomicNumber := 2 },
   { symbol := ['C'], atomicNumber := 6 }, { symbol := ['B'], atomicNumber := 5 }]

/-! ## formula_parser.c: the expander, iteration by iteration -/

/-- Lines 115-136 of `parseFormulaHelper` as `popLoop`, with the return codes
of the calls of `pop` and `top` appended to `codes` in the order of the
calls. -/
def popLoopCodes (fuel : Nat) (stack : STACK) (poppedElement temp : List Char)
    (codes : List Int) : Run (STACK × List Char × List Int) :=
  match fuel with
  | 0 => Run.outOfFuel
  | fuel + 1 =>
    if poppedElement = ['('] then Run.done (stack, temp, codes)
    else
      let r := pop stack poppedElement
      popLoopCodes fuel r.2.1 (top r.2.1).2 (temp ++ r.2.2) (codes ++ [r.1, (top r.2.1).1])

/-- One iteration of the outer `while` of `parseFormulaHelper`: the unread
part and the stack at the head of the loop, the unread part and the stack
after the iteration, and the return codes of the calls of `top` and `pop` made
in the iteration. -/
structure Iteration where
  formula : List Char
  stack : STACK
  next : List Char
  after : STACK
  codes : List Int
  deriving DecidableEq, Repr

/-- Lines 45-167 of `parseFormulaHelper`: the body of the outer `while` at
the character `c` followed by `rest`. -/
def scanIteration (fuel : Nat) (c : Char) (rest : List Char) (stack : STACK) : Run Iteration :=
  if isalpha c then
    let s := readSymbol (c :: rest)
    let m := readMultiplier s.2
    Run.done { formula := c :: rest, stack := stack, next := m.2,
               after := updateStack s.1 m.1 stack, codes := [] }
  else if c = '(' then
    Run.done { formula := c :: rest, stack := stack, next := rest,
               after := push stack ['('], codes := [] }
  else if c = ')' then
    let m := readMultiplier rest
    match popLoopCodes fuel stack (top stack).2 [] [(top stack).1] with
    | Run.done (stack1, temp, codes) =>
      match pushBackTimes m.1 temp (pop stack1 ['(']).2.1 with
      | Run.done stack2 =>
        Run.done { formula := c :: rest, stack := stack, next := m.2, after := stack2,
                   codes := codes ++ [(pop stack1 ['(']).1] }
      | Run.outOfBounds => Run.outOfBounds
      | Run.outOfFuel => Run.outOfFuel
    | Run.outOfBounds => Run.outOfBounds
    | Run.outOfFuel => Run.outOfFuel
  else
    Run.done { formula := c :: rest, stack := stack, next := c :: rest, after := stack,
               codes := [] }

/-- Source `parseFormulaHelper` as the sequence of the iterations of its outer
`while`, in order, and the stack when the loop ends; one unit of fuel per
iteration. -/
def scanIterations (fuel : Nat) (formula : List Char) (stack : STACK) :
    Run (List Iteration × STACK) :=
  match fuel with
  | 0 => Run.outOfFuel
  | fuel + 1 =>
    match formula with
    | [] => Run.done ([], stack)
    | c :: rest =>
      match scanIteration fuel c rest stack with
      | Run.done it =>
        match scanIterations fuel it.next it.after with
        | Run.done r => Run.done (it :: r.1, r.2)
        | Run.outOfBounds => Run.outOfBounds
        | Run.outOfFuel => Run.outOfFuel
      | Run.outOfBounds => Run.outOfBounds
      | Run.outOfFuel => Run.outOfFuel

/-! ## Notions of the specification about the course of a scan -/

/-- The number of group-open markers on a stack. -/
def markers (stack : STACK) : Nat := stack.count ['(']

/-- The iterations follow one another from the unread part `formula` and the
stack `stack`, each starting where the one before ended, and the last one ends
at the end of the line with the stack `final`. -/
def linked (formula : List Char) (stack : STACK) (its : List Iteration) (final : STACK) : Prop :=
  match its with
  | [] => formula = [] ∧ stack = final
  | it :: more =>
    it.formula = formula ∧ it.stack = stack ∧ linked it.next it.after more final

/-- What holds of an iteration of the scan of the line `line`: the unread
parts before and after it are what is left of the line after prefixes `p` and
`p'`, with `p'` longer; at both points the number of markers on the stack is
the number of `(` minus the number of `)` in the prefix, and every entry of
the stack is a marker or an element symbol; every call of `top` and `pop`
succeeded; and an iteration at a `)` finds the stack made of atoms, a marker
and a rest `P`, and leaves atoms on `P`. -/
structure IterationFacts (line : List Char) (it : Iteration) : Prop where
  before : ∃ p, line = p ++ it.formula ∧ markers it.stack + p.count ')' = p.count '('
  beforeEntries : ∀ x ∈ it.stack, x = ['('] ∨ isSymbol x = true
  later : ∃ p, line = p ++ it.next ∧ markers it.after + p.count ')' = p.count '('
  laterEntries : ∀ x ∈ it.after, x = ['('] ∨ isSymbol x = true
  advance : ∃ d, d ≠ [] ∧ it.formula = d ++ it.next
  success : ∀ c ∈ it.codes, c = EXIT_SUCCESS
  close : ∀ q, it.formula = ')' :: q →
    it.codes ≠ [] ∧
    ∃ atoms P fresh, it.stack = atoms ++ ['('] :: P ∧ (∀ a ∈ atoms, isSymbol a = true) ∧
      it.after = fresh ++ P ∧ (∀ a ∈ fresh, isSymbol a = true)

/-- The formula `(H)2O`. -/
def hydrogenGroup : Formula :=
  Formula.group (Formula.sym ['H'] Multiplier.absent Formula.nil) (Multiplier.one '2')
    (Formula.sym ['O'] Multiplier.absent Formula.nil)

end ChemicalFormulas

namespace LatinSquare

/-! ## latinsquare.c -/

/-- Value of the macro N: the number of rows and of columns of the array. -/
def N : Nat := 9

/-- The content of a `short square[N][N]`, by row and column. -/
abbrev Square := Nat → Nat → Int

/-- The read `square[i][j]` with `int` indices: `none` when an index is
outside the array. -/
def cell (square : Square) (i j : Int) : Option Int :=
  if 0 ≤ i ∧ i < N ∧ 0 ≤ j ∧ j < N then some (square i.toNat j.toNat) else none

/-- Lines 420-426 of `checkDuplicates`: the loop over the row `i` from the
column `k` on, with `count` iterations left; `none` when a read is outside the
array. -/
def rowLoop (square : Square) (i val : Int) (k : Int) (count : Nat) : Option Bool :=
  match count with
  | 0 => some false
  | count + 1 =>
    match cell square i k with
    | none => none
    | some c => if |c| = val then some true else rowLoop square i val (k + 1) count

/-- Lines 427-433 of `checkDuplicates`: the loop over the column `j` from the
row `k` on, with `count` iterations left. -/
def columnLoop (square : Square) (j val : Int) (k : Int) (count : Nat) : Option Bool :=
  match count with
  | 0 => some false
  | count + 1 =>
    match cell square k j with
    | none => none
    | some c => if |c| = val then some true else columnLoop square j val (k + 1) count

/-- Source `checkDuplicates`: the row loop, then the column loop, each of
`size` iterations from `k = 0`. -/
def checkDuplicates (square : Square) (size i j val : Int) : Option Bool :=
  match rowLoop square i val 0 size.toNat with
  | none => none
  | some true => some true
  | some false => columnLoop square j val 0 size.toNat

/-- Source `checkInput`; `none` when a read is outside the array. -/
def checkInput (square : Square) (size i j val : Int) : Option Bool :=
  if i < 0 ∨ i ≥ size ∨ j < 0 ∨ j ≥ size ∨ val < 0 ∨ val > size then some false
  else if val = 0 then
    match cell square i j with
    | none => none
    | some c => if c < 0 then some false else some true
  else
    match cell square i j with
    | none => none
    | some c =>
      if c ≠ 0 then some false
      else
        match checkDuplicates square size i j val with
        | none => none
        | some true => some false
        | some false => some true

/-- The value `val` occurs in row `i` or in column `j` of the square of size
`size`: some cell of the row or of the column has absolute value `val`, so a
pre-filled value, stored negative, counts. -/
def occurs (square : Square) (size i j val : Int) : Prop :=
  ∃ k : Int, 0 ≤ k ∧ k < size ∧
    (|square i.toNat k.toNat| = val ∨ |square k.toNat j.toNat| = val)

/-- An input that the documentation of `checkInput` accepts: the indices are
inside the square of size `size`, the value is between 0 and `size`, and
either the value is 0 and the cell is not a protected cell, which holds a
negative number, or the value is not 0, the cell is empty and the value does
not occur in the row or the column of the cell. -/
def accepted (square : Square) (size i j val : Int) : Prop :=
  0 ≤ i ∧ i < size ∧ 0 ≤ j ∧ j < size ∧ 0 ≤ val ∧ val ≤ size ∧
    ((val = 0 ∧ ¬ square i.toNat j.toNat < 0) ∨
     (val ≠ 0 ∧ square i.toNat j.toNat = 0 ∧ ¬ occurs square size i j val))

/-- The square whose rows are given, with 0 in every other cell. -/
def ofRows (rows : List (List Int)) : Square :=
  fun i j => (rows.getD i []).getD j 0

/-- A square of size 3 with the pre-filled value 2 in its first cell and the
value 3, entered by the player, in the middle. -/
def sample : Square := ofRows [[-2, 0, 0], [0, 3, 0], [0, 0, 0]]

end LatinSquare

namespace ChemicalFormulas

/-! ## Facts about characters -/

theorem isupper_isalpha {c : Char} (h : isupper c = true) : isalpha c = true := by
  simp [isalpha, h]

theorem isupper_not_islower {c : Char} (h : isupper c = true) : islower c = false := by
  simp only [isupper, islower, Bool.and_eq_true, decide_eq_true_eq, Bool.and_eq_false_imp,
    decide_eq_false_iff_not] at *
  omega

theorem isupper_not_isdigit {c : Char} (h : isupper c = true) : isdigit c = false := by
  simp only [isupper, isdigit, Bool.and_eq_true, decide_eq_true_eq, Bool.and_eq_false_imp,
    decide_eq_false_iff_not] at *
  omega

theorem isdigit_not_islower {c : Char} (h : isdigit c = true) : islower c = false := by
  simp only [isdigit, islower, Bool.and_eq_true, decide_eq_true_eq, Bool.and_eq_false_imp,
    decide_eq_false_iff_not] at *
  omega

theorem isdigit_ne_newline {c : Char} (h : isdigit c = true) : (c != '\n') = true := by
  rw [bne_iff_ne]
  rintro rfl
  revert h
  decide

theorem isupper_ne_open {c : Char} (h : isupper c = true) : c ≠ '(' := by
  rintro rfl
  revert h
  decide

/-! ## Facts about the pieces of the scan -/

theorem peek_nil (k : Nat) : peek [] k = '\x00' := by
  simp [peek]

theorem peek_cons_zero (c : Char) (cs : List Char) : peek (c :: cs) 0 = c := by
  simp [peek]

theorem peek_cons_succ (c : Char) (cs : List Char) (k : Nat) :
    peek (c :: cs) (k + 1) = peek cs k := by
  simp [peek]

theorem updateStack_eq (element : List Char) (m : Nat) (stack : STACK) :
    updateStack element m stack = List.replicate m element ++ stack := by
  induction m generalizing stack with
  | zero => simp [updateStack]
  | succ m ih =>
    simp only [updateStack, push, ih]
    rw [List.replicate_succ', List.append_assoc]
    rfl

/-- The symbol scan reads exactly an element symbol when the character after
it is not a lowercase letter. -/
theorem readSymbol_symbol {name : List Char} (hn : isSymbol name = true) (rest : List Char)
    (hr : islower (peek rest 0) = false) : readSymbol (name ++ rest) = (name, rest) := by
  match name, hn with
  | [c], hn =>
    simp [readSymbol, peek_cons_zero, hr]
  | [c, l1], hn =>
    have h1 : islower l1 = true := by
      simp [isSymbol] at hn; exact hn.2
    simp [readSymbol, peek_cons_zero, hr, h1]
  | [c, l1, l2], hn =>
    have h1 : islower l1 = true ∧ islower l2 = true := by
      simp [isSymbol] at hn; exact ⟨hn.2.1, hn.2.2⟩
    simp [readSymbol, peek_cons_zero, h1.1, h1.2]
  | _ :: _ :: _ :: _ :: _, hn => simp [isSymbol] at hn

/-- The multiplier rule reads exactly a written multiplier when the character
after it is not a digit. -/
theorem readMultiplier_text {m : Multiplier} (hm : m.wellFormed = true) (rest : List Char)
    (hr : isdigit (peek rest 0) = false) :
    readMultiplier (m.text ++ rest) = (m.value, rest) := by
  cases m with
  | absent => simp [readMultiplier, Multiplier.text, Multiplier.value, hr]
  | one d =>
    have hd : isdigit d = true := by simpa [Multiplier.wellFormed] using hm
    simp [readMultiplier, Multiplier.text, Multiplier.value, peek_cons_zero, peek_cons_succ, hd, hr]
  | two d1 d2 =>
    have hd : isdigit d1 = true ∧ isdigit d2 = true := by
      simpa [Multiplier.wellFormed] using hm
    simp [readMultiplier, Multiplier.text, Multiplier.value, peek_cons_zero, peek_cons_succ,
      hd.1, hd.2, isdigit_ne_newline hd.2]

theorem top_cons (a : List Char) (stack : STACK) : top (a :: stack) = (EXIT_SUCCESS, a) := rfl

/-- The inner pop loop, started on a stack whose entries above the first
marker are `above`, stops at that marker with the entries appended to `temp`
in pop order. -/
theorem popLoop_marker (above : List (List Char)) (ha : ∀ x ∈ above, x ≠ ['('])
    (below : STACK) (temp : List Char) (fuel : Nat) :
    popLoop (fuel + above.length + 1) (above ++ ['('] :: below)
        (top (above ++ ['('] :: below)).2 temp
      = Run.done (['('] :: below, temp ++ above.flatten) := by
  induction above generalizing temp with
  | nil => simp [popLoop, top]
  | cons a above ih =>
    have h1 : a ≠ ['('] := ha a (List.mem_cons_self _ _)
    have h2 : ∀ x ∈ above, x ≠ ['('] := fun x hx => ha x (List.mem_cons_of_mem _ hx)
    have e : fuel + (a :: above).length + 1 = (fuel + above.length + 1) + 1 := by
      simp [List.length_cons]; omega
    rw [e, popLoop]
    simp only [List.cons_append, top_cons, pop, if_neg h1]
    rw [ih h2]
    simp [List.append_assoc]

theorem popLoop_more (k : Nat) : ∀ (fuel : Nat) (stack : STACK) (p temp : List Char)
    (r : STACK × List Char), popLoop fuel stack p temp = Run.done r →
    popLoop (fuel + k) stack p temp = Run.done r := by
  intro fuel
  induction fuel with
  | zero => intro stack p temp r h; simp [popLoop] at h
  | succ n ih =>
    intro stack p temp r h
    rw [Nat.add_right_comm]
    rw [popLoop] at h ⊢
    by_cases hp : p = ['(']
    · simpa [hp] using h
    · simp only [if_neg hp] at h ⊢
      exact ih _ _ _ _ h

/-- One pass of the `j` loop over the reversed letters of an element symbol
pushes that symbol. -/
theorem pushBack_symbol {a : List Char} (ha : isSymbol a = true) (rest : List Char)
    (stack : STACK) : pushBack (a.reverse ++ rest) stack = pushBack rest (a :: stack) := by
  match a, ha with
  | [c], ha =>
    have hc : islower c = false := by
      simp [isSymbol] at ha; exact isupper_not_islower ha
    rw [List.reverse_singleton, List.singleton_append, pushBack.eq_def]
    simp [hc, push]
  | [c, l1], ha =>
    have h : isupper c = true ∧ islower l1 = true := by
      simp [isSymbol] at ha; exact ha
    have e : [c, l1].reverse ++ rest = l1 :: c :: rest := by simp
    rw [e, pushBack.eq_def]
    simp [h.2, isupper_not_islower h.1, push]
  | [c, l1, l2], ha =>
    have h : isupper c = true ∧ islower l1 = true ∧ islower l2 = true := by
      simp [isSymbol] at ha; exact ha
    have e : [c, l1, l2].reverse ++ rest = l2 :: l1 :: c :: rest := by simp
    rw [e, pushBack]
    simp [h.2.1, h.2.2, push]
  | _ :: _ :: _ :: _ :: _, ha => simp [isSymbol] at ha

theorem pushBack_symbols (syms : List (List Char)) (hs : ∀ x ∈ syms, isSymbol x = true)
    (stack : STACK) :
    pushBack (syms.map List.reverse).flatten stack = Run.done (syms.reverse ++ stack) := by
  induction syms generalizing stack with
  | nil => simp [pushBack]
  | cons a syms ih =>
    have h1 : isSymbol a = true := hs a (List.mem_cons_self _ _)
    have h2 : ∀ x ∈ syms, isSymbol x = true := fun x hx => hs x (List.mem_cons_of_mem _ hx)
    simp only [List.map_cons, List.flatten_cons]
    rw [pushBack_symbol h1, ih h2]
    simp

/-- The `k` loop on the letters of `syms` taken in pop order (top first)
pushes `syms` back `m` times, each time in the order they had. -/
theorem pushBackTimes_symbols (m : Nat) (syms : List (List Char))
    (hs : ∀ x ∈ syms, isSymbol x = true) (stack : STACK) :
    pushBackTimes m syms.flatten stack = Run.done (repeatList m syms ++ stack) := by
  induction m generalizing stack with
  | zero => simp [pushBackTimes, repeatList]
  | succ m ih =>
    have e : syms.flatten.reverse = (syms.reverse.map List.reverse).flatten := by
      rw [List.reverse_flatten, List.map_reverse]
    have h2 : ∀ x ∈ syms.reverse, isSymbol x = true := fun x hx => hs x (List.mem_reverse.mp hx)
    rw [pushBackTimes, e, pushBack_symbols _ h2]
    simp only [List.reverse_reverse]
    rw [ih]
    have : ∀ (n : Nat) (xs : List (List Char)), repeatList n xs ++ xs = xs ++ repeatList n xs := by
      intro n xs
      induction n with
      | zero => simp [repeatList]
      | succ n ihn => simp only [repeatList, List.append_assoc, ihn]
    simp only [repeatList]
    rw [← List.append_assoc, this]

/-! ## One iteration of the scan -/

theorem parse_nil (fuel : Nat) (stack : STACK) :
    parseFormulaHelper (fuel + 1) [] stack = Run.done stack := by
  simp [parseFormulaHelper]

theorem parse_alpha (fuel : Nat) (c : Char) (rest : List Char) (stack : STACK)
    (hc : isalpha c = true) :
    parseFormulaHelper (fuel + 1) (c :: rest) stack
      = parseFormulaHelper fuel (readMultiplier (readSymbol (c :: rest)).2).2
          (updateStack (readSymbol (c :: rest)).1
            (readMultiplier (readSymbol (c :: rest)).2).1 stack) := by
  simp [parseFormulaHelper, hc]

theorem parse_open (fuel : Nat) (rest : List Char) (stack : STACK) :
    parseFormulaHelper (fuel + 1) ('(' :: rest) stack
      = parseFormulaHelper fuel rest (['('] :: stack) := by
  have h : isalpha '(' = false := by decide
  simp [parseFormulaHelper, h, push]

theorem parse_close (fuel : Nat) (rest : List Char) (stack stack1 stack2 : STACK)
    (temp : List Char)
    (h1 : popLoop fuel stack (top stack).2 [] = Run.done (stack1, temp))
    (h2 : pushBackTimes (readMultiplier rest).1 temp (pop stack1 ['(']).2.1 = Run.done stack2) :
    parseFormulaHelper (fuel + 1) (')' :: rest) stack
      = parseFormulaHelper fuel (readMultiplier rest).2 stack2 := by
  have h : isalpha ')' = false := by decide
  have h' : ')' ≠ '(' := by decide
  simp [parseFormulaHelper, h, h', h1, h2]

theorem parse_other (fuel : Nat) (c : Char) (rest : List Char) (stack : STACK)
    (h1 : isalpha c = false) (h2 : c ≠ '(') (h3 : c ≠ ')') :
    parseFormulaHelper (fuel + 1) (c :: rest) stack
      = parseFormulaHelper fuel (c :: rest) stack := by
  simp [parseFormulaHelper, h1, h2, h3]

/-- A scan that has returned returns the same stack with any larger fuel. -/
theorem parse_more (k : Nat) : ∀ (fuel : Nat) (formula : List Char) (stack r : STACK),
    parseFormulaHelper fuel formula stack = Run.done r →
    parseFormulaHelper (fuel + k) formula stack = Run.done r := by
  intro fuel
  induction fuel with
  | zero => intro formula stack r h; simp [parseFormulaHelper] at h
  | succ n ih =>
    intro formula stack r h
    rw [Nat.add_right_comm]
    cases formula with
    | nil => rw [parse_nil] at h ⊢; exact h
    | cons c rest =>
      by_cases h1 : isalpha c = true
      · rw [parse_alpha _ _ _ _ h1] at h ⊢
        exact ih _ _ _ h
      · have h1' : isalpha c = false := by simpa using h1
        by_cases h2 : c = '('
        · subst h2
          rw [parse_open] at h ⊢
          exact ih _ _ _ h
        · by_cases h3 : c = ')'
          · subst h3
            cases hp : popLoop n stack (top stack).2 [] with
            | done p =>
              obtain ⟨stack1, temp⟩ := p
              cases hq : pushBackTimes (readMultiplier rest).1 temp (pop stack1 ['(']).2.1 with
              | done stack2 =>
                rw [parse_close _ _ _ _ _ _ hp hq] at h
                rw [parse_close _ _ _ _ _ _ (popLoop_more k _ _ _ _ _ hp) hq]
                exact ih _ _ _ h
              | outOfBounds => simp [parseFormulaHelper, h1', hp, hq] at h
              | outOfFuel => simp [parseFormulaHelper, h1', hp, hq] at h
            | outOfBounds => simp [parseFormulaHelper, h1', hp] at h
            | outOfFuel => simp [parseFormulaHelper, h1', hp] at h
          · rw [parse_other _ _ _ _ h1' h2 h3] at h ⊢
            exact ih _ _ _ h

/-! ## The scan of a well-formed formula -/

theorem boundary_nil : boundary [] := by
  constructor <;> decide

theorem boundary_close (rest : List Char) : boundary (')' :: rest) := by
  constructor <;> simp [peek_cons_zero] <;> decide

theorem isSymbol_ne_marker {x : List Char} (hx : isSymbol x = true) : x ≠ ['('] := by
  rintro rfl
  revert hx
  decide

theorem isSymbol_head {name : List Char} (hn : isSymbol name = true) :
    ∃ c cs, name = c :: cs ∧ isupper c = true := by
  match name, hn with
  | c :: cs, hn =>
    refine ⟨c, cs, rfl, ?_⟩
    simp [isSymbol] at hn
    exact hn.1.1

theorem text_boundary {F : Formula} (hF : F.wellFormed = true) (rest : List Char)
    (hb : boundary rest) : boundary (F.text ++ rest) := by
  cases F with
  | nil => simpa [Formula.text] using hb
  | sym name m restF =>
    simp only [Formula.wellFormed, Bool.and_eq_true] at hF
    obtain ⟨c, cs, rfl, hc⟩ := isSymbol_head hF.1.1
    simp only [Formula.text, List.cons_append, boundary, peek_cons_zero]
    exact ⟨isupper_not_islower hc, isupper_not_isdigit hc⟩
  | group body m restF =>
    simp only [Formula.text, List.cons_append, boundary, peek_cons_zero]
    constructor <;> decide

theorem multiplier_text_not_lower {m : Multiplier} (hm : m.wellFormed = true)
    (rest : List Char) (hb : boundary rest) : islower (peek (m.text ++ rest) 0) = false := by
  cases m with
  | absent => simpa [Multiplier.text] using hb.1
  | one d =>
    have hd : isdigit d = true := by simpa [Multiplier.wellFormed] using hm
    simpa [Multiplier.text, peek_cons_zero] using isdigit_not_islower hd
  | two d1 d2 =>
    have hd : isdigit d1 = true ∧ isdigit d2 = true := by
      simpa [Multiplier.wellFormed] using hm
    simpa [Multiplier.text, peek_cons_zero] using isdigit_not_islower hd.1

theorem mem_repeatList {α : Type} {m : Nat} {xs : List α} {x : α}
    (h : x ∈ repeatList m xs) : x ∈ xs := by
  induction m with
  | zero => simp [repeatList] at h
  | succ m ih =>
    simp only [repeatList, List.mem_append] at h
    rcases h with h | h
    · exact h
    · exact ih h

theorem repeatList_reverse {α : Type} (m : Nat) (xs : List α) :
    (repeatList m xs).reverse = repeatList m xs.reverse := by
  have comm : ∀ (n : Nat) (ys : List α), repeatList n ys ++ ys = ys ++ repeatList n ys := by
    intro n ys
    induction n with
    | zero => simp [repeatList]
    | succ n ihn => simp only [repeatList, List.append_assoc, ihn]
  induction m with
  | zero => simp [repeatList]
  | succ m ih => simp only [repeatList, List.reverse_append, ih, comm]

/-- Every atom of the expansion of a well-formed formula is an element
symbol. -/
theorem expand_symbols {F : Formula} (hF : F.wellFormed = true) :
    ∀ x ∈ F.expand, isSymbol x = true := by
  induction F with
  | nil => intro x hx; simp [Formula.expand] at hx
  | sym name m restF ih =>
    simp only [Formula.wellFormed, Bool.and_eq_true] at hF
    intro x hx
    simp only [Formula.expand, List.mem_append] at hx
    rcases hx with hx | hx
    · rw [List.eq_of_mem_replicate hx]; exact hF.1.1
    · exact ih hF.2 x hx
  | group body m restF ihb ihr =>
    simp only [Formula.wellFormed, Bool.and_eq_true] at hF
    intro x hx
    simp only [Formula.expand, List.mem_append] at hx
    rcases hx with hx | hx
    · exact ihb hF.1.1 x (mem_repeatList hx)
    · exact ihr hF.2 x hx

/-- Scanning the text of a well-formed formula pushes its expansion: whatever
the scan of the rest returns from the stack with the expansion on top, the
scan of the text followed by the rest returns from the stack without it. -/
theorem parse_text (F : Formula) (hF : F.wellFormed = true) :
    ∃ n, ∀ (rest : List Char) (stack : STACK) (fuel : Nat) (r : STACK), boundary rest →
      parseFormulaHelper fuel rest (F.expand.reverse ++ stack) = Run.done r →
      parseFormulaHelper (fuel + n) (F.text ++ rest) stack = Run.done r := by
  induction F with
  | nil =>
    refine ⟨0, ?_⟩
    intro rest stack fuel r _ h
    simpa [Formula.text, Formula.expand] using h
  | sym name m restF ih =>
    simp only [Formula.wellFormed, Bool.and_eq_true] at hF
    obtain ⟨n, hn⟩ := ih hF.2
    refine ⟨n + 1, ?_⟩
    intro rest stack fuel r hb h
    obtain ⟨c, cs, hname, hc⟩ := isSymbol_head hF.1.1
    have hb1 : boundary (restF.text ++ rest) := text_boundary hF.2 rest hb
    have e1 : (Formula.sym name m restF).text ++ rest
        = name ++ (m.text ++ (restF.text ++ rest)) := by
      simp [Formula.text, List.append_assoc]
    have e2 : readSymbol (name ++ (m.text ++ (restF.text ++ rest)))
        = (name, m.text ++ (restF.text ++ rest)) :=
      readSymbol_symbol hF.1.1 _ (multiplier_text_not_lower hF.1.2 _ hb1)
    have e3 : readMultiplier (m.text ++ (restF.text ++ rest))
        = (m.value, restF.text ++ rest) :=
      readMultiplier_text hF.1.2 _ hb1.2
    have e4 : parseFormulaHelper (fuel + n + 1) (name ++ (m.text ++ (restF.text ++ rest))) stack
        = parseFormulaHelper (fuel + n) (restF.text ++ rest)
            (List.replicate m.value name ++ stack) := by
      have e5 : name ++ (m.text ++ (restF.text ++ rest))
          = c :: (cs ++ (m.text ++ (restF.text ++ rest))) := by rw [hname]; rfl
      rw [e5, parse_alpha _ _ _ _ (isupper_isalpha hc), ← e5, e2]
      simp only [e3, updateStack_eq]
    rw [e1, ← Nat.add_assoc, e4]
    apply hn rest _ fuel r hb
    simpa [Formula.expand, List.reverse_append, List.append_assoc] using h
  | group body m restF ihb ihr =>
    simp only [Formula.wellFormed, Bool.and_eq_true] at hF
    obtain ⟨nb, hnb⟩ := ihb hF.1.1
    obtain ⟨nr, hnr⟩ := ihr hF.2
    refine ⟨nr + body.expand.length + 1 + 1 + nb + 1, ?_⟩
    intro rest stack fuel r hb h
    have hb1 : boundary (restF.text ++ rest) := text_boundary hF.2 rest hb
    have e1 : (Formula.group body m restF).text ++ rest
        = '(' :: (body.text ++ (')' :: (m.text ++ (restF.text ++ rest)))) := by
      simp [Formula.text, List.append_assoc]
    have e3 : readMultiplier (m.text ++ (restF.text ++ rest))
        = (m.value, restF.text ++ rest) :=
      readMultiplier_text hF.1.2 _ hb1.2
    have hsym : ∀ x ∈ body.expand.reverse, isSymbol x = true := fun x hx =>
      expand_symbols hF.1.1 x (List.mem_reverse.mp hx)
    have hpop := popLoop_marker body.expand.reverse
      (fun x hx => isSymbol_ne_marker (hsym x hx)) stack [] (fuel + nr)
    have hpush := pushBackTimes_symbols m.value body.expand.reverse hsym stack
    have hrest : parseFormulaHelper (fuel + nr) (restF.text ++ rest)
        (repeatList m.value body.expand.reverse ++ stack) = Run.done r := by
      apply hnr rest _ fuel r hb
      simpa [Formula.expand, List.reverse_append, List.append_assoc, repeatList_reverse] using h
    have hclose : parseFormulaHelper (fuel + nr + body.expand.length + 1 + 1)
        (')' :: (m.text ++ (restF.text ++ rest))) (body.expand.reverse ++ ['('] :: stack)
        = Run.done r := by
      rw [parse_close (fuel + nr + body.expand.length + 1) _ _ (['('] :: stack)
        (repeatList m.value body.expand.reverse ++ stack) body.expand.reverse.flatten]
      · rw [e3]
        have := parse_more (body.expand.length + 1) _ _ _ _ hrest
        simpa [Nat.add_assoc] using this
      · simpa using hpop
      · rw [e3]; simpa [pop] using hpush
    have hbody := hnb (')' :: (m.text ++ (restF.text ++ rest))) (['('] :: stack)
      (fuel + nr + body.expand.length + 1 + 1) r (boundary_close _) hclose
    rw [e1]
    have e6 : fuel + (nr + body.expand.length + 1 + 1 + nb + 1)
        = (fuel + nr + body.expand.length + 1 + 1 + nb) + 1 := by omega
    rw [e6, parse_open]
    exact hbody

/-! ## The expander on well-formed formulas -/

/-- With enough fuel the scan of the text of a well-formed formula, started on
the empty stack, returns the reversed expansion. -/
theorem parse_formula (F : Formula) (hF : F.wellFormed = true) :
    ∃ n, ∀ fuel, n ≤ fuel →
      parseFormulaHelper fuel F.text initStack = Run.done F.expand.reverse := by
  obtain ⟨n, hn⟩ := parse_text F hF
  refine ⟨1 + n, ?_⟩
  intro fuel hfuel
  have h := hn [] [] 1 F.expand.reverse boundary_nil (by simp [parseFormulaHelper])
  have h' := parse_more (fuel - (1 + n)) _ _ _ _ h
  have e : 1 + n + (fuel - (1 + n)) = fuel := by omega
  simpa [e, initStack] using h'

theorem count_repeatList (a : List Char) (m : Nat) (xs : List (List Char)) :
    (repeatList m xs).count a = m * xs.count a := by
  induction m with
  | zero => simp [repeatList]
  | succ m ih => simp only [repeatList, List.count_append, ih]; ring

theorem atomsFrom_append (s : List Char) (xs ys : List (List Char × Nat)) :
    atomsFrom s (xs ++ ys) = atomsFrom s xs + atomsFrom s ys := by
  induction xs with
  | nil => simp [atomsFrom]
  | cons x xs ih =>
    obtain ⟨name, product⟩ := x
    by_cases h : name = s
    · simp [atomsFrom, h, ih, Nat.add_assoc]
    · simp [atomsFrom, h, ih]

/-- The occurrences of a symbol account for its atoms in the expansion. -/
theorem atomsFrom_occurrences (F : Formula) (outer : Nat) (s : List Char) :
    atomsFrom s (F.occurrences outer) = outer * F.expand.count s := by
  induction F generalizing outer with
  | nil => simp [Formula.occurrences, Formula.expand, atomsFrom]
  | sym name m rest ih =>
    by_cases h : name = s
    · subst h
      simp only [Formula.occurrences, Formula.expand, atomsFrom, if_true, ih,
        List.count_append, List.count_replicate_self]
      ring
    · have h' : (name == s) = false := by simpa using h
      simp only [Formula.occurrences, Formula.expand, atomsFrom, if_neg h, ih,
        List.count_append, List.count_replicate, h']
      simp
  | group body m rest ihb ihr =>
    simp only [Formula.occurrences, Formula.expand, atomsFrom_append, ihb, ihr,
      List.count_append, count_repeatList]
    ring

theorem length_repeatList {α : Type} (m : Nat) (xs : List α) :
    (repeatList m xs).length = m * xs.length := by
  induction m with
  | zero => simp [repeatList]
  | succ m ih => simp only [repeatList, List.length_append, ih]; ring

theorem length_expand_flat (F : Formula) (hflat : F.flat = true) :
    F.expand.length = F.multiplierSum := by
  induction F with
  | nil => rfl
  | sym name m rest ih =>
    simp only [Formula.flat] at hflat
    simp [Formula.expand, Formula.multiplierSum, ih hflat]
  | group body m rest _ _ => simp [Formula.flat] at hflat

/-! ## The bracket validator -/

theorem isEmpty_iff (stack : STACK) : isEmpty stack = true ↔ stack.length = 0 := by
  simp [isEmpty]

/-- The per-line check started with `stack.length` markers on the stack
accepts the line exactly when the markers and the `(` of every prefix cover
its `)`, and all are used up at the end. -/
theorem lineInvalid_iff (line : List Char) : ∀ stack : STACK,
    lineInvalid line stack = false ↔
      ((∀ n, (line.take n).count ')' ≤ stack.length + (line.take n).count '(') ∧
        line.count ')' = stack.length + line.count '(') := by
  induction line with
  | nil =>
    intro stack
    cases stack with
    | nil => simp [lineInvalid, scanParentheses, isEmpty]
    | cons d stack => simp [lineInvalid, scanParentheses, isEmpty]
  | cons c rest ih =>
    intro stack
    by_cases h1 : c = '('
    · subst h1
      have e : lineInvalid ('(' :: rest) stack = lineInvalid rest (['('] :: stack) := by
        simp [lineInvalid, scanParentheses, push]
      have c1 : ∀ l : List Char, List.count ')' ('(' :: l) = List.count ')' l := by
        intro l; rw [List.count_cons]; simp
      rw [e, ih]
      simp only [c1, List.count_cons_self, List.length_cons]
      constructor
      · rintro ⟨h2, h3⟩
        refine ⟨fun n => ?_, by omega⟩
        cases n with
        | zero => simp
        | succ n =>
          have := h2 n
          simp only [List.take_succ_cons, c1, List.count_cons_self]
          omega
      · rintro ⟨h2, h3⟩
        refine ⟨fun n => ?_, by omega⟩
        have := h2 (n + 1)
        simp only [List.take_succ_cons, c1, List.count_cons_self] at this
        omega
    · by_cases h2 : c = ')'
      · subst h2
        have c1 : ∀ l : List Char, List.count '(' (')' :: l) = List.count '(' l := by
          intro l; rw [List.count_cons]; simp
        cases stack with
        | nil =>
          have e : lineInvalid (')' :: rest) [] = true := by
            simp [lineInvalid, scanParentheses, isEmpty]
          rw [e]
          simp only [Bool.true_eq_false, false_iff, not_and]
          intro h
          have := h 1
          simp at this
        | cons d stack =>
          have e : lineInvalid (')' :: rest) (d :: stack) = lineInvalid rest stack := by
            simp [lineInvalid, scanParentheses, isEmpty, pop]
          rw [e, ih]
          simp only [c1, List.count_cons_self, List.length_cons]
          constructor
          · rintro ⟨h2, h3⟩
            refine ⟨fun n => ?_, by omega⟩
            cases n with
            | zero => simp
            | succ n =>
              have := h2 n
              simp only [List.take_succ_cons, c1, List.count_cons_self]
              omega
          · rintro ⟨h2, h3⟩
            refine ⟨fun n => ?_, by omega⟩
            have := h2 (n + 1)
            simp only [List.take_succ_cons, c1, List.count_cons_self] at this
            omega
      · have e : lineInvalid (c :: rest) stack = lineInvalid rest stack := by
          simp [lineInvalid, scanParentheses, h1, h2]
        have c1 : ∀ l : List Char, List.count '(' (c :: l) = List.count '(' l := by
          intro l; rw [List.count_cons]; simp [h1]
        have c2 : ∀ l : List Char, List.count ')' (c :: l) = List.count ')' l := by
          intro l; rw [List.count_cons]; simp [h2]
        rw [e, ih]
        simp only [c1, c2]
        constructor
        · rintro ⟨h2, h3⟩
          refine ⟨fun n => ?_, h3⟩
          cases n with
          | zero => simp
          | succ n =>
            have := h2 n
            simp only [List.take_succ_cons, c1, c2]
            omega
        · rintro ⟨h2, h3⟩
          refine ⟨fun n => ?_, h3⟩
          have := h2 (n + 1)
          simp only [List.take_succ_cons, c1, c2] at this
          omega

/-- On an empty stack the per-line check accepts exactly the balanced
lines. -/
theorem lineInvalid_balanced (line : List Char) :
    lineInvalid line initStack = false ↔ balanced line := by
  rw [lineInvalid_iff]
  simp [balanced, initStack]

/-- The scan of a string of balanced bracket pairs leaves the stack as it
found it and goes on with what follows. -/
theorem scanParentheses_pairs {s : List Char} (hs : BracketPairs s) :
    ∀ (rest : List Char) (stack : STACK),
      scanParentheses (s ++ rest) stack = scanParentheses rest stack := by
  induction hs with
  | empty => intro rest stack; rfl
  | pair s _ ih =>
    intro rest stack
    have e : ('(' :: (s ++ [')'])) ++ rest = '(' :: (s ++ (')' :: rest)) := by simp
    rw [e, scanParentheses]
    simp only [bne_self_eq_false, Bool.false_and, if_true, Bool.false_eq_true, if_false]
    rw [ih, scanParentheses]
    simp [push, pop, isEmpty]
  | next s t _ _ ihs iht =>
    intro rest stack
    rw [List.append_assoc, ihs, iht]

/-! ## The validator over a file -/

theorem drain_eq (stack : STACK) : drain stack = [] := by
  induction stack with
  | nil => rfl
  | cons d stack ih => simpa [drain] using ih

/-- The loop of parenthesesValidation, entered with an empty stack, counts and
reports exactly the lines that are invalid on their own. -/
theorem validationLoop_eq (lines : List (List Char)) : ∀ (k n : Nat) (reported : List Nat),
    validationLoop lines
        { invalidLines := k, lineNumber := n, stack := [], reported := reported }
      = { invalidLines := k + (invalidNumbers lines n).length, lineNumber := n + lines.length,
          stack := [], reported := reported ++ invalidNumbers lines n } := by
  induction lines with
  | nil => intro k n reported; simp [validationLoop, invalidNumbers]
  | cons line more ih =>
    intro k n reported
    by_cases h : lineInvalid line initStack = true
    · have h' : (!(scanParentheses line []).1 || !isEmpty (scanParentheses line []).2) = true := h
      simp only [validationLoop, h', if_true, drain_eq, ih, invalidNumbers, h, List.length_cons]
      simp only [List.append_assoc, List.singleton_append, ValidationState.mk.injEq, and_true,
        true_and]
      omega
    · have h' : ¬ (!(scanParentheses line []).1 || !isEmpty (scanParentheses line []).2) = true := h
      simp only [validationLoop, h', drain_eq, ih, invalidNumbers, h, List.length_cons,
        Bool.false_eq_true, if_false, ValidationState.mk.injEq, and_true, true_and]
      omega

theorem parenthesesValidation_eq (input : List Char) :
    parenthesesValidation input
      = ((invalidNumbers (fileLines 512 input) 0).length, invalidNumbers (fileLines 512 input) 0) := by
  simp [parenthesesValidation, initStack, validationLoop_eq]

theorem mem_invalidNumbers (lines : List (List Char)) : ∀ (n i : Nat) (line : List Char),
    lines[i]? = some line → lineInvalid line initStack = true →
    n + i + 1 ∈ invalidNumbers lines n := by
  induction lines with
  | nil => intro n i line h; simp at h
  | cons l more ih =>
    intro n i line h hbad
    cases i with
    | zero =>
      simp only [List.getElem?_cons_zero, Option.some.injEq] at h
      subst h
      simp [invalidNumbers, hbad]
    | succ i =>
      simp only [List.getElem?_cons_succ] at h
      have := ih (n + 1) i line h hbad
      have e : n + (i + 1) + 1 = n + 1 + i + 1 := by omega
      rw [e]
      by_cases hl : lineInvalid l initStack = true
      · simp only [invalidNumbers, hl, if_true]
        exact List.mem_cons_of_mem _ this
      · simp only [invalidNumbers, hl]
        exact this

/-! ## Characters the scan has no branch for -/

/-- On a character that is not a letter or a parenthesis the scan never
returns: no branch is taken and the cursor stays where it is. -/
theorem parse_stuck (c : Char) (rest : List Char) (stack : STACK) (h1 : isalpha c = false)
    (h2 : c ≠ '(') (h3 : c ≠ ')') :
    ∀ fuel, parseFormulaHelper fuel (c :: rest) stack = Run.outOfFuel := by
  intro fuel
  induction fuel with
  | zero => simp [parseFormulaHelper]
  | succ n ih => rw [parse_other _ _ _ _ h1 h2 h3, ih]

/-! ## The proton count of one line -/

theorem findAtomicNumber_absent (element : List Char) (elements : List ELEMENT)
    (h : ∀ e ∈ elements, e.symbol ≠ element) : findAtomicNumber element elements = 0 := by
  induction elements with
  | nil => rfl
  | cons e rest ih =>
    have h1 : e.symbol ≠ element := h e (List.mem_cons_self _ _)
    have h2 : ∀ x ∈ rest, x.symbol ≠ element := fun x hx => h x (List.mem_cons_of_mem _ hx)
    simp [findAtomicNumber, h1, ih h2]

theorem reverseOnto_eq (stack : STACK) : ∀ acc : STACK,
    reverseOnto stack acc = stack.reverse ++ acc := by
  induction stack with
  | nil => intro acc; rfl
  | cons a stack ih => intro acc; simp [reverseOnto, push, ih]

theorem writeStack_eq (atoms : List (List Char)) :
    writeStack atoms = spaced atoms ++ ['\n'] := by
  induction atoms with
  | nil => rfl
  | cons a atoms ih => simp [writeStack, ih, spaced]

theorem spaced_append (xs ys : List (List Char)) : spaced (xs ++ ys) = spaced xs ++ spaced ys := by
  simp [spaced]

theorem spaced_no_newline (atoms : List (List Char)) (h : ∀ a ∈ atoms, isToken a) :
    ∀ c ∈ spaced atoms, c ≠ '\n' := by
  intro c hc
  simp only [spaced, List.mem_flatten, List.mem_map] at hc
  obtain ⟨l, ⟨a, ha, rfl⟩, hc⟩ := hc
  rcases List.mem_append.mp hc with hc | hc
  · exact ((h a ha).2 c hc).2
  · simp only [List.mem_singleton] at hc
    rw [hc]; decide

theorem length_spaced_replicate (n : Nat) (a : List Char) :
    (spaced (List.replicate n a)).length = n * (a.length + 1) := by
  induction n with
  | zero => simp [spaced]
  | succ n ih =>
    simp only [spaced] at ih
    simp only [spaced, List.replicate_succ, List.map_cons, List.flatten_cons, List.length_append,
      ih, List.length_singleton]
    ring

theorem isSymbol_isToken {a : List Char} (ha : isSymbol a = true) : isToken a := by
  match a, ha with
  | c :: cs, ha =>
    simp only [isSymbol, Bool.and_eq_true, decide_eq_true_eq, List.all_eq_true] at ha
    refine ⟨by simp, ?_⟩
    intro x hx
    have hx' : isalpha x = true := by
      rcases List.mem_cons.mp hx with h | h
      · rw [h]; exact isupper_isalpha ha.1.1
      · simp [isalpha, ha.2 x h]
    constructor
    · rintro rfl; revert hx'; decide
    · rintro rfl; revert hx'; decide

theorem strtokSpaces_append (a : List Char) (ha : ∀ c ∈ a, c ≠ ' ') :
    ∀ (rest cur : List Char), strtokSpaces (a ++ rest) cur = strtokSpaces rest (cur ++ a) := by
  induction a with
  | nil => intro rest cur; simp
  | cons c a ih =>
    intro rest cur
    have h1 : c ≠ ' ' := ha c (List.mem_cons_self _ _)
    have h2 : ∀ x ∈ a, x ≠ ' ' := fun x hx => ha x (List.mem_cons_of_mem _ hx)
    rw [List.cons_append, strtokSpaces, if_neg h1, ih h2]
    simp

/-- The tokens of a line made of tokens, each followed by one space, are those
tokens. -/
theorem strtokSpaces_spaced (atoms : List (List Char)) (h : ∀ a ∈ atoms, isToken a)
    (tail : List Char) :
    strtokSpaces (spaced atoms ++ tail) [] = atoms ++ strtokSpaces tail [] := by
  induction atoms with
  | nil => simp [spaced]
  | cons a atoms ih =>
    have h1 : isToken a := h a (List.mem_cons_self _ _)
    have h2 : ∀ x ∈ atoms, isToken x := fun x hx => h x (List.mem_cons_of_mem _ hx)
    simp only [spaced] at ih
    simp only [spaced, List.map_cons, List.flatten_cons, List.append_assoc, List.singleton_append,
      List.cons_append]
    rw [strtokSpaces_append a (fun c hc => (h1.2 c hc).1)]
    simp only [List.nil_append, strtokSpaces, if_true, if_neg h1.1]
    rw [ih h2]

theorem stripNewline_append (xs : List Char) (hx : ∀ c ∈ xs, c ≠ '\n') (rest : List Char) :
    stripNewline (xs ++ '\n' :: rest) = xs := by
  induction xs with
  | nil => simp [stripNewline]
  | cons c xs ih =>
    have h1 : c ≠ '\n' := hx c (List.mem_cons_self _ _)
    have h2 : ∀ x ∈ xs, x ≠ '\n' := fun x hx' => hx x (List.mem_cons_of_mem _ hx')
    have := ih h2
    simp only [stripNewline] at this ⊢
    simp [List.takeWhile_cons, h1, this]

theorem wrapInt_idem (x : Int) : wrapInt (wrapInt x) = wrapInt x := by
  unfold wrapInt
  omega

theorem wrapInt_add (a b : Int) : wrapInt (wrapInt a + b) = wrapInt (a + b) := by
  unfold wrapInt
  omega

/-- A number in the range of a 32-bit `int` is kept as it is. -/
theorem wrapInt_small (x : Int) (h1 : -2147483648 ≤ x) (h2 : x < 2147483648) :
    wrapInt x = x := by
  unfold wrapInt
  omega

/-- The sum the loop of countProtons computes is the sum of the atomic numbers
of the tokens brought into the range of a 32-bit `int`. -/
theorem addTokens_eq (elements : List ELEMENT) (tokens : List (List Char)) :
    ∀ count : Int, wrapInt count = count →
      addTokens elements tokens count = wrapInt (count + protonSum elements tokens) := by
  induction tokens with
  | nil =>
    intro count hc
    simp only [addTokens, protonSum, List.map_nil, List.sum_nil, add_zero, hc]
  | cons a tokens ih =>
    intro count _
    simp only [addTokens, protonSum, List.map_cons, List.sum_cons]
    rw [ih _ (wrapInt_idem _), wrapInt_add]
    simp only [protonSum, add_assoc]

/-- The integer countProtons computes from a line that parseFormula wrote for
a sequence of tokens is the sum of their atomic numbers, in the range of a
32-bit `int`. -/
theorem countLine_writeStack (elements : List ELEMENT) (atoms : List (List Char))
    (h : ∀ a ∈ atoms, isToken a) :
    countLine elements (writeStack atoms) = wrapInt (protonSum elements atoms) := by
  rw [countLine, writeStack_eq, stripNewline_append _ (spaced_no_newline atoms h)]
  have := strtokSpaces_spaced atoms h []
  simp only [List.append_nil] at this
  rw [this]
  simp [strtokSpaces, addTokens_eq _ _ 0 rfl]

/-! ## Reading a file line by line -/

theorem fgetsAux_length (k : Nat) : ∀ input : List Char,
    (fgetsAux k input).2.length ≤ input.length := by
  induction k with
  | zero => intro input; simp [fgetsAux]
  | succ k ih =>
    intro input
    cases input with
    | nil => simp [fgetsAux]
    | cons c cs =>
      by_cases h : c = '\n'
      · simp [fgetsAux, h]
      · simp only [fgetsAux, if_neg h, List.length_cons]
        exact Nat.le_succ_of_le (ih cs)

theorem fgetsAux_length_cons (k : Nat) (c : Char) (cs : List Char) :
    (fgetsAux (k + 1) (c :: cs)).2.length ≤ cs.length := by
  by_cases h : c = '\n'
  · simp [fgetsAux, h]
  · simp only [fgetsAux, if_neg h]
    exact fgetsAux_length k cs

/-- Once the rounds cover the length of the file, more rounds read the same
lines. -/
theorem readLines_enough (size : Nat) (hsize : 2 ≤ size) : ∀ (n m : Nat) (input : List Char),
    input.length ≤ n → input.length ≤ m → readLines size n input = readLines size m input := by
  intro n
  induction n with
  | zero =>
    intro m input hn _
    have : input = [] := List.length_eq_zero.mp (Nat.le_zero.mp hn)
    subst this
    cases m <;> simp [readLines, fgets]
  | succ n ih =>
    intro m input hn hm
    cases input with
    | nil => cases m <;> simp [readLines, fgets]
    | cons c cs =>
      cases m with
      | zero => simp at hm
      | succ m =>
        obtain ⟨k, hk⟩ : ∃ k, size - 1 = k + 1 := ⟨size - 2, by omega⟩
        have hlen := fgetsAux_length_cons k c cs
        simp only [List.length_cons] at hn hm
        simp only [readLines, fgets, hk]
        rw [ih m _ (by omega) (by omega)]

theorem fileLines_nil (size : Nat) : fileLines size [] = [] := rfl

/-- The loop over a file that is not at its end reads one string with `fgets`
and goes on with the unread rest. -/
theorem fileLines_cons (size : Nat) (hsize : 2 ≤ size) (c : Char) (cs : List Char) :
    fileLines size (c :: cs)
      = (fgetsAux (size - 1) (c :: cs)).1 :: fileLines size (fgetsAux (size - 1) (c :: cs)).2 := by
  obtain ⟨k, hk⟩ : ∃ k, size - 1 = k + 1 := ⟨size - 2, by omega⟩
  have hlen : (fgetsAux (size - 1) (c :: cs)).2.length ≤ cs.length := by
    rw [hk]; exact fgetsAux_length_cons k c cs
  simp only [fileLines, List.length_cons, readLines, fgets]
  rw [readLines_enough size hsize cs.length _ _ hlen (le_refl _)]

/-- The `fgets` call reads a line that fits the buffer through its newline. -/
theorem fgetsAux_line (xs : List Char) (hx : ∀ c ∈ xs, c ≠ '\n') (rest : List Char) :
    ∀ k, xs.length < k → fgetsAux k (xs ++ '\n' :: rest) = (xs ++ ['\n'], rest) := by
  induction xs with
  | nil =>
    intro k hk
    cases k with
    | zero => simp at hk
    | succ k => simp [fgetsAux]
  | cons c xs ih =>
    intro k hk
    have h1 : c ≠ '\n' := hx c (List.mem_cons_self _ _)
    have h2 : ∀ x ∈ xs, x ≠ '\n' := fun x hx' => hx x (List.mem_cons_of_mem _ hx')
    cases k with
    | zero => simp at hk
    | succ k =>
      simp only [List.length_cons] at hk
      simp [fgetsAux, h1, ih h2 k (by omega)]

/-- The `fgets` call cuts a line without newline where the buffer is full. -/
theorem fgetsAux_full (xs : List Char) (hx : ∀ c ∈ xs, c ≠ '\n') (rest : List Char) :
    fgetsAux xs.length (xs ++ rest) = (xs, rest) := by
  induction xs with
  | nil => simp [fgetsAux]
  | cons c xs ih =>
    have h1 : c ≠ '\n' := hx c (List.mem_cons_self _ _)
    have h2 : ∀ x ∈ xs, x ≠ '\n' := fun x hx' => hx x (List.mem_cons_of_mem _ hx')
    simp [fgetsAux, h1, ih h2]

/-- The `fgets` call reads a last line without newline to the end of file. -/
theorem fgetsAux_end (xs : List Char) (hx : ∀ c ∈ xs, c ≠ '\n') :
    ∀ k, xs.length ≤ k → fgetsAux k xs = (xs, []) := by
  induction xs with
  | nil => intro k _; cases k <;> simp [fgetsAux]
  | cons c xs ih =>
    intro k hk
    have h1 : c ≠ '\n' := hx c (List.mem_cons_self _ _)
    have h2 : ∀ x ∈ xs, x ≠ '\n' := fun x hx' => hx x (List.mem_cons_of_mem _ hx')
    cases k with
    | zero => simp at hk
    | succ k =>
      simp only [List.length_cons] at hk
      simp [fgetsAux, h1, ih h2 k (by omega)]

theorem stripNewline_none (xs : List Char) (hx : ∀ c ∈ xs, c ≠ '\n') : stripNewline xs = xs := by
  induction xs with
  | nil => rfl
  | cons c xs ih =>
    have h1 : c ≠ '\n' := hx c (List.mem_cons_self _ _)
    have h2 : ∀ x ∈ xs, x ≠ '\n' := fun x hx' => hx x (List.mem_cons_of_mem _ hx')
    have := ih h2
    simp only [stripNewline] at this ⊢
    simp [List.takeWhile_cons, h1, this]

theorem fileLines_ne_nil (size : Nat) (hsize : 2 ≤ size) (input : List Char) (h : input ≠ []) :
    fileLines size input
      = (fgetsAux (size - 1) input).1 :: fileLines size (fgetsAux (size - 1) input).2 := by
  cases input with
  | nil => exact absurd rfl h
  | cons c cs => exact fileLines_cons size hsize c cs

/-- A file of one line that fits the buffer is read as that one line. -/
theorem fileLines_single (size : Nat) (xs : List Char) (hx : ∀ c ∈ xs, c ≠ '\n')
    (hlen : xs.length + 2 ≤ size) : fileLines size (xs ++ ['\n']) = [xs ++ ['\n']] := by
  rw [fileLines_ne_nil size (by omega) _ (by simp), fgetsAux_line xs hx [] (size - 1) (by omega)]
  rfl

/-! ## A file of one line through parseFormula and countProtons -/

/-- The text parseFormula writes for a file of one line that fits its buffer
and passes the validation, once the scan of the line has returned. -/
theorem parseFormula_single (fuel : Nat) (line : List Char) (stack : STACK)
    (hline : ∀ c ∈ line, c ≠ '\n') (hlen : line.length + 2 ≤ 256)
    (hvalid : lineInvalid (line ++ ['\n']) initStack = false)
    (hparse : parseFormulaHelper fuel line initStack = Run.done stack) :
    parseFormula fuel (line ++ ['\n']) = Run.done (some (writeStack stack.reverse)) := by
  have v : (parenthesesValidation (line ++ ['\n'])).1 = 0 := by
    rw [parenthesesValidation_eq, fileLines_single 512 line hline (by omega)]
    simp [invalidNumbers, hvalid]
  have x : expandLines fuel [line ++ ['\n']] [] = Run.done (writeStack stack.reverse) := by
    have s : stripNewline (line ++ ['\n']) = line := stripNewline_append line hline []
    rw [expandLines, s, hparse]
    simp [expandLines, reverseOnto_eq, initStack]
  rw [parseFormula, fileLines_single 256 line hline hlen, x]
  simp [v]

/-- The run of countProtons once the validation has passed and parseFormula
has written the parsed output: one integer per string read from it. -/
theorem countProtons_of_parsed (fuel : Nat) (elements : List ELEMENT) (input parsed : List Char)
    (hv : (parenthesesValidation input).1 = 0)
    (hp : parseFormula fuel input = Run.done (some parsed)) :
    countProtons fuel elements input
      = Run.done (some ((fileLines 2048 parsed).map (countLine elements))) := by
  rw [countProtons, hp]
  simp [hv]

/-- A line one character too long for the buffer is read in two pieces. -/
theorem fileLines_two (size : Nat) (hsize : 2 ≤ size) (xs ys : List Char)
    (hx : ∀ c ∈ xs, c ≠ '\n') (hxlen : xs.length = size - 1)
    (hy : ∀ c ∈ ys, c ≠ '\n') (hylen : ys.length < size - 1) :
    fileLines size (xs ++ (ys ++ ['\n'])) = [xs, ys ++ ['\n']] := by
  have n1 : xs ++ (ys ++ ['\n']) ≠ [] := by
    apply List.ne_nil_of_length_pos
    rw [List.length_append, hxlen]
    omega
  have n2 : ys ++ ['\n'] ≠ [] := by
    apply List.ne_nil_of_length_pos
    rw [List.length_append, List.length_singleton]
    omega
  rw [fileLines_ne_nil size hsize _ n1, ← hxlen, fgetsAux_full xs hx]
  simp only
  rw [fileLines_ne_nil size hsize _ n2, fgetsAux_line ys hy [] (size - 1) hylen]
  rfl

theorem writeStack_split (xs ys : List (List Char)) (a : List Char) :
    writeStack (xs ++ a :: ys) = (spaced xs ++ a) ++ ((' ' :: spaced ys) ++ ['\n']) := by
  rw [writeStack_eq, spaced_append]
  simp [spaced]

/-- The integers countProtons writes from a parsed output of one line that
fits its buffer: the sum of the atomic numbers of the atoms, in the range of a
32-bit `int`. -/
theorem countLines_single (elements : List ELEMENT) (atoms : List (List Char))
    (htok : ∀ a ∈ atoms, isToken a) (hlen : (spaced atoms).length + 2 ≤ 2048) :
    (fileLines 2048 (writeStack atoms)).map (countLine elements)
      = [wrapInt (protonSum elements atoms)] := by
  have e := fileLines_single 2048 (spaced atoms) (spaced_no_newline atoms htok) hlen
  rw [← writeStack_eq] at e
  rw [e]
  simp [countLine_writeStack elements atoms htok]

/-- The run of countProtons on a file of one line that fits the line buffers,
passes the validation and whose parsed output fits the buffer of countProtons:
one integer, the sum of the atomic numbers of the atoms left by the scan, in
the range of a 32-bit `int`. -/
theorem countProtons_single (fuel : Nat) (elements : List ELEMENT) (line : List Char)
    (stack : STACK) (hline : ∀ c ∈ line, c ≠ '\n') (hlen : line.length + 2 ≤ 256)
    (hvalid : lineInvalid (line ++ ['\n']) initStack = false)
    (hparse : parseFormulaHelper fuel line initStack = Run.done stack)
    (htok : ∀ a ∈ stack, isToken a) (hout : (spaced stack.reverse).length + 2 ≤ 2048) :
    countProtons fuel elements (line ++ ['\n'])
      = Run.done (some [wrapInt (protonSum elements stack.reverse)]) := by
  have v : (parenthesesValidation (line ++ ['\n'])).1 = 0 := by
    rw [parenthesesValidation_eq, fileLines_single 512 line hline (by omega)]
    simp [invalidNumbers, hvalid]
  have htok' : ∀ a ∈ stack.reverse, isToken a := fun a ha => htok a (List.mem_reverse.mp ha)
  rw [countProtons_of_parsed fuel _ _ _ v
    (parseFormula_single fuel line stack hline hlen hvalid hparse),
    countLines_single elements stack.reverse htok' hout]

/-! ## Well-formed formulas through the validator and the proton count -/

theorem isalpha_not_special {c : Char} (h : isalpha c = true) :
    c ≠ '(' ∧ c ≠ ')' ∧ c ≠ '\n' ∧ c ≠ ' ' := by
  refine ⟨?_, ?_, ?_, ?_⟩ <;> (rintro rfl; revert h; decide)

theorem isdigit_not_special {c : Char} (h : isdigit c = true) :
    c ≠ '(' ∧ c ≠ ')' ∧ c ≠ '\n' ∧ c ≠ ' ' := by
  refine ⟨?_, ?_, ?_, ?_⟩ <;> (rintro rfl; revert h; decide)

theorem isSymbol_isalpha {name : List Char} (hn : isSymbol name = true) :
    ∀ c ∈ name, isalpha c = true := by
  match name, hn with
  | c :: cs, hn =>
    simp only [isSymbol, Bool.and_eq_true, decide_eq_true_eq, List.all_eq_true] at hn
    intro x hx
    rcases List.mem_cons.mp hx with h | h
    · rw [h]; exact isupper_isalpha hn.1.1
    · simp [isalpha, hn.2 x h]

theorem multiplier_text_isdigit {m : Multiplier} (hm : m.wellFormed = true) :
    ∀ c ∈ m.text, isdigit c = true := by
  cases m with
  | absent => intro c hc; simp [Multiplier.text] at hc
  | one d =>
    intro c hc
    simp only [Multiplier.text, List.mem_singleton] at hc
    rw [hc]; simpa [Multiplier.wellFormed] using hm
  | two d1 d2 =>
    have hd : isdigit d1 = true ∧ isdigit d2 = true := by
      simpa [Multiplier.wellFormed] using hm
    intro c hc
    simp only [Multiplier.text, List.mem_cons, List.mem_singleton, List.not_mem_nil,
      or_false] at hc
    rcases hc with h | h
    · rw [h]; exact hd.1
    · rw [h]; exact hd.2

/-- The text of a well-formed formula is made of letters, digits and
parentheses. -/
theorem text_chars {F : Formula} (hF : F.wellFormed = true) :
    ∀ c ∈ F.text, isalpha c = true ∨ isdigit c = true ∨ c = '(' ∨ c = ')' := by
  induction F with
  | nil => intro c hc; simp [Formula.text] at hc
  | sym name m rest ih =>
    simp only [Formula.wellFormed, Bool.and_eq_true] at hF
    intro c hc
    simp only [Formula.text, List.mem_append] at hc
    rcases hc with h | h | h
    · exact Or.inl (isSymbol_isalpha hF.1.1 c h)
    · exact Or.inr (Or.inl (multiplier_text_isdigit hF.1.2 c h))
    · exact ih hF.2 c h
  | group body m rest ihb ihr =>
    simp only [Formula.wellFormed, Bool.and_eq_true] at hF
    intro c hc
    simp only [Formula.text, List.mem_cons, List.mem_append] at hc
    rcases hc with h | h | h | h | h
    · exact Or.inr (Or.inr (Or.inl h))
    · exact ihb hF.1.1 c h
    · exact Or.inr (Or.inr (Or.inr h))
    · exact Or.inr (Or.inl (multiplier_text_isdigit hF.1.2 c h))
    · exact ihr hF.2 c h

theorem text_no_newline {F : Formula} (hF : F.wellFormed = true) :
    ∀ c ∈ F.text, c ≠ '\n' := by
  intro c hc
  rcases text_chars hF c hc with h | h | h | h
  · exact (isalpha_not_special h).2.2.1
  · exact (isdigit_not_special h).2.2.1
  · rw [h]; decide
  · rw [h]; decide

theorem scanParentheses_skip (xs : List Char) (hx : ∀ c ∈ xs, c ≠ '(' ∧ c ≠ ')') :
    ∀ (rest : List Char) (stack : STACK),
      scanParentheses (xs ++ rest) stack = scanParentheses rest stack := by
  induction xs with
  | nil => intro rest stack; rfl
  | cons c xs ih =>
    intro rest stack
    have h1 := hx c (List.mem_cons_self _ _)
    have h2 : ∀ x ∈ xs, x ≠ '(' ∧ x ≠ ')' := fun x hx' => hx x (List.mem_cons_of_mem _ hx')
    rw [List.cons_append, scanParentheses]
    simp [h1.1, h1.2, ih h2]

/-- The validator's scan of the text of a well-formed formula leaves the stack
as it found it. -/
theorem scanParentheses_text {F : Formula} (hF : F.wellFormed = true) :
    ∀ (rest : List Char) (stack : STACK),
      scanParentheses (F.text ++ rest) stack = scanParentheses rest stack := by
  induction F with
  | nil => intro rest stack; rfl
  | sym name m restF ih =>
    simp only [Formula.wellFormed, Bool.and_eq_true] at hF
    intro rest stack
    have hn : ∀ c ∈ name, c ≠ '(' ∧ c ≠ ')' := fun c hc =>
      ⟨(isalpha_not_special (isSymbol_isalpha hF.1.1 c hc)).1,
       (isalpha_not_special (isSymbol_isalpha hF.1.1 c hc)).2.1⟩
    have hm : ∀ c ∈ m.text, c ≠ '(' ∧ c ≠ ')' := fun c hc =>
      ⟨(isdigit_not_special (multiplier_text_isdigit hF.1.2 c hc)).1,
       (isdigit_not_special (multiplier_text_isdigit hF.1.2 c hc)).2.1⟩
    simp only [Formula.text, List.append_assoc]
    rw [scanParentheses_skip name hn, scanParentheses_skip m.text hm, ih hF.2]
  | group body m restF ihb ihr =>
    simp only [Formula.wellFormed, Bool.and_eq_true] at hF
    intro rest stack
    have hm : ∀ c ∈ m.text, c ≠ '(' ∧ c ≠ ')' := fun c hc =>
      ⟨(isdigit_not_special (multiplier_text_isdigit hF.1.2 c hc)).1,
       (isdigit_not_special (multiplier_text_isdigit hF.1.2 c hc)).2.1⟩
    simp only [Formula.text, List.append_assoc, List.cons_append]
    rw [scanParentheses]
    simp only [bne_self_eq_false, Bool.false_and, if_true, Bool.false_eq_true, if_false]
    rw [ihb hF.1.1, scanParentheses]
    simp only [push, pop, isEmpty]
    simp only [List.length_cons, Nat.add_one_ne_zero, beq_iff_eq, not_false_eq_true,
      decide_not, Bool.not_eq_true', beq_eq_false_iff_ne, ne_eq]
    simp [scanParentheses_skip m.text hm, ihr hF.2]

/-- The line of a well-formed formula passes the per-line check. -/
theorem lineInvalid_text {F : Formula} (hF : F.wellFormed = true) :
    lineInvalid (F.text ++ ['\n']) initStack = false := by
  have h := scanParentheses_text hF ['\n'] initStack
  rw [lineInvalid, h]
  rfl

/-- With enough fuel countProtons writes, for the file made of the line of a
well-formed formula that fits the line buffer and whose expansion fits the
buffer of countProtons, one integer: the sum of the atomic numbers of the
atoms of the expansion, in the range of a 32-bit `int`. -/
theorem countProtons_formula (F : Formula) (hF : F.wellFormed = true)
    (elements : List ELEMENT) (hlen : F.text.length + 2 ≤ 256)
    (hout : (spaced F.expand).length + 2 ≤ 2048) :
    ∃ n, ∀ fuel, n ≤ fuel →
      countProtons fuel elements (F.text ++ ['\n'])
        = Run.done (some [wrapInt (protonSum elements F.expand)]) := by
  obtain ⟨n, hn⟩ := parse_formula F hF
  refine ⟨n, fun fuel hfuel => ?_⟩
  have htok : ∀ a ∈ F.expand.reverse, isToken a := fun a ha =>
    isSymbol_isToken (expand_symbols hF a (List.mem_reverse.mp ha))
  have h := countProtons_single fuel elements F.text F.expand.reverse (text_no_newline hF) hlen
    (lineInvalid_text hF) (hn fuel hfuel) htok (by simpa using hout)
  simpa using h

theorem expand_hydrogenRun (k : Nat) :
    (hydrogenRun k).expand = List.replicate (99 * k) ['H'] := by
  induction k with
  | zero => rfl
  | succ k ih =>
    have v : (Multiplier.two '9' '9').value = 99 := by decide
    simp only [hydrogenRun, Formula.expand, v, ih, List.append_replicate_replicate]
    congr 1
    ring

theorem wellFormed_hydrogenRun (k : Nat) : (hydrogenRun k).wellFormed = true := by
  induction k with
  | zero => rfl
  | succ k ih =>
    have h1 : isSymbol ['H'] = true := by decide
    have h2 : (Multiplier.two '9' '9').wellFormed = true := by decide
    simp [hydrogenRun, Formula.wellFormed, ih, h1, h2]

/-! ## The strings read from a file and the lines of its text -/

theorem fgetsAux_append (k : Nat) : ∀ input : List Char,
    (fgetsAux k input).1 ++ (fgetsAux k input).2 = input := by
  induction k with
  | zero => intro input; simp [fgetsAux]
  | succ k ih =>
    intro input
    cases input with
    | nil => simp [fgetsAux]
    | cons c cs =>
      by_cases h : c = '\n'
      · simp [fgetsAux, h]
      · simp [fgetsAux, h, ih cs]

/-- Reading stops at the newline that ends `p`, whatever follows it. -/
theorem fgetsAux_newline (k : Nat) : ∀ (p rest : List Char),
    fgetsAux k (p ++ '\n' :: rest)
      = ((fgetsAux k (p ++ ['\n'])).1, (fgetsAux k (p ++ ['\n'])).2 ++ rest) := by
  induction k with
  | zero => intro p rest; simp [fgetsAux]
  | succ k ih =>
    intro p rest
    cases p with
    | nil => simp [fgetsAux]
    | cons c p =>
      by_cases h : c = '\n'
      · simp [fgetsAux, h]
      · simp [fgetsAux, h, ih p rest]

/-- The strings read from a text up to a newline and what follows it are the
strings read from the text up to the newline, then those read from what
follows. -/
theorem fileLines_newline (size : Nat) (hsize : 2 ≤ size) (rest : List Char) :
    ∀ (n : Nat) (p : List Char), p.length ≤ n →
      fileLines size (p ++ '\n' :: rest)
        = fileLines size (p ++ ['\n']) ++ fileLines size rest := by
  intro n
  induction n with
  | zero =>
    intro p hp
    have : p = [] := List.length_eq_zero.mp (Nat.le_zero.mp hp)
    subst this
    obtain ⟨k, hk⟩ : ∃ k, size - 1 = k + 1 := ⟨size - 2, by omega⟩
    rw [List.nil_append, List.nil_append, fileLines_cons size hsize, fileLines_cons size hsize, hk]
    simp [fgetsAux, fileLines_nil]
  | succ n ih =>
    intro p hp
    obtain ⟨k, hk⟩ : ∃ k, size - 1 = k + 1 := ⟨size - 2, by omega⟩
    rw [fileLines_ne_nil size hsize (p ++ '\n' :: rest) (by simp),
      fileLines_ne_nil size hsize (p ++ ['\n']) (by simp), fgetsAux_newline]
    simp only [List.cons_append]
    congr 1
    rcases List.eq_nil_or_concat (fgetsAux (size - 1) (p ++ ['\n'])).2 with h | ⟨p', c, h⟩
    · rw [h, fileLines_nil, List.nil_append, List.nil_append]
    · rw [List.concat_eq_append] at h
      have happ := fgetsAux_append (size - 1) (p ++ ['\n'])
      rw [h] at happ ⊢
      have h1 : (fgetsAux (size - 1) (p ++ ['\n'])).1 ++ p' = p ∧ c = '\n' := by
        rw [← List.append_assoc] at happ
        have := List.append_inj' happ rfl
        exact ⟨this.1, by simpa using this.2⟩
      have h2 : (fgetsAux (size - 1) (p ++ ['\n'])).1 ≠ [] := by
        cases p with
        | nil =>
          rw [hk]
          simp [fgetsAux]
        | cons d p =>
          rw [hk]
          by_cases hd : d = '\n'
          · simp [fgetsAux, hd]
          · simp [fgetsAux, hd]
      have h3 : p'.length ≤ n := by
        have hl := congrArg List.length h1.1
        rw [List.length_append] at hl
        have : 0 < (fgetsAux (size - 1) (p ++ ['\n'])).1.length := List.length_pos.mpr h2
        omega
      rw [h1.2, List.append_assoc, List.singleton_append]
      exact ih p' h3

theorem flatten_fileLines (size : Nat) (hsize : 2 ≤ size) : ∀ (n : Nat) (input : List Char),
    input.length ≤ n → (fileLines size input).flatten = input := by
  intro n
  induction n with
  | zero =>
    intro input h
    have : input = [] := List.length_eq_zero.mp (Nat.le_zero.mp h)
    subst this
    rfl
  | succ n ih =>
    intro input h
    cases input with
    | nil => rfl
    | cons c cs =>
      obtain ⟨k, hk⟩ : ∃ k, size - 1 = k + 1 := ⟨size - 2, by omega⟩
      rw [fileLines_cons size hsize, List.flatten_cons, ih]
      · exact fgetsAux_append _ _
      · have := fgetsAux_length_cons k c cs
        rw [hk]
        simp only [List.length_cons] at h
        omega

/-! ## Balanced texts side by side -/

theorem balanced_append {xs ys : List Char} (hx : balanced xs) (hy : balanced ys) :
    balanced (xs ++ ys) := by
  constructor
  · intro n
    rw [List.take_append_eq_append_take, List.count_append, List.count_append]
    have h1 := hx.1 n
    have h2 := hy.1 (n - xs.length)
    omega
  · rw [List.count_append, List.count_append, hx.2, hy.2]

theorem balanced_flatten (chunks : List (List Char)) (h : ∀ c ∈ chunks, balanced c) :
    balanced chunks.flatten := by
  induction chunks with
  | nil =>
    constructor
    · intro n; simp
    · rfl
  | cons c chunks ih =>
    rw [List.flatten_cons]
    exact balanced_append (h c (List.mem_cons_self _ _))
      (ih (fun x hx => h x (List.mem_cons_of_mem _ hx)))

theorem balanced_of_newline {line : List Char} (h : balanced (line ++ ['\n'])) :
    balanced line := by
  have c1 : ∀ l : List Char, List.count ')' (l ++ ['\n']) = List.count ')' l := by
    intro l; rw [List.count_append]; simp
  have c2 : ∀ l : List Char, List.count '(' (l ++ ['\n']) = List.count '(' l := by
    intro l; rw [List.count_append]; simp
  constructor
  · intro n
    by_cases hn : n ≤ line.length
    · have := h.1 n
      rwa [List.take_append_of_le_length hn] at this
    · have := h.2
      rw [c1, c2] at this
      rw [List.take_of_length_le (by omega), this]
  · have := h.2
    rwa [c1, c2] at this

theorem invalidNumbers_nil_iff (lines : List (List Char)) : ∀ n : Nat,
    invalidNumbers lines n = [] ↔ ∀ l ∈ lines, lineInvalid l initStack = false := by
  induction lines with
  | nil => intro n; simp [invalidNumbers]
  | cons l more ih =>
    intro n
    by_cases h : lineInvalid l initStack = true
    · simp [invalidNumbers, h]
    · have h' : lineInvalid l initStack = false := by simpa using h
      simp [invalidNumbers, h', ih (n + 1)]

/-- When parenthesesValidation returns 0, every line of the text is
balanced. -/
theorem balanced_of_validation (input line : List Char) (hline : isLineOf line input)
    (hv : (parenthesesValidation input).1 = 0) : balanced line := by
  rw [parenthesesValidation_eq] at hv
  have hall := (invalidNumbers_nil_iff _ 0).mp (List.length_eq_zero.mp hv)
  have hbal : ∀ c ∈ fileLines 512 input, balanced c := fun c hc =>
    (lineInvalid_balanced c).mp (hall c hc)
  obtain ⟨before, after, hin, hb, _, ha⟩ := hline
  have part : ∀ text : List Char, (∀ c ∈ fileLines 512 text, balanced c) → balanced text := by
    intro text ht
    have := balanced_flatten _ ht
    rwa [flatten_fileLines 512 (by decide) text.length text (le_refl _)] at this
  have tail : (∀ c ∈ fileLines 512 (line ++ after), balanced c) → balanced line := by
    intro ht
    rcases ha with ha | ⟨q, ha⟩
    · rw [ha, List.append_nil] at ht
      exact part line ht
    · rw [ha, fileLines_newline 512 (by decide) q line.length line (le_refl _)] at ht
      exact balanced_of_newline
        (part _ (fun c hc => ht c (List.mem_append_left _ hc)))
  rcases hb with hb | ⟨p, hb⟩
  · rw [hin, hb, List.nil_append] at hbal
    exact tail hbal
  · rw [hin, hb, List.append_assoc, List.singleton_append,
      fileLines_newline 512 (by decide) _ p.length p (le_refl _)] at hbal
    exact tail (fun c hc => hbal c (List.mem_append_right _ hc))

/-- A file of lines that fit the buffer is read line by line. -/
theorem fileLines_joinLines (size : Nat) (hsize : 2 ≤ size) (lines : List (List Char))
    (h : ∀ l ∈ lines, (∀ c ∈ l, c ≠ '\n') ∧ l.length + 2 ≤ size) :
    fileLines size (joinLines lines) = lines.map (fun l => l ++ ['\n']) := by
  induction lines with
  | nil => rfl
  | cons l lines ih =>
    have h1 := h l (List.mem_cons_self _ _)
    have h2 := ih (fun x hx => h x (List.mem_cons_of_mem _ hx))
    have e : joinLines (l :: lines) = l ++ '\n' :: joinLines lines := by
      simp [joinLines]
    rw [e, fileLines_newline size hsize _ l.length l (le_refl _),
      fileLines_single size l h1.1 h1.2, h2]
    rfl

/-! ## The table lookup -/

/-- A lookup that does not return 0 has found an entry with exactly the symbol
asked for, and returns its atomic number. -/
theorem findAtomicNumber_found (element : List Char) (elements : List ELEMENT)
    (h : findAtomicNumber element elements ≠ 0) :
    ∃ e ∈ elements, e.symbol = element ∧ findAtomicNumber element elements = e.atomicNumber := by
  induction elements with
  | nil => exact absurd rfl h
  | cons e rest ih =>
    by_cases he : e.symbol = element
    · exact ⟨e, List.mem_cons_self _ _, he, by simp [findAtomicNumber, he]⟩
    · have e1 : findAtomicNumber element (e :: rest) = findAtomicNumber element rest := by
        simp [findAtomicNumber, he]
      rw [e1] at h ⊢
      obtain ⟨x, hx, hs, hn⟩ := ih h
      exact ⟨x, List.mem_cons_of_mem _ hx, hs, hn⟩

/-- In a table with pairwise distinct symbols the lookup of the symbol of an
entry returns the atomic number of that entry. -/
theorem findAtomicNumber_mem (elements : List ELEMENT)
    (hd : (elements.map (fun e => e.symbol)).Nodup) :
    ∀ e ∈ elements, findAtomicNumber e.symbol elements = e.atomicNumber := by
  induction elements with
  | nil => intro e he; simp at he
  | cons x rest ih =>
    intro e he
    simp only [List.map_cons, List.nodup_cons] at hd
    rcases List.mem_cons.mp he with h | h
    · subst h
      simp [findAtomicNumber]
    · have hne : x.symbol ≠ e.symbol := by
        intro heq
        apply hd.1
        rw [heq]
        exact List.mem_map.mpr ⟨e, h, rfl⟩
      simp only [findAtomicNumber, if_neg hne]
      exact ih hd.2 e h

/-! ## The validator looks at parentheses only -/

theorem scanParentheses_parenthesesOf (line : List Char) : ∀ stack : STACK,
    scanParentheses (parenthesesOf line) stack = scanParentheses line stack := by
  induction line with
  | nil => intro stack; rfl
  | cons c rest ih =>
    intro stack
    by_cases h1 : c = '('
    · subst h1
      have e : parenthesesOf ('(' :: rest) = '(' :: parenthesesOf rest := by
        simp [parenthesesOf]
      rw [e, scanParentheses, scanParentheses]
      simp [ih]
    · by_cases h2 : c = ')'
      · subst h2
        have e : parenthesesOf (')' :: rest) = ')' :: parenthesesOf rest := by
          simp [parenthesesOf]
        rw [e, scanParentheses, scanParentheses]
        simp [ih]
      · have e : parenthesesOf (c :: rest) = parenthesesOf rest := by
          simp [parenthesesOf, h1, h2]
        rw [e, ih]
        conv_rhs => rw [scanParentheses]
        simp [h1, h2]

/-! ## Pushes and pops -/

theorem pushAll_fits (values : List (List Char)) (h : ∀ v ∈ values, v.length ≤ 3) :
    ∀ s : STACK, pushAll (some s) values
      = Run.done (values.map (fun _ => EXIT_SUCCESS), some (values.reverse ++ s)) := by
  induction values with
  | nil => intro s; rfl
  | cons v more ih =>
    intro s
    have h1 : v.length < MAX_SIZE := by
      have := h v (List.mem_cons_self _ _)
      simp only [MAX_SIZE]; omega
    have h2 := ih (fun x hx => h x (List.mem_cons_of_mem _ hx)) (push s v)
    simp only [pushAll, pushCall, if_pos h1, h2]
    simp [push]

theorem popTimes_pushed (values : List (List Char)) : ∀ (s : STACK) (retValue : List Char),
    popTimes values.length (some (values ++ s)) retValue
      = (values.map (fun v => (EXIT_SUCCESS, v)), some s) := by
  induction values with
  | nil => intro s retValue; rfl
  | cons v more ih =>
    intro s retValue
    simp only [List.length_cons, popTimes, popCall, pop, List.cons_append, ih, List.map_cons]

/-! ## The range of the multiplier rule -/

theorem digitValue_le {c : Char} (h : isdigit c = true) : digitValue c ≤ 9 := by
  simp only [isdigit, Bool.and_eq_true, decide_eq_true_eq] at h
  simp only [digitValue]
  omega

theorem digitValue_eq_zero {c : Char} (h : isdigit c = true) (h0 : digitValue c = 0) :
    c = '0' := by
  simp only [isdigit, Bool.and_eq_true, decide_eq_true_eq] at h
  simp only [digitValue] at h0
  have : c.toNat = 48 := by omega
  apply Char.ext
  apply UInt32.ext
  exact this

theorem readMultiplier_le (formula : List Char) : (readMultiplier formula).1 ≤ 99 := by
  unfold readMultiplier
  by_cases h0 : isdigit (peek formula 0) = true
  · by_cases h1 : isdigit (peek formula 1) = true
    · have := digitValue_le h0
      have := digitValue_le h1
      simp [h0, h1, isdigit_ne_newline h1]
      omega
    · have := digitValue_le h0
      simp [h0, h1]
      omega
  · simp [h0]

theorem readMultiplier_eq_zero (formula : List Char) (h : (readMultiplier formula).1 = 0) :
    peek formula 0 = '0' ∧ (peek formula 1 = '0' ∨ isdigit (peek formula 1) = false) := by
  unfold readMultiplier at h
  by_cases h0 : isdigit (peek formula 0) = true
  · by_cases h1 : isdigit (peek formula 1) = true
    · simp [h0, h1, isdigit_ne_newline h1] at h
      exact ⟨digitValue_eq_zero h0 h.1, Or.inl (digitValue_eq_zero h1 h.2)⟩
    · simp [h0, h1] at h
      exact ⟨digitValue_eq_zero h0 h, Or.inr (by simpa using h1)⟩
  · simp [h0] at h

theorem atomsFrom_ge (s : List Char) (occ : List (List Char × Nat)) :
    ∀ p ∈ occ, p.1 = s → p.2 ≤ atomsFrom s occ := by
  induction occ with
  | nil => intro p hp; simp at hp
  | cons q occ ih =>
    intro p hp hs
    obtain ⟨name, product⟩ := q
    rcases List.mem_cons.mp hp with h | h
    · subst h
      simp only at hs
      simp [atomsFrom, hs]
    · have := ih p h hs
      by_cases hn : name = s
      · simp only [atomsFrom, hn, if_true]; omega
      · simp only [atomsFrom, hn, if_false]; exact this

/-- A symbol written with multipliers whose product is not 0 occurs in the
expansion. -/
theorem mem_expand_of_occurrence (F : Formula) (p : List Char × Nat)
    (hp : p ∈ F.occurrences 1) (h0 : p.2 ≠ 0) : p.1 ∈ F.expand := by
  have h1 := atomsFrom_ge p.1 _ p hp rfl
  rw [atomsFrom_occurrences, Nat.one_mul] at h1
  exact List.count_pos_iff.mp (by omega)

/-! ## The shape of the entries of the stack -/

theorem isLetters_isalpha {x : List Char} (hx : isLetters x = true) :
    ∀ c ∈ x, isalpha c = true := by
  match x, hx with
  | c :: cs, hx =>
    simp only [isLetters, Bool.and_eq_true, decide_eq_true_eq, List.all_eq_true] at hx
    intro y hy
    rcases List.mem_cons.mp hy with h | h
    · rw [h]; exact hx.1.1
    · simp [isalpha, hx.2 y h]

theorem isSymbol_isLetters {x : List Char} (hx : isSymbol x = true) : isLetters x = true := by
  match x, hx with
  | c :: cs, hx =>
    simp only [isSymbol, Bool.and_eq_true, decide_eq_true_eq, List.all_eq_true] at hx
    simp only [isLetters, Bool.and_eq_true, decide_eq_true_eq, List.all_eq_true]
    exact ⟨⟨isupper_isalpha hx.1.1, hx.1.2⟩, hx.2⟩

/-- The symbol scan started on a letter reads one letter followed by at most
two lowercase letters. -/
theorem readSymbol_isLetters (c : Char) (rest : List Char) (hc : isalpha c = true) :
    isLetters (readSymbol (c :: rest)).1 = true := by
  unfold readSymbol
  simp only [peek_cons_zero, List.drop_succ_cons, List.drop_zero]
  by_cases h1 : islower (peek rest 0) = true
  · by_cases h2 : islower (peek (List.drop 1 rest) 0) = true
    · have h2' : islower (peek rest.tail 0) = true := by simpa using h2
      simp only [h1, h2, if_true]
      simp [isLetters, hc, h1, h2']
    · simp only [h1, h2, if_true, Bool.false_eq_true, if_false]
      simp [isLetters, hc, h1]
  · simp only [h1, Bool.false_eq_true, if_false]
    simp [isLetters, hc]

/-- The inner pop loop, started on entries that are markers or letters, keeps
such entries on the stack and gathers letters only. -/
theorem popLoop_letters : ∀ (fuel : Nat) (stack : STACK) (temp : List Char)
    (r : STACK × List Char),
    (∀ x ∈ stack, x = ['('] ∨ isLetters x = true) → (∀ c ∈ temp, isalpha c = true) →
    popLoop fuel stack (top stack).2 temp = Run.done r →
    (∀ x ∈ r.1, x = ['('] ∨ isLetters x = true) ∧ (∀ c ∈ r.2, isalpha c = true) := by
  intro fuel
  induction fuel with
  | zero => intro stack temp r _ _ h; simp [popLoop] at h
  | succ n ih =>
    intro stack temp r hs ht h
    rw [popLoop] at h
    by_cases hp : (top stack).2 = ['(']
    · rw [if_pos hp] at h
      injection h with h
      rw [← h]
      exact ⟨hs, ht⟩
    · rw [if_neg hp] at h
      cases stack with
      | nil =>
        have := ih [] temp r hs ht
        simp only [top, pop, List.append_nil] at h this
        exact this h
      | cons d next =>
        have hd : isLetters d = true := by
          rcases hs d (List.mem_cons_self _ _) with h1 | h1
          · exact absurd h1 hp
          · exact h1
        simp only [top, pop] at h
        apply ih next (temp ++ d) r (fun x hx => hs x (List.mem_cons_of_mem _ hx)) _ h
        intro c hc
        rcases List.mem_append.mp hc with h1 | h1
        · exact ht c h1
        · exact isLetters_isalpha hd c h1

/-- One pass of the `j` loop over letters pushes strings of one letter
followed by at most two lowercase letters. -/
theorem pushBack_letters : ∀ (n : Nat) (tempRev : List Char) (stack r : STACK),
    tempRev.length ≤ n →
    (∀ c ∈ tempRev, isalpha c = true) → (∀ x ∈ stack, x = ['('] ∨ isLetters x = true) →
    pushBack tempRev stack = Run.done r → ∀ x ∈ r, x = ['('] ∨ isLetters x = true := by
  intro n
  induction n with
  | zero =>
    intro tempRev stack r hn _ hs h
    have : tempRev = [] := List.length_eq_zero.mp (Nat.le_zero.mp hn)
    subst this
    rw [pushBack] at h
    injection h with h
    rw [← h]; exact hs
  | succ n ih =>
    intro tempRev stack r hn ht hs h
    match tempRev, hn, ht, h with
    | [], _, _, h =>
      rw [pushBack] at h
      injection h with h
      rw [← h]; exact hs
    | [c], _, ht, h =>
      have hc : isalpha c = true := ht c (by simp)
      rw [pushBack.eq_def] at h
      by_cases hl : islower c = true
      · simp [hl] at h
      · simp only [hl, Bool.false_eq_true, if_false] at h
        apply ih [] _ r (by simp) (by simp) _ h
        intro x hx
        rcases List.mem_cons.mp hx with h1 | h1
        · right; rw [h1]; simp [isLetters, hc]
        · exact hs x h1
    | [c, b], hn, ht, h =>
      have hc : isalpha c = true := ht c (by simp)
      have hb : isalpha b = true := ht b (by simp)
      rw [pushBack.eq_def] at h
      by_cases hl : islower c = true
      · by_cases hl2 : islower b = true
        · simp [hl, hl2] at h
        · simp only [hl, hl2, Bool.false_eq_true, if_false, if_true] at h
          apply ih [] _ r (by simp) (by simp) _ h
          intro x hx
          rcases List.mem_cons.mp hx with h1 | h1
          · right; rw [h1]; simp [isLetters, hb, hl]
          · exact hs x h1
      · simp only [hl, Bool.false_eq_true, if_false] at h
        apply ih [b] _ r (by simp only [List.length_cons, List.length_nil] at hn ⊢; omega)
          (by simpa using hb) _ h
        intro x hx
        rcases List.mem_cons.mp hx with h1 | h1
        · right; rw [h1]; simp [isLetters, hc]
        · exact hs x h1
    | c :: b :: a :: below, hn, ht, h =>
      have hc : isalpha c = true := ht c (by simp)
      have hb : isalpha b = true := ht b (by simp)
      have ha : isalpha a = true := ht a (by simp)
      have hbelow : ∀ y ∈ below, isalpha y = true := fun y hy => ht y (by simp [hy])
      simp only [List.length_cons] at hn
      rw [pushBack.eq_def] at h
      by_cases hl : islower c = true
      · by_cases hl2 : islower b = true
        · simp only [hl, hl2, if_true] at h
          apply ih below _ r (by omega) hbelow _ h
          intro x hx
          rcases List.mem_cons.mp hx with h1 | h1
          · right; rw [h1]; simp [isLetters, ha, hl, hl2]
          · exact hs x h1
        · simp only [hl, hl2, Bool.false_eq_true, if_false, if_true] at h
          apply ih (a :: below) _ r (by simp only [List.length_cons]; omega) _ _ h
          · intro y hy
            rcases List.mem_cons.mp hy with h1 | h1
            · rw [h1]; exact ha
            · exact hbelow y h1
          · intro x hx
            rcases List.mem_cons.mp hx with h1 | h1
            · right; rw [h1]; simp [isLetters, hb, hl]
            · exact hs x h1
      · simp only [hl, Bool.false_eq_true, if_false] at h
        apply ih (b :: a :: below) _ r (by simp only [List.length_cons]; omega) _ _ h
        · intro y hy
          exact ht y (List.mem_cons_of_mem _ hy)
        · intro x hx
          rcases List.mem_cons.mp hx with h1 | h1
          · right; rw [h1]; simp [isLetters, hc]
          · exact hs x h1

theorem pushBackTimes_letters (temp : List Char) (ht : ∀ c ∈ temp, isalpha c = true) :
    ∀ (m : Nat) (stack r : STACK), (∀ x ∈ stack, x = ['('] ∨ isLetters x = true) →
    pushBackTimes m temp stack = Run.done r → ∀ x ∈ r, x = ['('] ∨ isLetters x = true := by
  intro m
  induction m with
  | zero =>
    intro stack r hs h
    rw [pushBackTimes] at h
    injection h with h
    rw [← h]; exact hs
  | succ m ih =>
    intro stack r hs h
    rw [pushBackTimes] at h
    cases hp : pushBack temp.reverse stack with
    | done stack1 =>
      rw [hp] at h
      have h1 := pushBack_letters temp.reverse.length temp.reverse stack stack1 (le_refl _)
        (fun c hc => ht c (List.mem_reverse.mp hc)) hs hp
      exact ih stack1 r h1 h
    | outOfBounds => rw [hp] at h; simp at h
    | outOfFuel => rw [hp] at h; simp at h

/-- Every entry the scan leaves on a stack of markers and letter strings is a
marker or a string of one letter followed by at most two lowercase letters. -/
theorem parse_letters : ∀ (fuel : Nat) (formula : List Char) (stack r : STACK),
    (∀ x ∈ stack, x = ['('] ∨ isLetters x = true) →
    parseFormulaHelper fuel formula stack = Run.done r →
    ∀ x ∈ r, x = ['('] ∨ isLetters x = true := by
  intro fuel
  induction fuel with
  | zero => intro formula stack r _ h; simp [parseFormulaHelper] at h
  | succ n ih =>
    intro formula stack r hs h
    cases formula with
    | nil =>
      rw [parse_nil] at h
      injection h with h
      rw [← h]; exact hs
    | cons c rest =>
      by_cases h1 : isalpha c = true
      · rw [parse_alpha _ _ _ _ h1] at h
        apply ih _ _ r _ h
        intro x hx
        rw [updateStack_eq] at hx
        rcases List.mem_append.mp hx with h2 | h2
        · right
          rw [List.eq_of_mem_replicate h2]
          exact readSymbol_isLetters c rest h1
        · exact hs x h2
      · have h1' : isalpha c = false := by simpa using h1
        by_cases h2 : c = '('
        · subst h2
          rw [parse_open] at h
          apply ih _ _ r _ h
          intro x hx
          rcases List.mem_cons.mp hx with h3 | h3
          · exact Or.inl h3
          · exact hs x h3
        · by_cases h3 : c = ')'
          · subst h3
            cases hp : popLoop n stack (top stack).2 [] with
            | done p =>
              obtain ⟨stack1, temp⟩ := p
              have hl := popLoop_letters n stack [] (stack1, temp) hs (by simp) hp
              cases hq : pushBackTimes (readMultiplier rest).1 temp (pop stack1 ['(']).2.1 with
              | done stack2 =>
                rw [parse_close _ _ _ _ _ _ hp hq] at h
                apply ih _ _ r _ h
                apply pushBackTimes_letters temp hl.2 _ _ _ _ hq
                intro x hx
                apply hl.1 x
                cases stack1 with
                | nil => simp [pop] at hx
                | cons d next =>
                  simp only [pop] at hx
                  exact List.mem_cons_of_mem _ hx
              | outOfBounds => simp [parseFormulaHelper, h1', hp, hq] at h
              | outOfFuel => simp [parseFormulaHelper, h1', hp, hq] at h
            | outOfBounds => simp [parseFormulaHelper, h1', hp] at h
            | outOfFuel => simp [parseFormulaHelper, h1', hp] at h
          · rw [parse_other _ _ _ _ h1' h2 h3] at h
            exact ih _ _ r hs h

/-! ## A file of several lines through parseFormula and countProtons -/

/-- One fuel serves the scans of all the formulas of a list. -/
theorem parse_formulas (Fs : List Formula) (hF : ∀ F ∈ Fs, F.wellFormed = true) :
    ∃ n, ∀ fuel, n ≤ fuel → ∀ F ∈ Fs,
      parseFormulaHelper fuel F.text initStack = Run.done F.expand.reverse := by
  induction Fs with
  | nil => exact ⟨0, fun _ _ F hF' => by simp at hF'⟩
  | cons G Fs ih =>
    obtain ⟨n1, h1⟩ := parse_formula G (hF G (List.mem_cons_self _ _))
    obtain ⟨n2, h2⟩ := ih (fun F hF' => hF F (List.mem_cons_of_mem _ hF'))
    refine ⟨max n1 n2, fun fuel hfuel F hmem => ?_⟩
    rcases List.mem_cons.mp hmem with h | h
    · rw [h]; exact h1 fuel (le_trans (le_max_left _ _) hfuel)
    · exact h2 fuel (le_trans (le_max_right _ _) hfuel) F h

/-- The loop of parseFormula over the lines of well-formed formulas writes,
line after line, the atoms of each expansion. -/
theorem expandLines_formulas (fuel : Nat) (Fs : List Formula)
    (hF : ∀ F ∈ Fs, F.wellFormed = true)
    (hp : ∀ F ∈ Fs, parseFormulaHelper fuel F.text initStack = Run.done F.expand.reverse) :
    ∀ output : List Char,
      expandLines fuel (Fs.map (fun F => F.text ++ ['\n'])) output
        = Run.done (output ++ (Fs.map (fun F => writeStack F.expand)).flatten) := by
  induction Fs with
  | nil => intro output; simp [expandLines]
  | cons G Fs ih =>
    intro output
    have hG := hF G (List.mem_cons_self _ _)
    have s : stripNewline (G.text ++ ['\n']) = G.text :=
      stripNewline_append G.text (text_no_newline hG) []
    rw [List.map_cons, expandLines, s, hp G (List.mem_cons_self _ _)]
    simp only [reverseOnto_eq, initStack, List.append_nil, List.reverse_reverse]
    rw [ih (fun F hF' => hF F (List.mem_cons_of_mem _ hF'))
      (fun F hF' => hp F (List.mem_cons_of_mem _ hF'))]
    simp [List.append_assoc]

/-- The validator accepts a file of lines of well-formed formulas that fit
its buffer. -/
theorem parenthesesValidation_formulas (Fs : List Formula)
    (hF : ∀ F ∈ Fs, F.wellFormed = true) (hlen : ∀ F ∈ Fs, F.text.length + 2 ≤ 512) :
    parenthesesValidation (joinLines (Fs.map Formula.text)) = (0, []) := by
  have hfit : ∀ l ∈ Fs.map Formula.text, (∀ c ∈ l, c ≠ '\n') ∧ l.length + 2 ≤ 512 := by
    intro l hl
    obtain ⟨F, hmem, rfl⟩ := List.mem_map.mp hl
    exact ⟨text_no_newline (hF F hmem), hlen F hmem⟩
  have hnil : invalidNumbers ((Fs.map Formula.text).map (fun l => l ++ ['\n'])) 0 = [] := by
    rw [invalidNumbers_nil_iff]
    intro l hl
    simp only [List.map_map, List.mem_map, Function.comp] at hl
    obtain ⟨F, hmem, rfl⟩ := hl
    exact lineInvalid_text (hF F hmem)
  rw [parenthesesValidation_eq, fileLines_joinLines 512 (by decide) _ hfit, hnil]
  rfl

/-- With enough fuel parseFormula writes, for a file of lines of well-formed
formulas that fit its buffer, one line for each, in order: the atoms of the
expansion, each followed by a space, then a line break. -/
theorem parseFormula_formulas (Fs : List Formula) (hF : ∀ F ∈ Fs, F.wellFormed = true)
    (hlen : ∀ F ∈ Fs, F.text.length + 2 ≤ 256) :
    ∃ n, ∀ fuel, n ≤ fuel →
      parseFormula fuel (joinLines (Fs.map Formula.text))
        = Run.done (some (joinLines (Fs.map (fun F => spaced F.expand)))) := by
  obtain ⟨n, hn⟩ := parse_formulas Fs hF
  refine ⟨n, fun fuel hfuel => ?_⟩
  have hfit : ∀ l ∈ Fs.map Formula.text, (∀ c ∈ l, c ≠ '\n') ∧ l.length + 2 ≤ 256 := by
    intro l hl
    obtain ⟨F, hmem, rfl⟩ := List.mem_map.mp hl
    exact ⟨text_no_newline (hF F hmem), hlen F hmem⟩
  have hv := parenthesesValidation_formulas Fs hF (fun F hmem => by
    have := hlen F hmem; omega)
  have hx := expandLines_formulas fuel Fs hF (hn fuel hfuel) []
  have hout : (Fs.map (fun F => writeStack F.expand)).flatten
      = joinLines (Fs.map (fun F => spaced F.expand)) := by
    simp only [joinLines, List.map_map, writeStack_eq]
    rfl
  have e : ((fun l => l ++ ['\n']) ∘ Formula.text) = fun F : Formula => F.text ++ ['\n'] := rfl
  rw [parseFormula, fileLines_joinLines 256 (by decide) _ hfit, List.map_map, e, hx, hv,
    List.nil_append, hout]
  rfl

/-- With enough fuel countProtons writes, for a file of lines of well-formed
formulas that fit the line buffer and whose expansions fit the buffer of
countProtons, one integer for each line, in order: the sum of the atomic
numbers of the atoms of its expansion, in the range of a 32-bit `int`. -/
theorem countProtons_formulas (Fs : List Formula) (hF : ∀ F ∈ Fs, F.wellFormed = true)
    (elements : List ELEMENT) (hlen : ∀ F ∈ Fs, F.text.length + 2 ≤ 256)
    (hout : ∀ F ∈ Fs, (spaced F.expand).length + 2 ≤ 2048) :
    ∃ n, ∀ fuel, n ≤ fuel →
      countProtons fuel elements (joinLines (Fs.map Formula.text))
        = Run.done (some (Fs.map (fun F => wrapInt (protonSum elements F.expand)))) := by
  obtain ⟨n, hn⟩ := parseFormula_formulas Fs hF hlen
  refine ⟨n, fun fuel hfuel => ?_⟩
  have hv := parenthesesValidation_formulas Fs hF (fun F hmem => by
    have := hlen F hmem; omega)
  have htok : ∀ F ∈ Fs, ∀ a ∈ F.expand, isToken a := fun F hmem a ha =>
    isSymbol_isToken (expand_symbols (hF F hmem) a ha)
  have hfit : ∀ l ∈ Fs.map (fun F => spaced F.expand),
      (∀ c ∈ l, c ≠ '\n') ∧ l.length + 2 ≤ 2048 := by
    intro l hl
    obtain ⟨F, hmem, rfl⟩ := List.mem_map.mp hl
    exact ⟨spaced_no_newline _ (htok F hmem), hout F hmem⟩
  rw [countProtons_of_parsed fuel elements _ _ (by rw [hv]) (hn fuel hfuel),
    fileLines_joinLines 2048 (by decide) _ hfit]
  simp only [List.map_map]
  congr 2
  apply List.map_congr_left
  intro F hmem
  simp only [Function.comp]
  rw [← writeStack_eq]
  exact countLine_writeStack elements F.expand (htok F hmem)

/-! ## Lines longer than a buffer -/

/-- A text without newline that fills the buffer is read as one string, and
the reading goes on behind it. -/
theorem fileLines_cut (size : Nat) (hsize : 2 ≤ size) (xs rest : List Char)
    (hx : ∀ c ∈ xs, c ≠ '\n') (hxlen : xs.length = size - 1) :
    fileLines size (xs ++ rest) = xs :: fileLines size rest := by
  have n1 : xs ++ rest ≠ [] := by
    apply List.ne_nil_of_length_pos
    rw [List.length_append, hxlen]
    omega
  rw [fileLines_ne_nil size hsize _ n1, ← hxlen, fgetsAux_full xs hx]

theorem text_hydrogens (k : Nat) : (hydrogens k).text = List.replicate k 'H' := by
  induction k with
  | zero => rfl
  | succ k ih => simp [hydrogens, Formula.text, Multiplier.text, ih, List.replicate_succ]

theorem expand_hydrogens (k : Nat) : (hydrogens k).expand = List.replicate k ['H'] := by
  induction k with
  | zero => rfl
  | succ k ih =>
    simp [hydrogens, Formula.expand, Multiplier.value, ih, List.replicate_succ]

theorem wellFormed_hydrogens (k : Nat) : (hydrogens k).wellFormed = true := by
  induction k with
  | zero => rfl
  | succ k ih =>
    have h1 : isSymbol ['H'] = true := by decide
    simp [hydrogens, Formula.wellFormed, Multiplier.wellFormed, ih, h1]

theorem isToken_hydrogen (k : Nat) : ∀ a ∈ List.replicate k ['H'], isToken a := by
  intro a ha
  rw [List.eq_of_mem_replicate ha]
  exact isSymbol_isToken (by decide)

theorem protonSum_hydrogen (k : Nat) :
    protonSum hydrogenOxygen (List.replicate k ['H']) = k := by
  have hfind : findAtomicNumber ['H'] hydrogenOxygen = 1 := by decide
  simp [protonSum, hfind]

/-- The integer countProtons computes from a string of `k` atoms H, each
followed by a space, and one more H that the buffer cut from its space. -/
theorem countLine_hydrogen_cut (k : Nat) (hk : k + 1 < 2147483648) :
    countLine hydrogenOxygen (spaced (List.replicate k ['H']) ++ ['H']) = k + 1 := by
  have hno : ∀ c ∈ spaced (List.replicate k ['H']) ++ ['H'], c ≠ '\n' := by
    intro c hc
    rcases List.mem_append.mp hc with h | h
    · exact spaced_no_newline _ (isToken_hydrogen k) c h
    · simp only [List.mem_singleton] at h
      rw [h]; decide
  rw [countLine, stripNewline_none _ hno, strtokSpaces_spaced _ (isToken_hydrogen k)]
  have t : strtokSpaces ['H'] [] = [['H']] := by decide
  have e : List.replicate k ['H'] ++ [['H']] = List.replicate (k + 1) ['H'] := by
    rw [List.replicate_add]
    rfl
  rw [t, addTokens_eq _ _ 0 rfl, e, protonSum_hydrogen, zero_add]
  rw [wrapInt_small _ (by omega) (by omega)]
  simp

/-- The integer countProtons computes from the rest of such a line: a space,
`k` atoms H each followed by a space, and the line break. -/
theorem countLine_hydrogen_rest (k : Nat) (hk : k < 2147483648) :
    countLine hydrogenOxygen ((' ' :: spaced (List.replicate k ['H'])) ++ ['\n']) = k := by
  have hno : ∀ c ∈ ' ' :: spaced (List.replicate k ['H']), c ≠ '\n' := by
    intro c hc
    rcases List.mem_cons.mp hc with h | h
    · rw [h]; decide
    · exact spaced_no_newline _ (isToken_hydrogen k) c h
  rw [countLine, stripNewline_append _ hno]
  have t : strtokSpaces (' ' :: spaced (List.replicate k ['H'])) []
      = strtokSpaces (spaced (List.replicate k ['H']) ++ []) [] := by
    rw [strtokSpaces, List.append_nil]
    simp
  have t' : strtokSpaces [] [] = [] := by decide
  rw [t, strtokSpaces_spaced _ (isToken_hydrogen k), t', List.append_nil,
    addTokens_eq _ _ 0 rfl, protonSum_hydrogen, zero_add]
  exact wrapInt_small _ (by omega) (by omega)

/-- The parsed line of 1089 atoms H is read through the buffer of 2048
characters as two strings: 1023 atoms and an H, then the other 65 atoms. -/
theorem fileLines_hydrogen_long (rest : List Char) :
    fileLines 2048 (writeStack (List.replicate (99 * 11) ['H']) ++ rest)
      = (spaced (List.replicate 1023 ['H']) ++ ['H'])
        :: ((' ' :: spaced (List.replicate 65 ['H'])) ++ ['\n'])
        :: fileLines 2048 rest := by
  have e : List.replicate (99 * 11) ['H']
      = List.replicate 1023 ['H'] ++ (['H'] :: List.replicate 65 ['H']) := by
    rw [show 99 * 11 = 1023 + (1 + 65) from rfl, List.replicate_add, List.replicate_add]
    rfl
  have hno1 : ∀ c ∈ spaced (List.replicate 1023 ['H']) ++ ['H'], c ≠ '\n' := by
    intro c hc
    rcases List.mem_append.mp hc with h | h
    · exact spaced_no_newline _ (isToken_hydrogen 1023) c h
    · simp only [List.mem_singleton] at h
      rw [h]; decide
  have hno2 : ∀ c ∈ ' ' :: spaced (List.replicate 65 ['H']), c ≠ '\n' := by
    intro c hc
    rcases List.mem_cons.mp hc with h | h
    · rw [h]; decide
    · exact spaced_no_newline _ (isToken_hydrogen 65) c h
  have hlen1 : (spaced (List.replicate 1023 ['H']) ++ ['H']).length = 2048 - 1 := by
    rw [List.length_append, length_spaced_replicate]
    rfl
  have hlen2 : (' ' :: spaced (List.replicate 65 ['H'])).length + 2 ≤ 2048 := by
    rw [List.length_cons, length_spaced_replicate]
    decide
  rw [e, writeStack_split, List.append_assoc,
    fileLines_cut 2048 (by decide) _ _ hno1 hlen1, List.append_assoc, List.singleton_append,
    fileLines_newline 2048 (by decide) rest _ _ (le_refl _),
    fileLines_single 2048 _ hno2 hlen2]
  rfl

/-! ## The validator over a file whose lines fit the buffer -/

theorem mem_invalidNumbers_iff (lines : List (List Char)) : ∀ (n m : Nat),
    m ∈ invalidNumbers lines n ↔
      ∃ i line, m = n + i + 1 ∧ lines[i]? = some line ∧ lineInvalid line initStack = true := by
  induction lines with
  | nil => intro n m; simp [invalidNumbers]
  | cons l more ih =>
    intro n m
    have step : (∃ i line, m = n + i + 1 ∧ (l :: more)[i]? = some line ∧
          lineInvalid line initStack = true) ↔
        ((m = n + 1 ∧ lineInvalid l initStack = true) ∨
          ∃ i line, m = n + 1 + i + 1 ∧ more[i]? = some line ∧
            lineInvalid line initStack = true) := by
      constructor
      · rintro ⟨i, line, hm, hl, hbad⟩
        cases i with
        | zero =>
          simp only [List.getElem?_cons_zero, Option.some.injEq] at hl
          subst hl
          exact Or.inl ⟨by omega, hbad⟩
        | succ i =>
          simp only [List.getElem?_cons_succ] at hl
          exact Or.inr ⟨i, line, by omega, hl, hbad⟩
      · rintro (⟨hm, hbad⟩ | ⟨i, line, hm, hl, hbad⟩)
        · exact ⟨0, l, by omega, by simp, hbad⟩
        · exact ⟨i + 1, line, by omega, by simpa using hl, hbad⟩
    rw [step]
    by_cases h : lineInvalid l initStack = true
    · simp only [invalidNumbers, h, if_true, List.mem_cons, ih, and_true]
    · simp only [invalidNumbers, h, Bool.false_eq_true, if_false, ih, and_false, false_or]

theorem invalidNumbers_increasing (lines : List (List Char)) : ∀ n : Nat,
    (invalidNumbers lines n).Pairwise (fun a b => a < b) ∧
    ∀ m ∈ invalidNumbers lines n, n < m := by
  induction lines with
  | nil => intro n; simp [invalidNumbers]
  | cons l more ih =>
    intro n
    have h1 := ih (n + 1)
    by_cases h : lineInvalid l initStack = true
    · simp only [invalidNumbers, h, if_true, List.pairwise_cons, List.mem_cons]
      refine ⟨⟨fun m hm => h1.2 m hm, h1.1⟩, ?_⟩
      rintro m (hm | hm)
      · omega
      · have := h1.2 m hm; omega
    · simp only [invalidNumbers, h, Bool.false_eq_true, if_false]
      exact ⟨h1.1, fun m hm => by have := h1.2 m hm; omega⟩

theorem balanced_newline_iff (line : List Char) : balanced (line ++ ['\n']) ↔ balanced line := by
  constructor
  · exact balanced_of_newline
  · intro h
    apply balanced_append h
    constructor
    · intro n
      cases n with
      | zero => simp
      | succ n => simp
    · decide

/-- For a file whose lines fit the buffer of 512 characters, the validator
returns the number of the lines that are unbalanced on their own and reports
their 1-based numbers in increasing order; it returns 0 exactly when every
line is balanced. -/
theorem parenthesesValidation_lines (lines : List (List Char))
    (hfit : ∀ l ∈ lines, (∀ c ∈ l, c ≠ '\n') ∧ l.length + 2 ≤ 512) :
    (parenthesesValidation (joinLines lines)).1
      = (parenthesesValidation (joinLines lines)).2.length ∧
    (parenthesesValidation (joinLines lines)).2.Pairwise (fun a b => a < b) ∧
    (∀ m, m ∈ (parenthesesValidation (joinLines lines)).2 ↔
      ∃ i line, m = i + 1 ∧ lines[i]? = some line ∧ ¬ balanced line) ∧
    ((parenthesesValidation (joinLines lines)).1 = 0 ↔ ∀ line ∈ lines, balanced line) := by
  have hmem : ∀ m, m ∈ invalidNumbers (lines.map (fun l => l ++ ['\n'])) 0 ↔
      ∃ i line, m = i + 1 ∧ lines[i]? = some line ∧ ¬ balanced line := by
    intro m
    rw [mem_invalidNumbers_iff]
    constructor
    · rintro ⟨i, chunk, hm, hl, hbad⟩
      rw [List.getElem?_map] at hl
      cases hline : lines[i]? with
      | none => rw [hline] at hl; simp at hl
      | some line =>
        rw [hline] at hl
        simp only [Option.map_some', Option.some.injEq] at hl
        subst hl
        refine ⟨i, line, by omega, hline, ?_⟩
        intro hb
        have := (lineInvalid_balanced _).mpr ((balanced_newline_iff line).mpr hb)
        rw [this] at hbad
        exact absurd hbad (by decide)
    · rintro ⟨i, line, hm, hl, hbad⟩
      refine ⟨i, line ++ ['\n'], by omega, by rw [List.getElem?_map, hl]; rfl, ?_⟩
      cases h : lineInvalid (line ++ ['\n']) initStack with
      | true => rfl
      | false =>
        exact absurd ((balanced_newline_iff line).mp ((lineInvalid_balanced _).mp h)) hbad
  rw [parenthesesValidation_eq, fileLines_joinLines 512 (by decide) lines hfit]
  refine ⟨rfl, (invalidNumbers_increasing _ 0).1, hmem, ?_⟩
  simp only
  rw [List.length_eq_zero]
  constructor
  · intro hnil line hline
    by_contra hbad
    obtain ⟨i, hi, hget⟩ := List.getElem_of_mem hline
    have : i + 1 ∈ invalidNumbers (lines.map (fun l => l ++ ['\n'])) 0 :=
      (hmem (i + 1)).mpr ⟨i, line, rfl, by rw [List.getElem?_eq_getElem hi, hget], hbad⟩
    rw [hnil] at this
    simp at this
  · intro hall
    apply List.eq_nil_iff_forall_not_mem.mpr
    intro m hm
    obtain ⟨i, line, _, hl, hbad⟩ := (hmem m).mp hm
    exact hbad (hall line (List.getElem?_mem hl))

/-! ## Failing calls of pop and top -/

theorem popCall_failure_iff (stack : Option STACK) (retValue : List Char) :
    (popCall stack retValue).1 = EXIT_FAILURE ↔ (stack = none ∨ stack = some []) := by
  cases stack with
  | none => simp [popCall]
  | some s =>
    cases s with
    | nil => simp [popCall, pop]
    | cons v s => simp [popCall, pop, EXIT_SUCCESS, EXIT_FAILURE]

theorem popCall_failure_frame (stack : Option STACK) (retValue : List Char)
    (h : (popCall stack retValue).1 = EXIT_FAILURE) :
    (popCall stack retValue).2.1 = stack ∧ (popCall stack retValue).2.2 = retValue := by
  rcases (popCall_failure_iff stack retValue).mp h with h | h <;> subst h <;> exact ⟨rfl, rfl⟩

theorem popTimes_some (k : Nat) : ∀ (s : STACK) (retValue : List Char), k ≤ s.length →
    (popTimes k (some s) retValue).2 = some (s.drop k) := by
  induction k with
  | zero => intro s retValue _; rfl
  | succ k ih =>
    intro s retValue hk
    cases s with
    | nil => simp at hk
    | cons v s =>
      have hk' : k ≤ s.length := by simpa using hk
      simp only [popTimes, popCall, pop, List.drop_succ_cons]
      exact ih s v hk'

/-! ## The `)` branch on a stack of atoms above a marker -/

theorem close_atoms (P : STACK) (atoms : List (List Char))
    (ha : ∀ a ∈ atoms, isSymbol a = true) (m fuel : Nat) (h : atoms.length + 1 ≤ fuel) :
    popLoop fuel (atoms.reverse ++ ['('] :: P) (top (atoms.reverse ++ ['('] :: P)).2 []
        = Run.done (['('] :: P, atoms.reverse.flatten) ∧
    pushBackTimes m atoms.reverse.flatten (pop (['('] :: P) ['(']).2.1
        = Run.done ((repeatList m atoms).reverse ++ P) := by
  have hsym : ∀ x ∈ atoms.reverse, isSymbol x = true := fun x hx =>
    ha x (List.mem_reverse.mp hx)
  constructor
  · have h1 := popLoop_marker atoms.reverse (fun x hx => isSymbol_ne_marker (hsym x hx)) P []
      (fuel - (atoms.length + 1))
    rw [List.length_reverse] at h1
    have e : fuel - (atoms.length + 1) + atoms.length + 1 = fuel := by omega
    rw [e] at h1
    simpa using h1
  · have h2 := pushBackTimes_symbols m atoms.reverse hsym P
    rw [repeatList_reverse]
    simpa [pop] using h2

/-! ## The scan iteration by iteration is the scan -/

/-- The pop loop with its return codes is the pop loop. -/
theorem popLoopCodes_popLoop (fuel : Nat) : ∀ (stack : STACK) (p temp : List Char)
    (codes : List Int),
    popLoop fuel stack p temp =
      match popLoopCodes fuel stack p temp codes with
      | Run.done r => Run.done (r.1, r.2.1)
      | Run.outOfBounds => Run.outOfBounds
      | Run.outOfFuel => Run.outOfFuel := by
  induction fuel with
  | zero => intro stack p temp codes; rfl
  | succ n ih =>
    intro stack p temp codes
    rw [popLoop, popLoopCodes]
    by_cases hp : p = ['(']
    · simp [hp]
    · simp only [if_neg hp]
      exact ih _ _ _ _

/-- One iteration of the scan is one iteration of `parseFormulaHelper`. -/
theorem scanIteration_step (fuel : Nat) (c : Char) (rest : List Char) (stack : STACK) :
    parseFormulaHelper (fuel + 1) (c :: rest) stack =
      match scanIteration fuel c rest stack with
      | Run.done it => parseFormulaHelper fuel it.next it.after
      | Run.outOfBounds => Run.outOfBounds
      | Run.outOfFuel => Run.outOfFuel := by
  by_cases h1 : isalpha c = true
  · rw [parse_alpha _ _ _ _ h1]
    simp [scanIteration, h1]
  · have h1' : isalpha c = false := by simpa using h1
    by_cases h2 : c = '('
    · subst h2
      rw [parse_open]
      simp [scanIteration, h1', push]
    · by_cases h3 : c = ')'
      · subst h3
        have e := popLoopCodes_popLoop fuel stack (top stack).2 [] [(top stack).1]
        simp only [parseFormulaHelper, scanIteration, h1', if_neg h2, if_true,
          Bool.false_eq_true, if_false]
        rw [e]
        cases popLoopCodes fuel stack (top stack).2 [] [(top stack).1] with
        | done r =>
          obtain ⟨stack1, temp, codes⟩ := r
          simp only
          cases pushBackTimes (readMultiplier rest).1 temp (pop stack1 ['(']).2.1 with
          | done stack2 => rfl
          | outOfBounds => rfl
          | outOfFuel => rfl
        | outOfBounds => rfl
        | outOfFuel => rfl
      · rw [parse_other _ _ _ _ h1' h2 h3]
        simp [scanIteration, h1', h2, h3]

/-- The stack at the end of the iterations is the stack `parseFormulaHelper`
returns. -/
theorem scanIterations_result (fuel : Nat) : ∀ (formula : List Char) (stack : STACK),
    parseFormulaHelper fuel formula stack =
      match scanIterations fuel formula stack with
      | Run.done r => Run.done r.2
      | Run.outOfBounds => Run.outOfBounds
      | Run.outOfFuel => Run.outOfFuel := by
  induction fuel with
  | zero => intro formula stack; rfl
  | succ n ih =>
    intro formula stack
    cases formula with
    | nil => rfl
    | cons c rest =>
      rw [scanIteration_step, scanIterations]
      cases scanIteration n c rest stack with
      | done it =>
        simp only
        rw [ih]
        cases scanIterations n it.next it.after with
        | done r => rfl
        | outOfBounds => rfl
        | outOfFuel => rfl
      | outOfBounds => rfl
      | outOfFuel => rfl

/-- The iterations of a scan that ends follow one another from the start to
the end of the line. -/
theorem scanIterations_linked (fuel : Nat) : ∀ (formula : List Char) (stack : STACK)
    (its : List Iteration) (final : STACK),
    scanIterations fuel formula stack = Run.done (its, final) →
    linked formula stack its final := by
  induction fuel with
  | zero => intro formula stack its final h; simp [scanIterations] at h
  | succ n ih =>
    intro formula stack its final h
    cases formula with
    | nil =>
      simp only [scanIterations, Run.done.injEq, Prod.mk.injEq] at h
      rw [← h.1, ← h.2]
      exact ⟨rfl, rfl⟩
    | cons c rest =>
      rw [scanIterations] at h
      cases hit : scanIteration n c rest stack with
      | done it =>
        rw [hit] at h
        simp only at h
        cases hr : scanIterations n it.next it.after with
        | done r =>
          rw [hr] at h
          simp only [Run.done.injEq, Prod.mk.injEq] at h
          rw [← h.1, ← h.2]
          have hf : it.formula = c :: rest ∧ it.stack = stack := by
            unfold scanIteration at hit
            split_ifs at hit with g1 g2 g3
            · simp only [Run.done.injEq] at hit; rw [← hit]; exact ⟨rfl, rfl⟩
            · simp only [Run.done.injEq] at hit; rw [← hit]; exact ⟨rfl, rfl⟩
            · revert hit
              cases popLoopCodes n stack (top stack).2 [] [(top stack).1] with
              | done q =>
                obtain ⟨stack1, temp, codes⟩ := q
                simp only
                cases pushBackTimes (readMultiplier rest).1 temp (pop stack1 ['(']).2.1 with
                | done stack2 =>
                  intro hit
                  simp only [Run.done.injEq] at hit; rw [← hit]; exact ⟨rfl, rfl⟩
                | outOfBounds => intro hit; simp at hit
                | outOfFuel => intro hit; simp at hit
              | outOfBounds => intro hit; simp at hit
              | outOfFuel => intro hit; simp at hit
            · simp only [Run.done.injEq] at hit; rw [← hit]; exact ⟨rfl, rfl⟩
          exact ⟨hf.1, hf.2, ih _ _ _ _ (by rw [hr])⟩
        | outOfBounds => rw [hr] at h; simp at h
        | outOfFuel => rw [hr] at h; simp at h
      | outOfBounds => rw [hit] at h; simp at h
      | outOfFuel => rw [hit] at h; simp at h

/-- The pop loop with its return codes, started on a stack whose entries above
the first marker are `above`: every call of `pop` and `top` succeeds. -/
theorem popLoopCodes_marker (above : List (List Char)) (ha : ∀ x ∈ above, x ≠ ['('])
    (below : STACK) (temp : List Char) (codes : List Int) (fuel : Nat) :
    popLoopCodes (fuel + above.length + 1) (above ++ ['('] :: below)
        (top (above ++ ['('] :: below)).2 temp codes
      = Run.done (['('] :: below, temp ++ above.flatten,
          codes ++ List.replicate (2 * above.length) EXIT_SUCCESS) := by
  induction above generalizing temp codes with
  | nil => simp [popLoopCodes, top]
  | cons a above ih =>
    have h1 : a ≠ ['('] := ha a (List.mem_cons_self _ _)
    have h2 : ∀ x ∈ above, x ≠ ['('] := fun x hx => ha x (List.mem_cons_of_mem _ hx)
    have e : fuel + (a :: above).length + 1 = (fuel + above.length + 1) + 1 := by
      simp [List.length_cons]; omega
    have hc : (top (above ++ ['('] :: below)).1 = EXIT_SUCCESS := by
      cases above with
      | nil => rfl
      | cons b above => rfl
    rw [e, popLoopCodes]
    simp only [List.cons_append, top_cons, pop, if_neg h1, hc]
    rw [ih h2]
    have e2 : 2 * (a :: above).length = 2 + 2 * above.length := by
      simp [List.length_cons]; omega
    rw [e2, List.replicate_add]
    simp [List.append_assoc, List.replicate]

/-- The iteration of the scan at a `)` on a stack of element symbols above a
marker. -/
theorem scanIteration_close (P : STACK) (atoms : List (List Char)) (rest : List Char)
    (fuel : Nat) (ha : ∀ a ∈ atoms, isSymbol a = true) (hfuel : atoms.length + 1 ≤ fuel) :
    scanIteration fuel ')' rest (atoms.reverse ++ ['('] :: P)
      = Run.done { formula := ')' :: rest, stack := atoms.reverse ++ ['('] :: P,
                   next := (readMultiplier rest).2,
                   after := (repeatList (readMultiplier rest).1 atoms).reverse ++ P,
                   codes := List.replicate (2 * atoms.length + 2) EXIT_SUCCESS } := by
  have hsym : ∀ x ∈ atoms.reverse, isSymbol x = true := fun x hx =>
    ha x (List.mem_reverse.mp hx)
  have hc : (top (atoms.reverse ++ ['('] :: P)).1 = EXIT_SUCCESS := by
    cases atoms.reverse with
    | nil => rfl
    | cons b above => rfl
  have h1 := popLoopCodes_marker atoms.reverse (fun x hx => isSymbol_ne_marker (hsym x hx)) P []
    [EXIT_SUCCESS] (fuel - (atoms.length + 1))
  rw [List.length_reverse] at h1
  have e : fuel - (atoms.length + 1) + atoms.length + 1 = fuel := by omega
  rw [e] at h1
  have h2 := (close_atoms P atoms ha (readMultiplier rest).1 fuel hfuel).2
  have halpha : isalpha ')' = false := by decide
  have hne : ')' ≠ '(' := by decide
  simp only [scanIteration, halpha, if_neg hne, if_true, Bool.false_eq_true, if_false, hc, h1,
    List.nil_append, h2]
  have e3 : [EXIT_SUCCESS] ++ List.replicate (2 * atoms.length) EXIT_SUCCESS
      ++ [(pop (['('] :: P) ['(']).1] = List.replicate (2 * atoms.length + 2) EXIT_SUCCESS := by
    have : (pop (['('] :: P) ['(']).1 = EXIT_SUCCESS := rfl
    rw [this, show 2 * atoms.length + 2 = 1 + 2 * atoms.length + 1 by omega, List.replicate_add,
      List.replicate_add]
    rfl
  rw [e3]

/-! ## More fuel for the iterations -/

theorem popLoopCodes_more (k : Nat) : ∀ (fuel : Nat) (stack : STACK) (p temp : List Char)
    (codes : List Int) (r : STACK × List Char × List Int),
    popLoopCodes fuel stack p temp codes = Run.done r →
    popLoopCodes (fuel + k) stack p temp codes = Run.done r := by
  intro fuel
  induction fuel with
  | zero => intro stack p temp codes r h; simp [popLoopCodes] at h
  | succ n ih =>
    intro stack p temp codes r h
    rw [Nat.add_right_comm]
    rw [popLoopCodes] at h ⊢
    by_cases hp : p = ['(']
    · simpa [hp] using h
    · simp only [if_neg hp] at h ⊢
      exact ih _ _ _ _ _ h

theorem scanIteration_more (k fuel : Nat) (c : Char) (rest : List Char) (stack : STACK)
    (it : Iteration) (h : scanIteration fuel c rest stack = Run.done it) :
    scanIteration (fuel + k) c rest stack = Run.done it := by
  unfold scanIteration at h ⊢
  split_ifs at h ⊢ with g1 g2 g3
  · exact h
  · exact h
  · revert h
    cases hp : popLoopCodes fuel stack (top stack).2 [] [(top stack).1] with
    | done q =>
      rw [popLoopCodes_more k _ _ _ _ _ _ hp]
      exact fun h => h
    | outOfBounds => intro h; simp at h
    | outOfFuel => intro h; simp at h
  · exact h

theorem scanIterations_more (k : Nat) : ∀ (fuel : Nat) (formula : List Char) (stack : STACK)
    (r : List Iteration × STACK), scanIterations fuel formula stack = Run.done r →
    scanIterations (fuel + k) formula stack = Run.done r := by
  intro fuel
  induction fuel with
  | zero => intro formula stack r h; simp [scanIterations] at h
  | succ n ih =>
    intro formula stack r h
    rw [Nat.add_right_comm]
    cases formula with
    | nil => exact h
    | cons c rest =>
      rw [scanIterations] at h ⊢
      cases hit : scanIteration n c rest stack with
      | done it =>
        rw [hit] at h
        rw [scanIteration_more k _ _ _ _ _ hit]
        simp only at h ⊢
        cases hr : scanIterations n it.next it.after with
        | done q =>
          rw [ih _ _ _ hr]
          rw [hr] at h
          exact h
        | outOfBounds => rw [hr] at h; simp at h
        | outOfFuel => rw [hr] at h; simp at h
      | outOfBounds => rw [hit] at h; simp at h
      | outOfFuel => rw [hit] at h; simp at h

/-! ## Markers and parentheses -/

theorem markers_append (a b : STACK) : markers (a ++ b) = markers a + markers b := by
  simp [markers]

theorem markers_cons_marker (s : STACK) : markers (['('] :: s) = markers s + 1 := by
  simp [markers]

theorem markers_symbols (atoms : List (List Char)) (h : ∀ a ∈ atoms, isSymbol a = true) :
    markers atoms = 0 := by
  rw [markers, List.count_eq_zero]
  intro hm
  exact isSymbol_ne_marker (h _ hm) rfl

theorem count_symbol {name : List Char} (hn : isSymbol name = true) :
    name.count '(' = 0 ∧ name.count ')' = 0 := by
  constructor
  · rw [List.count_eq_zero]
    intro hm
    exact (isalpha_not_special (isSymbol_isalpha hn _ hm)).1 rfl
  · rw [List.count_eq_zero]
    intro hm
    exact (isalpha_not_special (isSymbol_isalpha hn _ hm)).2.1 rfl

theorem count_multiplier {m : Multiplier} (hm : m.wellFormed = true) :
    m.text.count '(' = 0 ∧ m.text.count ')' = 0 := by
  constructor
  · rw [List.count_eq_zero]
    intro h
    exact (isdigit_not_special (multiplier_text_isdigit hm _ h)).1 rfl
  · rw [List.count_eq_zero]
    intro h
    exact (isdigit_not_special (multiplier_text_isdigit hm _ h)).2.1 rfl

/-- The text of a well-formed formula has as many `(` as `)`. -/
theorem text_count {F : Formula} (hF : F.wellFormed = true) :
    F.text.count '(' = F.text.count ')' := by
  induction F with
  | nil => rfl
  | sym name m rest ih =>
    simp only [Formula.wellFormed, Bool.and_eq_true] at hF
    have h1 := count_symbol hF.1.1
    have h2 := count_multiplier hF.1.2
    simp only [Formula.text, List.count_append, h1.1, h1.2, h2.1, h2.2, ih hF.2]
  | group body m rest ihb ihr =>
    simp only [Formula.wellFormed, Bool.and_eq_true] at hF
    have h2 := count_multiplier hF.1.2
    have e1 : ('(' == ')') = false := by decide
    have e2 : (')' == '(') = false := by decide
    simp only [Formula.text, List.count_cons, List.count_append, h2.1, h2.2, ihb hF.1.1,
      ihr hF.2, beq_self_eq_true, e1, e2, if_true, Bool.false_eq_true, if_false]
    omega

/-! ## The iterations of the scan of a well-formed formula -/

/-- The iterations of the scan of the text of a well-formed formula, met
after the part `pre` of a line on a stack that agrees with `pre`, are followed
by the iterations of the scan of the rest, and each of them has the facts of
`IterationFacts` for the whole line. -/
theorem scan_text (F : Formula) (hF : F.wellFormed = true) :
    ∃ n, ∀ (pre rest : List Char) (stack : STACK) (fuel : Nat) (r : List Iteration × STACK),
      boundary rest →
      markers stack + pre.count ')' = pre.count '(' →
      (∀ x ∈ stack, x = ['('] ∨ isSymbol x = true) →
      scanIterations fuel rest (F.expand.reverse ++ stack) = Run.done r →
      ∃ its, scanIterations (fuel + n) (F.text ++ rest) stack = Run.done (its ++ r.1, r.2) ∧
        ∀ it ∈ its, IterationFacts (pre ++ (F.text ++ rest)) it := by
  induction F with
  | nil =>
    refine ⟨0, ?_⟩
    intro pre rest stack fuel r _ _ _ h
    refine ⟨[], ?_, fun it hit => by simp at hit⟩
    simpa [Formula.text, Formula.expand] using h
  | sym name m restF ih =>
    simp only [Formula.wellFormed, Bool.and_eq_true] at hF
    obtain ⟨n, hn⟩ := ih hF.2
    refine ⟨n + 1, ?_⟩
    intro pre rest stack fuel r hb hinv hent h
    obtain ⟨c, cs, hname, hc⟩ := isSymbol_head hF.1.1
    have hb1 : boundary (restF.text ++ rest) := text_boundary hF.2 rest hb
    have hcs := count_symbol hF.1.1
    have hcm := count_multiplier hF.1.2
    have e1 : (Formula.sym name m restF).text ++ rest
        = name ++ (m.text ++ (restF.text ++ rest)) := by
      simp [Formula.text, List.append_assoc]
    have e2 : readSymbol (name ++ (m.text ++ (restF.text ++ rest)))
        = (name, m.text ++ (restF.text ++ rest)) :=
      readSymbol_symbol hF.1.1 _ (multiplier_text_not_lower hF.1.2 _ hb1)
    have e3 : readMultiplier (m.text ++ (restF.text ++ rest))
        = (m.value, restF.text ++ rest) :=
      readMultiplier_text hF.1.2 _ hb1.2
    have e5 : name ++ (m.text ++ (restF.text ++ rest))
        = c :: (cs ++ (m.text ++ (restF.text ++ rest))) := by rw [hname]; rfl
    have hent1 : ∀ x ∈ List.replicate m.value name ++ stack, x = ['('] ∨ isSymbol x = true := by
      intro x hx
      rcases List.mem_append.mp hx with hx | hx
      · rw [List.eq_of_mem_replicate hx]; exact Or.inr hF.1.1
      · exact hent x hx
    have hmark1 : markers (List.replicate m.value name ++ stack) = markers stack := by
      rw [markers_append, markers_symbols _ (fun a ha => by
        rw [List.eq_of_mem_replicate ha]; exact hF.1.1)]
      omega
    have hinv1 : markers (List.replicate m.value name ++ stack)
        + (pre ++ (name ++ m.text)).count ')' = (pre ++ (name ++ m.text)).count '(' := by
      simp only [hmark1, List.count_append, hcs.1, hcs.2, hcm.1, hcm.2]
      omega
    have hline : pre ++ (name ++ m.text) ++ (restF.text ++ rest)
        = pre ++ ((Formula.sym name m restF).text ++ rest) := by
      simp [Formula.text, List.append_assoc]
    obtain ⟨its1, hrun1, hfacts1⟩ := hn (pre ++ (name ++ m.text)) rest
      (List.replicate m.value name ++ stack) fuel r hb hinv1 hent1
      (by simpa [Formula.expand, List.reverse_append, List.append_assoc] using h)
    have hit : scanIteration (fuel + n) c (cs ++ (m.text ++ (restF.text ++ rest))) stack
        = Run.done { formula := name ++ (m.text ++ (restF.text ++ rest)), stack := stack,
                     next := restF.text ++ rest,
                     after := List.replicate m.value name ++ stack, codes := [] } := by
      simp only [scanIteration, isupper_isalpha hc, if_true, ← e5, e2, e3, updateStack_eq]
    refine ⟨{ formula := name ++ (m.text ++ (restF.text ++ rest)), stack := stack,
              next := restF.text ++ rest,
              after := List.replicate m.value name ++ stack, codes := [] } :: its1, ?_, ?_⟩
    · rw [e1, e5, ← Nat.add_assoc, scanIterations, hit]
      simp only [hrun1, List.cons_append]
      rw [e5]
    · intro it hmem
      rcases List.mem_cons.mp hmem with hmem | hmem
      · subst hmem
        refine ⟨⟨pre, by rw [e1], hinv⟩, hent,
          ⟨pre ++ (name ++ m.text), by rw [hline], hinv1⟩, hent1,
          ⟨name ++ m.text, by rw [hname]; simp, by simp [List.append_assoc]⟩,
          fun x hx => by simp at hx, ?_⟩
        intro q hq
        exfalso
        simp only at hq
        rw [e5] at hq
        have : c = ')' := (List.cons.inj hq).1
        rw [this] at hc
        revert hc; decide
      · rw [← hline]
        exact hfacts1 it hmem
  | group body m restF ihb ihr =>
    simp only [Formula.wellFormed, Bool.and_eq_true] at hF
    obtain ⟨nb, hnb⟩ := ihb hF.1.1
    obtain ⟨nr, hnr⟩ := ihr hF.2
    refine ⟨nr + body.expand.length + 1 + 1 + nb + 1, ?_⟩
    intro pre rest stack fuel r hb hinv hent h
    have hb1 : boundary (restF.text ++ rest) := text_boundary hF.2 rest hb
    have hcm := count_multiplier hF.1.2
    have hcb := text_count hF.1.1
    have hsym : ∀ x ∈ body.expand, isSymbol x = true := expand_symbols hF.1.1
    have hsymr : ∀ x ∈ body.expand.reverse, isSymbol x = true := fun x hx =>
      hsym x (List.mem_reverse.mp hx)
    have hsymf : ∀ x ∈ (repeatList m.value body.expand).reverse, isSymbol x = true :=
      fun x hx => hsym x (mem_repeatList (List.mem_reverse.mp hx))
    have e1 : (Formula.group body m restF).text ++ rest
        = '(' :: (body.text ++ (')' :: (m.text ++ (restF.text ++ rest)))) := by
      simp [Formula.text, List.append_assoc]
    have e3 : readMultiplier (m.text ++ (restF.text ++ rest))
        = (m.value, restF.text ++ rest) :=
      readMultiplier_text hF.1.2 _ hb1.2
    have ec1 : ('(' == ')') = false := by decide
    have ec2 : (')' == '(') = false := by decide
    -- the stack and the part read after the `(`
    have hentO : ∀ x ∈ ['('] :: stack, x = ['('] ∨ isSymbol x = true := by
      intro x hx
      rcases List.mem_cons.mp hx with hx | hx
      · exact Or.inl hx
      · exact hent x hx
    have hinvO : markers (['('] :: stack) + (pre ++ ['(']).count ')' = (pre ++ ['(']).count '(' := by
      simp only [markers_cons_marker, List.count_append, List.count_cons, List.count_nil,
        beq_self_eq_true, ec1, if_true, Bool.false_eq_true, if_false]
      omega
    -- the stack and the part read before the `)`
    have hentB : ∀ x ∈ body.expand.reverse ++ ['('] :: stack, x = ['('] ∨ isSymbol x = true := by
      intro x hx
      rcases List.mem_append.mp hx with hx | hx
      · exact Or.inr (hsymr x hx)
      · exact hentO x hx
    have hinvB : markers (body.expand.reverse ++ ['('] :: stack)
        + (pre ++ '(' :: body.text).count ')' = (pre ++ '(' :: body.text).count '(' := by
      simp only [markers_append, markers_symbols _ hsymr, markers_cons_marker, List.count_append,
        List.count_cons, beq_self_eq_true, ec1, if_true, Bool.false_eq_true, if_false, hcb]
      omega
    -- the stack and the part read after the `)` and its multiplier
    have hentC : ∀ x ∈ (repeatList m.value body.expand).reverse ++ stack,
        x = ['('] ∨ isSymbol x = true := by
      intro x hx
      rcases List.mem_append.mp hx with hx | hx
      · exact Or.inr (hsymf x hx)
      · exact hent x hx
    have hinvC : markers ((repeatList m.value body.expand).reverse ++ stack)
        + (pre ++ ('(' :: (body.text ++ ')' :: m.text))).count ')'
        = (pre ++ ('(' :: (body.text ++ ')' :: m.text))).count '(' := by
      simp only [markers_append, markers_symbols _ hsymf, List.count_append,
        List.count_cons, beq_self_eq_true, ec1, ec2, if_true, Bool.false_eq_true, if_false, hcb,
        hcm.1, hcm.2]
      omega
    have hlineO : pre ++ ['('] ++ (body.text ++ ')' :: (m.text ++ (restF.text ++ rest)))
        = pre ++ ((Formula.group body m restF).text ++ rest) := by
      simp [Formula.text, List.append_assoc]
    have hlineB : pre ++ '(' :: body.text ++ ')' :: (m.text ++ (restF.text ++ rest))
        = pre ++ ((Formula.group body m restF).text ++ rest) := by
      simp [Formula.text, List.append_assoc]
    have hlineC : pre ++ ('(' :: (body.text ++ ')' :: m.text)) ++ (restF.text ++ rest)
        = pre ++ ((Formula.group body m restF).text ++ rest) := by
      simp [Formula.text, List.append_assoc]
    -- the iterations of the rest
    obtain ⟨itsR, hrunR, hfactsR⟩ := hnr (pre ++ ('(' :: (body.text ++ ')' :: m.text))) rest
      ((repeatList m.value body.expand).reverse ++ stack) fuel r hb hinvC hentC
      (by simpa [Formula.expand, List.reverse_append, List.append_assoc] using h)
    -- the iteration at the `)`
    have hitC := scanIteration_close stack body.expand (m.text ++ (restF.text ++ rest))
      (fuel + nr + body.expand.length + 1) hsym (by omega)
    rw [e3] at hitC
    simp only at hitC
    have hrunC : scanIterations (fuel + nr + body.expand.length + 1 + 1)
        (')' :: (m.text ++ (restF.text ++ rest))) (body.expand.reverse ++ ['('] :: stack)
        = Run.done
            ({ formula := ')' :: (m.text ++ (restF.text ++ rest)),
               stack := body.expand.reverse ++ ['('] :: stack,
               next := restF.text ++ rest,
               after := (repeatList m.value body.expand).reverse ++ stack,
               codes := List.replicate (2 * body.expand.length + 2) EXIT_SUCCESS }
              :: (itsR ++ r.1), r.2) := by
      rw [scanIterations, hitC]
      have := scanIterations_more (body.expand.length + 1) _ _ _ _ hrunR
      rw [← Nat.add_assoc] at this
      simp only [this]
    -- the iterations of the body
    obtain ⟨itsB, hrunB, hfactsB⟩ := hnb (pre ++ ['('])
      (')' :: (m.text ++ (restF.text ++ rest))) (['('] :: stack)
      (fuel + nr + body.expand.length + 1 + 1) _ (boundary_close _) hinvO hentO hrunC
    have hitO : scanIteration (fuel + nr + body.expand.length + 1 + 1 + nb) '('
        (body.text ++ (')' :: (m.text ++ (restF.text ++ rest)))) stack
        = Run.done { formula := '(' :: (body.text ++ (')' :: (m.text ++ (restF.text ++ rest)))),
                     stack := stack,
                     next := body.text ++ (')' :: (m.text ++ (restF.text ++ rest))),
                     after := ['('] :: stack, codes := [] } := by
      have halpha : isalpha '(' = false := by decide
      simp [scanIteration, halpha, push]
    refine ⟨{ formula := '(' :: (body.text ++ (')' :: (m.text ++ (restF.text ++ rest)))),
              stack := stack,
              next := body.text ++ (')' :: (m.text ++ (restF.text ++ rest))),
              after := ['('] :: stack, codes := [] }
            :: (itsB ++ [{ formula := ')' :: (m.text ++ (restF.text ++ rest)),
                           stack := body.expand.reverse ++ ['('] :: stack,
                           next := restF.text ++ rest,
                           after := (repeatList m.value body.expand).reverse ++ stack,
                           codes := List.replicate (2 * body.expand.length + 2) EXIT_SUCCESS }]
                ++ itsR), ?_, ?_⟩
    · have e6 : fuel + (nr + body.expand.length + 1 + 1 + nb + 1)
          = (fuel + nr + body.expand.length + 1 + 1 + nb) + 1 := by omega
      rw [e1, e6, scanIterations, hitO]
      simp only [hrunB, List.cons_append, List.append_assoc, List.nil_append]
    · intro it hmem
      rcases List.mem_cons.mp hmem with hmem | hmem
      · subst hmem
        refine ⟨⟨pre, by rw [e1], hinv⟩, hent, ⟨pre ++ ['('], by rw [hlineO], hinvO⟩, hentO,
          ⟨['('], by simp, by simp⟩, fun x hx => by simp at hx, ?_⟩
        intro q hq
        exfalso
        simp only at hq
        have : '(' = ')' := (List.cons.inj hq).1
        revert this; decide
      · rcases List.mem_append.mp hmem with hmem | hmem
        · rcases List.mem_append.mp hmem with hmem | hmem
          · rw [← hlineO]
            exact hfactsB it hmem
          · rw [List.mem_singleton] at hmem
            subst hmem
            refine ⟨⟨pre ++ '(' :: body.text, by rw [hlineB], hinvB⟩, hentB,
              ⟨pre ++ ('(' :: (body.text ++ ')' :: m.text)), by rw [hlineC], hinvC⟩, hentC,
              ⟨')' :: m.text, by simp, by simp⟩,
              fun x hx => List.eq_of_mem_replicate hx, ?_⟩
            intro q _
            refine ⟨?_, body.expand.reverse, stack, (repeatList m.value body.expand).reverse,
              rfl, hsymr, rfl, hsymf⟩
            simp only
            rw [show 2 * body.expand.length + 2 = (2 * body.expand.length + 1) + 1 by omega,
              List.replicate_succ]
            exact List.cons_ne_nil _ _
        · rw [← hlineC]
          exact hfactsR it hmem

/-- With enough fuel the iterations of the scan of a well-formed formula on
the empty stack end with the reversed expansion on the stack, follow one
another, and each has the facts of `IterationFacts`. -/
theorem scan_formula (F : Formula) (hF : F.wellFormed = true) :
    ∃ n, ∀ fuel, n ≤ fuel → ∃ its,
      scanIterations fuel F.text initStack = Run.done (its, F.expand.reverse) ∧
      linked F.text initStack its F.expand.reverse ∧
      ∀ it ∈ its, IterationFacts F.text it := by
  obtain ⟨n, hn⟩ := scan_text F hF
  refine ⟨1 + n, ?_⟩
  intro fuel hfuel
  obtain ⟨its, hrun, hfacts⟩ := hn [] [] [] 1 ([], F.expand.reverse) boundary_nil (by rfl)
    (fun x hx => by simp at hx) (by simp [scanIterations])
  have h' := scanIterations_more (fuel - (1 + n)) _ _ _ _ hrun
  have e : 1 + n + (fuel - (1 + n)) = fuel := by omega
  rw [e] at h'
  simp only [List.append_nil] at h' hfacts
  exact ⟨its, h', scanIterations_linked _ _ _ _ _ h', fun it hit => by
    simpa using hfacts it hit⟩

/-! ## The number of iterations -/

theorem linked_length (its : List Iteration) : ∀ (formula : List Char) (stack final : STACK),
    linked formula stack its final →
    (∀ it ∈ its, it.next.length < it.formula.length) → its.length ≤ formula.length := by
  induction its with
  | nil => intro formula stack final _ _; simp
  | cons it more ih =>
    intro formula stack final hl hadv
    obtain ⟨hf, _, hmore⟩ := hl
    have h1 := hadv it (List.mem_cons_self _ _)
    have h2 := ih it.next it.after final hmore (fun x hx => hadv x (List.mem_cons_of_mem _ hx))
    rw [hf] at h1
    simp only [List.length_cons]
    omega

theorem readMultiplier_one_digit (formula : List Char) (h0 : isdigit (peek formula 0) = true)
    (h1 : isdigit (peek formula 1) = false) :
    readMultiplier formula = (digitValue (peek formula 0), formula.drop 1) := by
  simp [readMultiplier, h0, h1]

theorem readMultiplier_two_digits (formula : List Char) (h0 : isdigit (peek formula 0) = true)
    (h1 : isdigit (peek formula 1) = true) :
    readMultiplier formula
      = (10 * digitValue (peek formula 0) + digitValue (peek formula 1), formula.drop 2) := by
  simp [readMultiplier, h0, h1, isdigit_ne_newline h1]

theorem readMultiplier_no_digit (formula : List Char) (h0 : isdigit (peek formula 0) = false) :
    readMultiplier formula = (1, formula) := by
  simp [readMultiplier, h0]

theorem peek_digit_cons (formula : List Char) (k : Nat) (h : isdigit (peek formula k) = true) :
    k < formula.length := by
  by_contra hk
  have : peek formula k = '\x00' := by
    simp only [peek, List.getD_eq_getElem?_getD]
    rw [List.getElem?_eq_none (by omega)]
    rfl
  rw [this] at h
  revert h; decide

/-! ## The bubble sort of the table -/

theorem sortInner_zero (elements : List ELEMENT) : sortInner 0 elements = elements := by
  unfold sortInner
  rfl

theorem sortInner_perm (count : Nat) : ∀ elements : List ELEMENT,
    List.Perm (sortInner count elements) elements := by
  induction count with
  | zero => intro elements; rw [sortInner_zero]
  | succ count ih =>
    intro elements
    match elements with
    | [] => simp [sortInner]
    | [a] => simp [sortInner]
    | a :: b :: rest =>
      rw [sortInner]
      split_ifs with h
      · exact ((ih (a :: rest)).cons b).trans (List.Perm.swap a b rest)
      · exact (ih (b :: rest)).cons a

theorem sortInner_append (count : Nat) : ∀ front back : List ELEMENT,
    front.length = count + 1 →
    sortInner count (front ++ back) = sortInner count front ++ back := by
  induction count with
  | zero => intro front back _; rw [sortInner_zero, sortInner_zero]
  | succ count ih =>
    intro front back hlen
    match front, hlen with
    | a :: b :: rest, hlen =>
      have hl : (a :: rest).length = count + 1 := by simpa using hlen
      have hl' : (b :: rest).length = count + 1 := by simpa using hlen
      have ea := ih (a :: rest) back hl
      have eb := ih (b :: rest) back hl'
      rw [List.cons_append] at ea eb
      rw [List.cons_append, List.cons_append, sortInner, sortInner]
      split_ifs with h
      · rw [ea]; rfl
      · rw [eb]; rfl

/-- One round of `count` comparisons over `count + 1` entries leaves an entry
with the largest atomic number in the last place. -/
theorem sortInner_last (count : Nat) : ∀ front : List ELEMENT, front.length = count + 1 →
    ∃ init mx, sortInner count front = init ++ [mx] ∧
      ∀ x ∈ front, x.atomicNumber ≤ mx.atomicNumber := by
  induction count with
  | zero =>
    intro front hlen
    match front, hlen with
    | [a], _ =>
      refine ⟨[], a, by rw [sortInner_zero]; rfl, ?_⟩
      intro x hx
      rw [List.mem_singleton.mp hx]
  | succ count ih =>
    intro front hlen
    match front, hlen with
    | a :: b :: rest, hlen =>
      rw [sortInner]
      split_ifs with h
      · obtain ⟨init, mx, he, hmx⟩ := ih (a :: rest) (by simpa using hlen)
        refine ⟨b :: init, mx, by rw [he]; rfl, ?_⟩
        intro x hx
        have ha := hmx a (List.mem_cons_self _ _)
        rcases List.mem_cons.mp hx with hx | hx
        · rw [hx]; exact ha
        · rcases List.mem_cons.mp hx with hx | hx
          · rw [hx]; omega
          · exact hmx x (List.mem_cons_of_mem _ hx)
      · obtain ⟨init, mx, he, hmx⟩ := ih (b :: rest) (by simpa using hlen)
        refine ⟨a :: init, mx, by rw [he]; rfl, ?_⟩
        intro x hx
        have hb := hmx b (List.mem_cons_self _ _)
        rcases List.mem_cons.mp hx with hx | hx
        · rw [hx]; omega
        · exact hmx x hx

theorem sortOuter_perm (rounds : Nat) : ∀ (i : Nat) (elements : List ELEMENT),
    List.Perm (sortOuter rounds i elements) elements := by
  induction rounds with
  | zero => intro i elements; exact List.Perm.refl _
  | succ rounds ih =>
    intro i elements
    rw [sortOuter]
    exact (ih _ _).trans (sortInner_perm _ _)

/-- The rounds of the sort keep the entries already in place, each at least
as large as every entry before it, and end with the whole array in order. -/
theorem sortOuter_sorted (rounds : Nat) : ∀ (i : Nat) (front back : List ELEMENT),
    front.length = rounds + 1 → back.length = i →
    back.Pairwise (fun a b => a.atomicNumber ≤ b.atomicNumber) →
    (∀ x ∈ front, ∀ y ∈ back, x.atomicNumber ≤ y.atomicNumber) →
    (sortOuter rounds i (front ++ back)).Pairwise
      (fun a b => a.atomicNumber ≤ b.atomicNumber) := by
  induction rounds with
  | zero =>
    intro i front back hf _ hb hfb
    match front, hf with
    | [a], _ =>
      rw [sortOuter]
      exact List.Pairwise.cons (fun y hy => hfb a (List.mem_singleton_self a) y hy) hb
  | succ rounds ih =>
    intro i front back hf hbl hb hfb
    have hcount : (front ++ back).length - i - 1 = rounds + 1 := by
      rw [List.length_append, hf, hbl]; omega
    rw [sortOuter, hcount, sortInner_append _ _ _ hf]
    obtain ⟨init, mx, he, hmx⟩ := sortInner_last (rounds + 1) front hf
    have hperm := sortInner_perm (rounds + 1) front
    rw [he] at hperm
    have hmem : ∀ x, x ∈ init ++ [mx] → x ∈ front := fun x hx => hperm.subset hx
    have hlen : init.length = rounds + 1 := by
      have := hperm.length_eq
      rw [List.length_append, hf] at this
      simpa using this
    rw [he, List.append_assoc]
    apply ih (i + 1) init ([mx] ++ back) hlen (by simp [hbl])
    · exact List.Pairwise.cons (fun y hy => hfb mx (hmem mx (by simp)) y hy) hb
    · intro x hx y hy
      have hxf : x ∈ front := hmem x (List.mem_append_left _ hx)
      rcases List.mem_cons.mp hy with hy | hy
      · rw [hy]; exact hmx x hxf
      · exact hfb x hxf y hy

theorem sortPeriodicTable_sorted (elements : List ELEMENT) :
    (sortPeriodicTable elements).Pairwise (fun a b => a.atomicNumber ≤ b.atomicNumber) := by
  unfold sortPeriodicTable
  split_ifs with h
  · rw [List.length_eq_zero.mp h]
    exact List.Pairwise.nil
  · have := sortOuter_sorted (elements.length - 1) 0 elements [] (by omega) rfl
      List.Pairwise.nil (fun _ _ y hy => by simp at hy)
    simpa using this

theorem sortPeriodicTable_perm (elements : List ELEMENT) :
    List.Perm (sortPeriodicTable elements) elements := by
  unfold sortPeriodicTable
  split_ifs with h
  · exact List.Perm.refl _
  · exact sortOuter_perm _ _ _

end ChemicalFormulas

namespace LatinSquare

/-! ## The Latin square: reads inside the array and the two loops -/

theorem cell_inside (square : Square) (i j : Int) (hi : 0 ≤ i ∧ i < N) (hj : 0 ≤ j ∧ j < N) :
    cell square i j = some (square i.toNat j.toNat) := by
  simp [cell, hi.1, hi.2, hj.1, hj.2]

/-- The row loop from column `k` with `count` iterations left, all inside the
array: it returns true exactly when one of the cells it visits has absolute
value `val`. -/
theorem rowLoop_iff (square : Square) (i val : Int) (hi : 0 ≤ i ∧ i < N) (count : Nat) :
    ∀ k : Int, 0 ≤ k → k + count ≤ N →
    ∃ b, rowLoop square i val k count = some b ∧
      (b = true ↔ ∃ x : Int, k ≤ x ∧ x < k + count ∧ |square i.toNat x.toNat| = val) := by
  induction count with
  | zero =>
    intro k _ _
    refine ⟨false, rfl, ?_⟩
    simp only [Bool.false_eq_true, false_iff, not_exists]
    intro x hx
    have := hx.1
    have := hx.2.1
    simp only [Nat.cast_zero, add_zero] at *
    omega
  | succ count ih =>
    intro k hk hkn
    have hkn' : k < N := by push_cast at hkn; omega
    rw [rowLoop, cell_inside square i k hi ⟨hk, hkn'⟩]
    by_cases h : |square i.toNat k.toNat| = val
    · refine ⟨true, by simp [h], ?_⟩
      simp only [true_iff]
      exact ⟨k, le_refl k, by push_cast; omega, h⟩
    · obtain ⟨b, hb, hiff⟩ := ih (k + 1) (by omega) (by push_cast at hkn ⊢; omega)
      refine ⟨b, by simp only [if_neg h]; exact hb, ?_⟩
      rw [hiff]
      constructor
      · rintro ⟨x, h1, h2, h3⟩
        exact ⟨x, by omega, by push_cast at h2 ⊢; omega, h3⟩
      · rintro ⟨x, h1, h2, h3⟩
        have hx : x ≠ k := by
          rintro rfl
          exact h h3
        exact ⟨x, by omega, by push_cast at h2 ⊢; omega, h3⟩

/-- The column loop from row `k` with `count` iterations left, all inside the
array. -/
theorem columnLoop_iff (square : Square) (j val : Int) (hj : 0 ≤ j ∧ j < N) (count : Nat) :
    ∀ k : Int, 0 ≤ k → k + count ≤ N →
    ∃ b, columnLoop square j val k count = some b ∧
      (b = true ↔ ∃ x : Int, k ≤ x ∧ x < k + count ∧ |square x.toNat j.toNat| = val) := by
  induction count with
  | zero =>
    intro k _ _
    refine ⟨false, rfl, ?_⟩
    simp only [Bool.false_eq_true, false_iff, not_exists]
    intro x hx
    have := hx.1
    have := hx.2.1
    simp only [Nat.cast_zero, add_zero] at *
    omega
  | succ count ih =>
    intro k hk hkn
    have hkn' : k < N := by push_cast at hkn; omega
    rw [columnLoop, cell_inside square k j ⟨hk, hkn'⟩ hj]
    by_cases h : |square k.toNat j.toNat| = val
    · refine ⟨true, by simp [h], ?_⟩
      simp only [true_iff]
      exact ⟨k, le_refl k, by push_cast; omega, h⟩
    · obtain ⟨b, hb, hiff⟩ := ih (k + 1) (by omega) (by push_cast at hkn ⊢; omega)
      refine ⟨b, by simp only [if_neg h]; exact hb, ?_⟩
      rw [hiff]
      constructor
      · rintro ⟨x, h1, h2, h3⟩
        exact ⟨x, by omega, by push_cast at h2 ⊢; omega, h3⟩
      · rintro ⟨x, h1, h2, h3⟩
        have hx : x ≠ k := by
          rintro rfl
          exact h h3
        exact ⟨x, by omega, by push_cast at h2 ⊢; omega, h3⟩

/-- In a square of size at most N, at a cell inside the square,
`checkDuplicates` returns without reading outside the array, and it returns
true exactly when the value occurs in the row or in the column. -/
theorem checkDuplicates_occurs (square : Square) (size i j val : Int) (hsize : size ≤ N)
    (hi : 0 ≤ i ∧ i < size) (hj : 0 ≤ j ∧ j < size) :
    ∃ b, checkDuplicates square size i j val = some b ∧
      (b = true ↔ occurs square size i j val) := by
  have hs0 : 0 ≤ size := by omega
  have hcast : ((size.toNat : Nat) : Int) = size := Int.toNat_of_nonneg hs0
  obtain ⟨br, hbr, hr⟩ := rowLoop_iff square i val ⟨hi.1, by omega⟩ size.toNat 0 (le_refl 0)
    (by rw [hcast]; omega)
  obtain ⟨bc, hbc, hc⟩ := columnLoop_iff square j val ⟨hj.1, by omega⟩ size.toNat 0 (le_refl 0)
    (by rw [hcast]; omega)
  rw [hcast] at hr hc
  simp only [zero_add] at hr hc
  cases br with
  | true =>
    refine ⟨true, by rw [checkDuplicates, hbr], ?_⟩
    simp only [true_iff]
    obtain ⟨x, h1, h2, h3⟩ := hr.mp rfl
    exact ⟨x, h1, h2, Or.inl h3⟩
  | false =>
    refine ⟨bc, by rw [checkDuplicates, hbr]; exact hbc, ?_⟩
    rw [hc]
    constructor
    · rintro ⟨x, h1, h2, h3⟩
      exact ⟨x, h1, h2, Or.inr h3⟩
    · rintro ⟨x, h1, h2, h3 | h3⟩
      · have : false = true := hr.mpr ⟨x, h1, h2, h3⟩
        exact absurd this (by decide)
      · exact ⟨x, h1, h2, h3⟩

/-- In a square of size at most N, `checkInput` returns without reading
outside the array, and it returns true exactly on an accepted input. -/
theorem checkInput_accepted (square : Square) (size i j val : Int) (hsize : size ≤ N) :
    ∃ b, checkInput square size i j val = some b ∧
      (b = true ↔ accepted square size i j val) := by
  by_cases hrange : i < 0 ∨ i ≥ size ∨ j < 0 ∨ j ≥ size ∨ val < 0 ∨ val > size
  · refine ⟨false, by rw [checkInput, if_pos hrange], ?_⟩
    simp only [Bool.false_eq_true, false_iff]
    rintro ⟨h1, h2, h3, h4, h5, h6, _⟩
    omega
  · have hr : 0 ≤ i ∧ i < size ∧ 0 ≤ j ∧ j < size ∧ 0 ≤ val ∧ val ≤ size := by omega
    have hcell := cell_inside square i j ⟨hr.1, by omega⟩ ⟨hr.2.2.1, by omega⟩
    by_cases hval : val = 0
    · by_cases hneg : square i.toNat j.toNat < 0
      · refine ⟨false, by rw [checkInput, if_neg hrange, if_pos hval, hcell]; simp [hneg], ?_⟩
        simp only [Bool.false_eq_true, false_iff]
        rintro ⟨_, _, _, _, _, _, h | h⟩
        · exact h.2 hneg
        · exact h.1 hval
      · refine ⟨true, by rw [checkInput, if_neg hrange, if_pos hval, hcell]; simp [hneg], ?_⟩
        simp only [true_iff]
        exact ⟨hr.1, hr.2.1, hr.2.2.1, hr.2.2.2.1, hr.2.2.2.2.1, hr.2.2.2.2.2,
          Or.inl ⟨hval, hneg⟩⟩
    · by_cases hocc : square i.toNat j.toNat ≠ 0
      · refine ⟨false, by rw [checkInput, if_neg hrange, if_neg hval, hcell]; simp [hocc], ?_⟩
        simp only [Bool.false_eq_true, false_iff]
        rintro ⟨_, _, _, _, _, _, h | h⟩
        · exact hval h.1
        · exact hocc h.2.1
      · have hempty : square i.toNat j.toNat = 0 := by
          by_contra h
          exact hocc h
        obtain ⟨b, hb, hiff⟩ := checkDuplicates_occurs square size i j val hsize
          ⟨hr.1, hr.2.1⟩ ⟨hr.2.2.1, hr.2.2.2.1⟩
        cases b with
        | true =>
          refine ⟨false, by
            rw [checkInput, if_neg hrange, if_neg hval, hcell]; simp [hempty, hb], ?_⟩
          simp only [Bool.false_eq_true, false_iff]
          rintro ⟨_, _, _, _, _, _, h | h⟩
          · exact hval h.1
          · exact h.2.2 (hiff.mp rfl)
        | false =>
          refine ⟨true, by
            rw [checkInput, if_neg hrange, if_neg hval, hcell]; simp [hempty, hb], ?_⟩
          simp only [true_iff]
          refine ⟨hr.1, hr.2.1, hr.2.2.1, hr.2.2.2.1, hr.2.2.2.2.1, hr.2.2.2.2.2,
            Or.inr ⟨hval, hempty, ?_⟩⟩
          intro ho
          have : false = true := hiff.mpr ho
          exact absurd this (by decide)

theorem cell_some (square : Square) (i j c : Int) (h : cell square i j = some c) :
    c = square i.toNat j.toNat := by
  unfold cell at h
  split_ifs at h
  simp only [Option.some.injEq] at h
  exact h.symm

/-- Whenever the row loop returns, it returns true exactly when one of the
cells it visits has absolute value `val`. -/
theorem rowLoop_some (square : Square) (i val : Int) (count : Nat) :
    ∀ (k : Int) (b : Bool), rowLoop square i val k count = some b →
      (b = true ↔ ∃ x : Int, k ≤ x ∧ x < k + count ∧ |square i.toNat x.toNat| = val) := by
  induction count with
  | zero =>
    intro k b hb
    simp only [rowLoop, Option.some.injEq] at hb
    rw [← hb]
    simp only [Bool.false_eq_true, false_iff, not_exists]
    intro x hx
    have := hx.1
    have := hx.2.1
    simp only [Nat.cast_zero, add_zero] at *
    omega
  | succ count ih =>
    intro k b hb
    rw [rowLoop] at hb
    cases hc : cell square i k with
    | none => rw [hc] at hb; simp at hb
    | some c =>
      rw [hc] at hb
      have hcv := cell_some square i k c hc
      simp only at hb
      by_cases h : |c| = val
      · rw [if_pos h, Option.some.injEq] at hb
        rw [← hb]
        simp only [true_iff]
        exact ⟨k, le_refl k, by push_cast; omega, by rw [← hcv]; exact h⟩
      · rw [if_neg h] at hb
        rw [ih (k + 1) b hb]
        constructor
        · rintro ⟨x, h1, h2, h3⟩
          exact ⟨x, by omega, by push_cast at h2 ⊢; omega, h3⟩
        · rintro ⟨x, h1, h2, h3⟩
          have hx : x ≠ k := by
            rintro rfl
            rw [← hcv] at h3
            exact h h3
          exact ⟨x, by omega, by push_cast at h2 ⊢; omega, h3⟩

/-- Whenever the column loop returns, it returns true exactly when one of the
cells it visits has absolute value `val`. -/
theorem columnLoop_some (square : Square) (j val : Int) (count : Nat) :
    ∀ (k : Int) (b : Bool), columnLoop square j val k count = some b →
      (b = true ↔ ∃ x : Int, k ≤ x ∧ x < k + count ∧ |square x.toNat j.toNat| = val) := by
  induction count with
  | zero =>
    intro k b hb
    simp only [columnLoop, Option.some.injEq] at hb
    rw [← hb]
    simp only [Bool.false_eq_true, false_iff, not_exists]
    intro x hx
    have := hx.1
    have := hx.2.1
    simp only [Nat.cast_zero, add_zero] at *
    omega
  | succ count ih =>
    intro k b hb
    rw [columnLoop] at hb
    cases hc : cell square k j with
    | none => rw [hc] at hb; simp at hb
    | some c =>
      rw [hc] at hb
      have hcv := cell_some square k j c hc
      simp only at hb
      by_cases h : |c| = val
      · rw [if_pos h, Option.some.injEq] at hb
        rw [← hb]
        simp only [true_iff]
        exact ⟨k, le_refl k, by push_cast; omega, by rw [← hcv]; exact h⟩
      · rw [if_neg h] at hb
        rw [ih (k + 1) b hb]
        constructor
        · rintro ⟨x, h1, h2, h3⟩
          exact ⟨x, by omega, by push_cast at h2 ⊢; omega, h3⟩
        · rintro ⟨x, h1, h2, h3⟩
          have hx : x ≠ k := by
            rintro rfl
            rw [← hcv] at h3
            exact h h3
          exact ⟨x, by omega, by push_cast at h2 ⊢; omega, h3⟩

/-- The iterations of a loop of `size` rounds from 0 visit the indices that
are at least 0 and below `size`. -/
theorem below_toNat (size x : Int) (h0 : 0 ≤ x) : x < 0 + (size.toNat : Int) ↔ x < size := by
  omega

/-- Whenever `checkDuplicates` returns, without a read outside the array, it
returns true exactly when the value occurs in the row or in the column. -/
theorem checkDuplicates_some (square : Square) (size i j val : Int) (b : Bool)
    (hb : checkDuplicates square size i j val = some b) :
    (b = true ↔ occurs square size i j val) := by
  unfold checkDuplicates at hb
  cases hr : rowLoop square i val 0 size.toNat with
  | none => rw [hr] at hb; simp at hb
  | some br =>
    rw [hr] at hb
    have hrow := rowLoop_some square i val size.toNat 0 br hr
    cases br with
    | true =>
      simp only [Option.some.injEq] at hb
      rw [← hb]
      simp only [true_iff]
      obtain ⟨x, h1, h2, h3⟩ := hrow.mp rfl
      exact ⟨x, h1, (below_toNat size x h1).mp h2, Or.inl h3⟩
    | false =>
      simp only at hb
      have hcol := columnLoop_some square j val size.toNat 0 b hb
      rw [hcol]
      constructor
      · rintro ⟨x, h1, h2, h3⟩
        exact ⟨x, h1, (below_toNat size x h1).mp h2, Or.inr h3⟩
      · rintro ⟨x, h1, h2, h3 | h3⟩
        · have : false = true := hrow.mpr ⟨x, h1, (below_toNat size x h1).mpr h2, h3⟩
          exact absurd this (by decide)
        · exact ⟨x, h1, (below_toNat size x h1).mpr h2, h3⟩

/-- Whenever `checkInput` returns, without a read outside the array, it
returns true exactly on an accepted input, whatever the size. -/
theorem checkInput_some (square : Square) (size i j val : Int) (b : Bool)
    (hb : checkInput square size i j val = some b) :
    (b = true ↔ accepted square size i j val) := by
  unfold checkInput at hb
  by_cases hrange : i < 0 ∨ i ≥ size ∨ j < 0 ∨ j ≥ size ∨ val < 0 ∨ val > size
  · rw [if_pos hrange, Option.some.injEq] at hb
    rw [← hb]
    simp only [Bool.false_eq_true, false_iff]
    rintro ⟨h1, h2, h3, h4, h5, h6, _⟩
    omega
  · have hr : 0 ≤ i ∧ i < size ∧ 0 ≤ j ∧ j < size ∧ 0 ≤ val ∧ val ≤ size := by omega
    rw [if_neg hrange] at hb
    cases hc : cell square i j with
    | none =>
      rw [hc] at hb
      split_ifs at hb
    | some c =>
      rw [hc] at hb
      have hcv := cell_some square i j c hc
      rw [hcv] at hb
      by_cases hval : val = 0
      · rw [if_pos hval] at hb
        simp only at hb
        by_cases hneg : square i.toNat j.toNat < 0
        · rw [if_pos hneg, Option.some.injEq] at hb
          rw [← hb]
          simp only [Bool.false_eq_true, false_iff]
          rintro ⟨_, _, _, _, _, _, h | h⟩
          · exact h.2 hneg
          · exact h.1 hval
        · rw [if_neg hneg, Option.some.injEq] at hb
          rw [← hb]
          simp only [true_iff]
          exact ⟨hr.1, hr.2.1, hr.2.2.1, hr.2.2.2.1, hr.2.2.2.2.1, hr.2.2.2.2.2,
            Or.inl ⟨hval, hneg⟩⟩
      · rw [if_neg hval] at hb
        simp only at hb
        by_cases hocc : square i.toNat j.toNat ≠ 0
        · rw [if_pos hocc, Option.some.injEq] at hb
          rw [← hb]
          simp only [Bool.false_eq_true, false_iff]
          rintro ⟨_, _, _, _, _, _, h | h⟩
          · exact hval h.1
          · exact hocc h.2.1
        · have hempty : square i.toNat j.toNat = 0 := by
            by_contra h
            exact hocc h
          rw [if_neg hocc] at hb
          cases hd : checkDuplicates square size i j val with
          | none => rw [hd] at hb; simp at hb
          | some d =>
            rw [hd] at hb
            have hiff := checkDuplicates_some square size i j val d hd
            cases d with
            | true =>
              simp only [Option.some.injEq] at hb
              rw [← hb]
              simp only [Bool.false_eq_true, false_iff]
              rintro ⟨_, _, _, _, _, _, h | h⟩
              · exact hval h.1
              · exact h.2.2 (hiff.mp rfl)
            | false =>
              simp only [Option.some.injEq] at hb
              rw [← hb]
              simp only [true_iff]
              refine ⟨hr.1, hr.2.1, hr.2.2.1, hr.2.2.2.1, hr.2.2.2.2.1, hr.2.2.2.2.2,
                Or.inr ⟨hval, hempty, ?_⟩⟩
              intro ho
              have : false = true := hiff.mpr ho
              exact absurd this (by decide)

end LatinSquare

namespace ChemicalFormulas

/-! ## Lookups in a table and in a permutation of it -/

/-- In two tables that hold the same entries, with pairwise distinct symbols,
every lookup gives the same number. -/
theorem findAtomicNumber_perm (element : List Char) (elements sorted : List ELEMENT)
    (hp : List.Perm sorted elements) (hd : (elements.map (fun e => e.symbol)).Nodup) :
    findAtomicNumber element sorted = findAtomicNumber element elements := by
  have hd' : (sorted.map (fun e => e.symbol)).Nodup :=
    (List.Perm.nodup_iff (hp.map _)).mpr hd
  by_cases h : ∃ e ∈ elements, e.symbol = element
  · obtain ⟨e, he, hs⟩ := h
    have h1 := findAtomicNumber_mem elements hd e he
    have h2 := findAtomicNumber_mem sorted hd' e (hp.symm.subset he)
    rw [hs] at h1 h2
    rw [h1, h2]
  · have h1 : ∀ e ∈ elements, e.symbol ≠ element := fun e he hs => h ⟨e, he, hs⟩
    have h2 : ∀ e ∈ sorted, e.symbol ≠ element := fun e he => h1 e (hp.subset he)
    rw [findAtomicNumber_absent _ _ h1, findAtomicNumber_absent _ _ h2]

/-! ## The scan of two formulas written one after the other -/

/-- With enough fuel the scan of the texts of two well-formed formulas, one
after the other, on any stack pushes the expansion of the first and then the
expansion of the second on that stack. -/
theorem parse_two (F G : Formula) (hF : F.wellFormed = true) (hG : G.wellFormed = true) :
    ∃ n, ∀ (stack : STACK) (fuel : Nat), n ≤ fuel →
      parseFormulaHelper fuel (F.text ++ G.text) stack
        = Run.done (G.expand.reverse ++ (F.expand.reverse ++ stack)) := by
  obtain ⟨nF, hnF⟩ := parse_text F hF
  obtain ⟨nG, hnG⟩ := parse_text G hG
  refine ⟨1 + nG + nF, ?_⟩
  intro stack fuel hfuel
  have hb : boundary G.text := by
    have := text_boundary hG [] boundary_nil
    rwa [List.append_nil] at this
  have h1 := hnG [] (F.expand.reverse ++ stack) 1 (G.expand.reverse ++ (F.expand.reverse ++ stack))
    boundary_nil (by simp [parseFormulaHelper])
  rw [List.append_nil] at h1
  have h2 := hnF G.text stack (1 + nG) _ hb h1
  have h3 := parse_more (fuel - (1 + nG + nF)) _ _ _ _ h2
  rwa [show 1 + nG + nF + (fuel - (1 + nG + nF)) = fuel by omega] at h3

/-- With enough fuel the scan of the text of a well-formed formula on any
stack pushes its expansion on that stack. -/
theorem parse_onto (F : Formula) (hF : F.wellFormed = true) :
    ∃ n, ∀ (stack : STACK) (fuel : Nat), n ≤ fuel →
      parseFormulaHelper fuel F.text stack = Run.done (F.expand.reverse ++ stack) := by
  obtain ⟨nF, hnF⟩ := parse_text F hF
  refine ⟨1 + nF, ?_⟩
  intro stack fuel hfuel
  have h1 := hnF [] stack 1 (F.expand.reverse ++ stack) boundary_nil
    (by simp [parseFormulaHelper])
  rw [List.append_nil] at h1
  have h3 := parse_more (fuel - (1 + nF)) _ _ _ _ h1
  rwa [show 1 + nF + (fuel - (1 + nF)) = fuel by omega] at h3

/-! ## An unbalanced line in a file -/

/-- When a line of the input has unbalanced parentheses, the validator returns
a count that is not 0 and reports a line, and parseFormula returns before it
opens the output file, whatever the fuel, so that nothing is written for any
line.  The number reported is that of the unbalanced string as the validator
reads the file, which, in a file whose lines fit the buffer of 512 characters,
is the number of the line. -/
theorem unbalanced_line_rejected :
    (∀ (input line : List Char), isLineOf line input → ¬ balanced line →
      (parenthesesValidation input).1 ≠ 0 ∧ (parenthesesValidation input).2 ≠ [] ∧
      ∀ fuel, parseFormula fuel input = Run.done none) ∧
    (∀ (input : List Char) (i : Nat) (chunk : List Char),
      (fileLines 512 input)[i]? = some chunk → ¬ balanced chunk →
      i + 1 ∈ (parenthesesValidation input).2) ∧
    (∀ (lines : List (List Char)) (i : Nat) (line : List Char),
      (∀ l ∈ lines, (∀ c ∈ l, c ≠ '\n') ∧ l.length + 2 ≤ 512) →
      lines[i]? = some line → ¬ balanced line →
      i + 1 ∈ (parenthesesValidation (joinLines lines)).2) := by
  have reported : ∀ (input : List Char) (i : Nat) (chunk : List Char),
      (fileLines 512 input)[i]? = some chunk → ¬ balanced chunk →
      i + 1 ∈ (parenthesesValidation input).2 := by
    intro input i chunk hchunk hbad
    have hinv : lineInvalid chunk initStack = true := by
      cases h : lineInvalid chunk initStack with
      | true => rfl
      | false => exact absurd ((lineInvalid_balanced chunk).mp h) hbad
    have hmem := mem_invalidNumbers (fileLines 512 input) 0 i chunk hchunk hinv
    rw [Nat.zero_add] at hmem
    rw [parenthesesValidation_eq]
    exact hmem
  refine ⟨?_, reported, ?_⟩
  · intro input line hline hbad
    have hne : (parenthesesValidation input).1 ≠ 0 := fun h0 =>
      hbad (balanced_of_validation input line hline h0)
    refine ⟨hne, ?_, fun fuel => ?_⟩
    · intro hnil
      apply hne
      rw [parenthesesValidation_eq] at hnil ⊢
      simp only at hnil ⊢
      rw [hnil]
      rfl
    · simp [parseFormula, hne]
  · intro lines i line hfit hline hbad
    apply reported (joinLines lines) i (line ++ ['\n'])
    · rw [fileLines_joinLines 512 (by decide) lines hfit, List.getElem?_map, hline]
      rfl
    · exact fun hb => hbad (balanced_of_newline hb)

/-! ## The claims of the specification -/

/-- C1: for every well-formed formula line, with enough fuel parseFormulaHelper
returns from the empty stack, and the stack it leaves, read from bottom to
top, is the recursive expansion of the formula. -/
theorem parseFormulaHelper_expansion (F : Formula) (hF : F.wellFormed = true) :
    ∃ n, ∀ fuel, n ≤ fuel → ∃ stack,
      parseFormulaHelper fuel F.text initStack = Run.done stack ∧
      bottomToTop stack = F.expand := by
  obtain ⟨n, hn⟩ := parse_formula F hF
  exact ⟨n, fun fuel hfuel => ⟨F.expand.reverse, hn fuel hfuel, by simp [bottomToTop]⟩⟩

/-- Witness of C1 at `Co3(Fe(CN)6)2`. -/
theorem parseFormulaHelper_expansion_witness :
    cobaltFerricyanide.wellFormed = true ∧
    cobaltFerricyanide.text = "Co3(Fe(CN)6)2".toList ∧
    ∃ n, ∀ fuel, n ≤ fuel → ∃ stack,
      parseFormulaHelper fuel cobaltFerricyanide.text initStack = Run.done stack ∧
      bottomToTop stack = cobaltFerricyanide.expand :=
  ⟨by decide, by decide, parseFormulaHelper_expansion cobaltFerricyanide (by decide)⟩

/-- C2: for every well-formed formula the expanded sequence left by
parseFormulaHelper holds, of each symbol, as many atoms as its occurrences
stand for, an occurrence with its own multiplier m0 inside groups with
multipliers m1..mk standing for m0*m1*...*mk atoms; `Co3(Fe(CN)6)2` gives
exactly 3 Co, 2 Fe, 12 C and 12 N, and `((H)2)3` exactly 6 H. -/
theorem parseFormulaHelper_multiplicative :
    (∀ F : Formula, F.wellFormed = true →
      ∃ n, ∀ fuel, n ≤ fuel → ∃ stack,
        parseFormulaHelper fuel F.text initStack = Run.done stack ∧
        ∀ symbol, (bottomToTop stack).count symbol
          = atomsFrom symbol (F.occurrences 1)) ∧
    (∃ n, ∀ fuel, n ≤ fuel → ∃ stack,
        parseFormulaHelper fuel "Co3(Fe(CN)6)2".toList initStack = Run.done stack ∧
        (bottomToTop stack).count "Co".toList = 3 ∧
        (bottomToTop stack).count "Fe".toList = 2 ∧
        (bottomToTop stack).count "C".toList = 12 ∧
        (bottomToTop stack).count "N".toList = 12 ∧
        (bottomToTop stack).length = 3 + 2 + 12 + 12) ∧
    (∃ n, ∀ fuel, n ≤ fuel → ∃ stack,
        parseFormulaHelper fuel "((H)2)3".toList initStack = Run.done stack ∧
        (bottomToTop stack).count "H".toList = 6 ∧
        (bottomToTop stack).length = 6) := by
  refine ⟨?_, ?_, ?_⟩
  · intro F hF
    obtain ⟨n, hn⟩ := parse_formula F hF
    refine ⟨n, fun fuel hfuel => ⟨F.expand.reverse, hn fuel hfuel, ?_⟩⟩
    intro symbol
    rw [atomsFrom_occurrences]
    simp [bottomToTop]
  · obtain ⟨n, hn⟩ := parse_formula cobaltFerricyanide (by decide)
    have e : cobaltFerricyanide.text = "Co3(Fe(CN)6)2".toList := by decide
    rw [e] at hn
    refine ⟨n, fun fuel hfuel => ⟨_, hn fuel hfuel, ?_⟩⟩
    simp only [bottomToTop, List.reverse_reverse]
    decide
  · obtain ⟨n, hn⟩ := parse_formula hydrogenNested (by decide)
    have e : hydrogenNested.text = "((H)2)3".toList := by decide
    rw [e] at hn
    refine ⟨n, fun fuel hfuel => ⟨_, hn fuel hfuel, ?_⟩⟩
    simp only [bottomToTop, List.reverse_reverse]
    decide

/-- Witness of C2 at `Co3(Fe(CN)6)2`: its symbol `N` stands for 1*6*2 atoms. -/
theorem parseFormulaHelper_multiplicative_witness :
    cobaltFerricyanide.wellFormed = true ∧
    atomsFrom ['N'] (cobaltFerricyanide.occurrences 1) = 1 * 6 * 2 ∧
    ∃ n, ∀ fuel, n ≤ fuel → ∃ stack,
      parseFormulaHelper fuel cobaltFerricyanide.text initStack = Run.done stack ∧
      ∀ symbol, (bottomToTop stack).count symbol
        = atomsFrom symbol (cobaltFerricyanide.occurrences 1) :=
  ⟨by decide, by decide, parseFormulaHelper_multiplicative.1 cobaltFerricyanide (by decide)⟩

/-- C3, the code at the line `H99H99H99H99H99H99H99H99H99H99H99` with H = 1:
the line passes the validation and its expanded sequence is 1089 atoms H, yet
with enough fuel countProtons writes two integers for it, 1024 and 65, not the
sum 1089: the parsed line of 2179 characters is read in two pieces through
the buffer of 2048 characters. -/
theorem countProtons_long_expansion :
    (hydrogenRun 11).text = "H99H99H99H99H99H99H99H99H99H99H99".toList ∧
    (parenthesesValidation "H99H99H99H99H99H99H99H99H99H99H99\n".toList).1 = 0 ∧
    protonSum hydrogenOxygen (hydrogenRun 11).expand = 1089 ∧
    ∃ n, ∀ fuel, n ≤ fuel →
      countProtons fuel hydrogenOxygen "H99H99H99H99H99H99H99H99H99H99H99\n".toList
        = Run.done (some [1024, 65]) := by
  have htext : (hydrogenRun 11).text = "H99H99H99H99H99H99H99H99H99H99H99".toList := by decide
  have hfind : findAtomicNumber ['H'] hydrogenOxygen = 1 := by decide
  have hsum : ∀ k : Nat, protonSum hydrogenOxygen (List.replicate k ['H']) = k := by
    intro k
    simp [protonSum, hfind]
  have htokH : ∀ k : Nat, ∀ a ∈ List.replicate k ['H'], isToken a := by
    intro k a ha
    rw [List.eq_of_mem_replicate ha]
    exact isSymbol_isToken (by decide)
  refine ⟨htext, by decide, ?_, ?_⟩
  · rw [expand_hydrogenRun, hsum]; rfl
  · obtain ⟨n, hn⟩ := parse_formula (hydrogenRun 11) (wellFormed_hydrogenRun 11)
    refine ⟨n, fun fuel hfuel => ?_⟩
    have hparse := hn fuel hfuel
    rw [htext, expand_hydrogenRun, List.reverse_replicate] at hparse
    have hpf := parseFormula_single fuel "H99H99H99H99H99H99H99H99H99H99H99".toList _
      (by decide) (by decide) (by decide) hparse
    rw [List.reverse_replicate] at hpf
    have e : List.replicate (99 * 11) ['H']
        = List.replicate 1023 ['H'] ++ (['H'] :: List.replicate 65 ['H']) := by
      rw [show 99 * 11 = 1023 + (1 + 65) from rfl, List.replicate_add, List.replicate_add]
      rfl
    have hno1 : ∀ c ∈ spaced (List.replicate 1023 ['H']) ++ ['H'], c ≠ '\n' := by
      intro c hc
      rcases List.mem_append.mp hc with h | h
      · exact spaced_no_newline _ (htokH 1023) c h
      · simp only [List.mem_singleton] at h
        rw [h]; decide
    have hno2 : ∀ c ∈ ' ' :: spaced (List.replicate 65 ['H']), c ≠ '\n' := by
      intro c hc
      rcases List.mem_cons.mp hc with h | h
      · rw [h]; decide
      · exact spaced_no_newline _ (htokH 65) c h
    have hlen1 : (spaced (List.replicate 1023 ['H']) ++ ['H']).length = 2048 - 1 := by
      rw [List.length_append, length_spaced_replicate]
      rfl
    have hlen2 : (' ' :: spaced (List.replicate 65 ['H'])).length < 2048 - 1 := by
      rw [List.length_cons, length_spaced_replicate]
      decide
    have hlines : fileLines 2048 (writeStack (List.replicate (99 * 11) ['H']))
        = [spaced (List.replicate 1023 ['H']) ++ ['H'],
           (' ' :: spaced (List.replicate 65 ['H'])) ++ ['\n']] := by
      rw [e, writeStack_split]
      exact fileLines_two 2048 (by decide) _ _ hno1 hlen1 hno2 hlen2
    have hcount1 : countLine hydrogenOxygen (spaced (List.replicate 1023 ['H']) ++ ['H'])
        = 1024 := by
      rw [countLine, stripNewline_none _ hno1, strtokSpaces_spaced _ (htokH 1023)]
      have t : strtokSpaces ['H'] [] = [['H']] := by decide
      rw [t, addTokens_eq _ _ 0 rfl]
      have : List.replicate 1023 ['H'] ++ [['H']] = List.replicate 1024 ['H'] := by
        rw [show (1024 : Nat) = 1023 + 1 from rfl, List.replicate_add]
        rfl
      rw [this, hsum]
      decide
    have hcount2 : countLine hydrogenOxygen ((' ' :: spaced (List.replicate 65 ['H'])) ++ ['\n'])
        = 65 := by
      rw [countLine, stripNewline_append _ hno2]
      have t : strtokSpaces (' ' :: spaced (List.replicate 65 ['H'])) []
          = strtokSpaces (spaced (List.replicate 65 ['H']) ++ []) [] := by
        rw [strtokSpaces, List.append_nil]
        simp
      rw [t, strtokSpaces_spaced _ (htokH 65)]
      have t' : strtokSpaces [] [] = [] := by decide
      rw [t', List.append_nil, addTokens_eq _ _ 0 rfl, hsum]
      decide
    have hv : (parenthesesValidation "H99H99H99H99H99H99H99H99H99H99H99\n".toList).1 = 0 := by
      decide
    have hin : "H99H99H99H99H99H99H99H99H99H99H99\n".toList
        = "H99H99H99H99H99H99H99H99H99H99H99".toList ++ ['\n'] := by decide
    rw [← hin] at hpf
    rw [countProtons_of_parsed fuel _ _ _ hv hpf, hlines]
    simp only [List.map_cons, List.map_nil, hcount1, hcount2]

/-- C4: for every line, the per-line check of parenthesesValidation, started
on the empty stack, counts the line as valid exactly when its parentheses are
balanced; so a string built only from balanced bracket pairs is valid, and a
line with a prefix holding more `)` than `(`, or with more `(` than `)` in
all, is invalid. -/
theorem lineInvalid_iff_not_balanced (line : List Char) :
    (lineInvalid line initStack = false ↔ balanced line) ∧
    (BracketPairs line → lineInvalid line initStack = false) ∧
    ((∃ n, (line.take n).count '(' < (line.take n).count ')') →
      lineInvalid line initStack = true) ∧
    (line.count ')' < line.count '(' → lineInvalid line initStack = true) := by
  refine ⟨lineInvalid_balanced line, ?_, ?_, ?_⟩
  · intro hs
    have h := scanParentheses_pairs hs [] initStack
    rw [List.append_nil] at h
    rw [lineInvalid, h]
    rfl
  · rintro ⟨n, hn⟩
    cases h : lineInvalid line initStack with
    | true => rfl
    | false =>
      have hb := ((lineInvalid_balanced line).mp h).1 n
      omega
  · intro hlt
    cases h : lineInvalid line initStack with
    | true => rfl
    | false =>
      have hb := ((lineInvalid_balanced line).mp h).2
      omega

/-- Witness of C4: `(()())` is built from bracket pairs and is valid, `A)(`
has a `)` before its `(` and is invalid, `A(B` has an unmatched `(` and is
invalid. -/
theorem lineInvalid_iff_not_balanced_witness :
    lineInvalid "(()())".toList initStack = false ∧
    lineInvalid "A)(".toList initStack = true ∧
    lineInvalid "A(B".toList initStack = true :=
  ⟨(lineInvalid_iff_not_balanced "(()())".toList).2.1
      (BracketPairs.pair _ (BracketPairs.next _ _ (BracketPairs.pair _ BracketPairs.empty)
        (BracketPairs.pair _ BracketPairs.empty))),
   (lineInvalid_iff_not_balanced "A)(".toList).2.2.1 ⟨2, by decide⟩,
   (lineInvalid_iff_not_balanced "A(B".toList).2.2.2 (by decide)⟩

/-- C5, the code at the file with a line of 600 letters `A` followed by the
line `A(B`: the file has two lines and the second, `A(B`, is the one with
unbalanced parentheses, yet the validator reports the number 3 and not the
number 2, because it reads the first line through its buffer of 512
characters as two strings; parseFormula returns without writing, whatever the
fuel. -/
theorem parenthesesValidation_shifted_number :
    joinLines [List.replicate 600 'A', "A(B".toList]
      = List.replicate 600 'A' ++ '\n' :: "A(B\n".toList ∧
    [List.replicate 600 'A', "A(B".toList][1]? = some "A(B".toList ∧
    balanced (List.replicate 600 'A') ∧
    ¬ balanced "A(B".toList ∧
    parenthesesValidation (List.replicate 600 'A' ++ '\n' :: "A(B\n".toList) = (1, [3]) ∧
    2 ∉ (parenthesesValidation (List.replicate 600 'A' ++ '\n' :: "A(B\n".toList)).2 ∧
    ∀ fuel, parseFormula fuel (List.replicate 600 'A' ++ '\n' :: "A(B\n".toList)
      = Run.done none := by
  have hA : ∀ (n : Nat), ∀ c ∈ List.replicate n 'A', c ≠ '(' ∧ c ≠ ')' := by
    intro n c hc
    rw [List.eq_of_mem_replicate hc]
    constructor <;> decide
  have hN : ∀ (n : Nat), ∀ c ∈ List.replicate n 'A', c ≠ '\n' := by
    intro n c hc
    rw [List.eq_of_mem_replicate hc]
    decide
  have hvalid : ∀ (n : Nat) (rest : List Char),
      lineInvalid (List.replicate n 'A' ++ rest) initStack = lineInvalid rest initStack := by
    intro n rest
    rw [lineInvalid, lineInvalid, scanParentheses_skip _ (hA n)]
  have h600 : lineInvalid (List.replicate 600 'A') initStack = false := by
    have := hvalid 600 []
    rw [List.append_nil] at this
    rw [this]
    decide
  have h511 : lineInvalid (List.replicate 511 'A') initStack = false := by
    have := hvalid 511 []
    rw [List.append_nil] at this
    rw [this]
    decide
  have h89 : lineInvalid (List.replicate 89 'A' ++ ['\n']) initStack = false := by
    rw [hvalid 89 ['\n']]
    decide
  have hbad : lineInvalid "A(B\n".toList initStack = true := by decide
  have hsplit : List.replicate 600 'A' ++ '\n' :: "A(B\n".toList
      = List.replicate 511 'A' ++ (List.replicate 89 'A' ++ '\n' :: "A(B\n".toList) := by
    rw [show (600 : Nat) = 511 + 89 from rfl, List.replicate_add, List.append_assoc]
  have hlines : fileLines 512 (List.replicate 600 'A' ++ '\n' :: "A(B\n".toList)
      = [List.replicate 511 'A', List.replicate 89 'A' ++ ['\n'], "A(B\n".toList] := by
    rw [hsplit, fileLines_cut 512 (by decide) _ _ (hN 511) (by rw [List.length_replicate]),
      fileLines_newline 512 (by decide) "A(B\n".toList 89 (List.replicate 89 'A')
        (by rw [List.length_replicate]),
      fileLines_single 512 (List.replicate 89 'A') (hN 89)
        (by rw [List.length_replicate]; decide)]
    have : fileLines 512 "A(B\n".toList = ["A(B\n".toList] :=
      fileLines_single 512 "A(B".toList (by decide) (by decide)
    rw [this]
    rfl
  have hpv : parenthesesValidation (List.replicate 600 'A' ++ '\n' :: "A(B\n".toList)
      = (1, [3]) := by
    rw [parenthesesValidation_eq, hlines]
    simp only [invalidNumbers, h511, h89, hbad, if_true, Bool.false_eq_true, if_false]
    rfl
  refine ⟨?_, rfl, (lineInvalid_balanced _).mp h600,
    fun hb => absurd ((lineInvalid_balanced _).mpr hb) (by decide), hpv, ?_, fun fuel => ?_⟩
  · simp only [joinLines, List.map_cons, List.map_nil, List.flatten_cons, List.flatten_nil,
      List.append_nil, List.append_assoc]
    rfl
  · rw [hpv]
    decide
  · rw [parseFormula, hpv]
    rfl

/-- C6, the code at `2H`, `H123` and `H2+O`: on a leading digit, on the third
digit of a multiplier and on `+` parseFormulaHelper never returns, whatever
the fuel, so no parse error is raised; the line `2H` passes the validation
and parseFormula never returns on it. -/
theorem parseFormulaHelper_unrecognised_never_returns :
    (∀ fuel, parseFormulaHelper fuel "2H".toList initStack = Run.outOfFuel) ∧
    (∀ fuel, parseFormulaHelper fuel "H123".toList initStack = Run.outOfFuel) ∧
    (∀ fuel, parseFormulaHelper fuel "H2+O".toList initStack = Run.outOfFuel) ∧
    (parenthesesValidation "2H\n".toList).1 = 0 ∧
    (∀ fuel, parseFormula fuel "2H\n".toList = Run.outOfFuel) := by
  have stuck2 : ∀ fuel, parseFormulaHelper fuel "2H".toList initStack = Run.outOfFuel :=
    parse_stuck '2' ['H'] initStack (by decide) (by decide) (by decide)
  refine ⟨stuck2, ?_, ?_, by decide, ?_⟩
  · intro fuel
    cases fuel with
    | zero => rfl
    | succ n =>
      have e : parseFormulaHelper (n + 1) "H123".toList initStack
          = parseFormulaHelper n ['3'] (updateStack ['H'] 12 initStack) := by
        rw [show "H123".toList = 'H' :: "123".toList from rfl,
          parse_alpha _ _ _ _ (by decide)]
        rfl
      rw [e]
      exact parse_stuck '3' [] _ (by decide) (by decide) (by decide) n
  · intro fuel
    cases fuel with
    | zero => rfl
    | succ n =>
      have e : parseFormulaHelper (n + 1) "H2+O".toList initStack
          = parseFormulaHelper n ['+', 'O'] (updateStack ['H'] 2 initStack) := by
        rw [show "H2+O".toList = 'H' :: "2+O".toList from rfl,
          parse_alpha _ _ _ _ (by decide)]
        rfl
      rw [e]
      exact parse_stuck '+' ['O'] _ (by decide) (by decide) (by decide) n
  · intro fuel
    have v : ((parenthesesValidation "2H\n".toList).1 != 0) = false := by decide
    have l : fileLines 256 "2H\n".toList = ["2H\n".toList] := by decide
    have s : stripNewline "2H\n".toList = "2H".toList := by decide
    have x : expandLines fuel ["2H\n".toList] [] = Run.outOfFuel := by
      rw [expandLines, s, stuck2 fuel]
    rw [parseFormula, l, x]
    simp only [v]
    rfl

/-- C7: for all element symbols X and Y, with enough fuel parseFormulaHelper
returns the same stack on `X(Y)1` as on `XY`, namely X then Y from bottom to
top. -/
theorem parseFormulaHelper_redundant_group (X Y : List Char) (hX : isSymbol X = true)
    (hY : isSymbol Y = true) :
    ∃ n, ∀ fuel, n ≤ fuel →
      parseFormulaHelper fuel (X ++ ['('] ++ Y ++ [')', '1']) initStack
        = parseFormulaHelper fuel (X ++ Y) initStack ∧
      ∃ stack, parseFormulaHelper fuel (X ++ Y) initStack = Run.done stack ∧
        bottomToTop stack = [X, Y] := by
  have w1 : (redundantGroup X Y).wellFormed = true := by
    simp [redundantGroup, Formula.wellFormed, Multiplier.wellFormed, hX, hY]
    decide
  have w2 : (twoSymbols X Y).wellFormed = true := by
    simp [twoSymbols, Formula.wellFormed, Multiplier.wellFormed, hX, hY]
  obtain ⟨n1, h1⟩ := parse_formula _ w1
  obtain ⟨n2, h2⟩ := parse_formula _ w2
  have t1 : (redundantGroup X Y).text = X ++ ['('] ++ Y ++ [')', '1'] := by
    simp [redundantGroup, Formula.text, Multiplier.text]
  have t2 : (twoSymbols X Y).text = X ++ Y := by
    simp [twoSymbols, Formula.text, Multiplier.text]
  have x1 : (redundantGroup X Y).expand = [X, Y] := by
    have v : digitValue '1' = 1 := by decide
    simp [redundantGroup, Formula.expand, Multiplier.value, repeatList, v]
  have x2 : (twoSymbols X Y).expand = [X, Y] := by
    simp [twoSymbols, Formula.expand, Multiplier.value]
  rw [t1, x1] at h1
  rw [t2, x2] at h2
  refine ⟨max n1 n2, fun fuel hfuel => ?_⟩
  have f1 := h1 fuel (le_trans (le_max_left _ _) hfuel)
  have f2 := h2 fuel (le_trans (le_max_right _ _) hfuel)
  exact ⟨by rw [f1, f2], _, f2, by simp [bottomToTop]⟩

/-- Witness of C7 at X = `Na`, Y = `Cl`. -/
theorem parseFormulaHelper_redundant_group_witness :
    ∃ n, ∀ fuel, n ≤ fuel →
      parseFormulaHelper fuel ("Na".toList ++ ['('] ++ "Cl".toList ++ [')', '1']) initStack
        = parseFormulaHelper fuel ("Na".toList ++ "Cl".toList) initStack ∧
      ∃ stack, parseFormulaHelper fuel ("Na".toList ++ "Cl".toList) initStack = Run.done stack ∧
        bottomToTop stack = ["Na".toList, "Cl".toList] :=
  parseFormulaHelper_redundant_group "Na".toList "Cl".toList (by decide) (by decide)

/-- C8: for all element symbols A and B, with enough fuel parseFormulaHelper
leaves on `(A(B)2)3` exactly the sequence A B B A B B A B B. -/
theorem parseFormulaHelper_nested_groups (A B : List Char) (hA : isSymbol A = true)
    (hB : isSymbol B = true) :
    ∃ n, ∀ fuel, n ≤ fuel → ∃ stack,
      parseFormulaHelper fuel (['('] ++ A ++ ['('] ++ B ++ [')', '2', ')', '3']) initStack
        = Run.done stack ∧
      bottomToTop stack = [A, B, B, A, B, B, A, B, B] := by
  have w : (nestedGroups A B).wellFormed = true := by
    simp [nestedGroups, Formula.wellFormed, Multiplier.wellFormed, hA, hB]
    decide
  obtain ⟨n, hn⟩ := parse_formula _ w
  have t : (nestedGroups A B).text = ['('] ++ A ++ ['('] ++ B ++ [')', '2', ')', '3'] := by
    simp [nestedGroups, Formula.text, Multiplier.text]
  have x : (nestedGroups A B).expand = [A, B, B, A, B, B, A, B, B] := by
    have v2 : digitValue '2' = 2 := by decide
    have v3 : digitValue '3' = 3 := by decide
    simp [nestedGroups, Formula.expand, Multiplier.value, repeatList, v2, v3]
  rw [t, x] at hn
  exact ⟨n, fun fuel hfuel => ⟨_, hn fuel hfuel, by simp [bottomToTop]⟩⟩

/-- Witness of C8 at A = `Ca`, B = `O`. -/
theorem parseFormulaHelper_nested_groups_witness :
    ∃ n, ∀ fuel, n ≤ fuel → ∃ stack,
      parseFormulaHelper fuel
          (['('] ++ "Ca".toList ++ ['('] ++ "O".toList ++ [')', '2', ')', '3']) initStack
        = Run.done stack ∧
      bottomToTop stack = ["Ca".toList, "O".toList, "O".toList, "Ca".toList, "O".toList,
        "O".toList, "Ca".toList, "O".toList, "O".toList] :=
  parseFormulaHelper_nested_groups "Ca".toList "O".toList (by decide) (by decide)

/-- C9: for every formula line without parentheses, a sequence of element
symbols each with an optional multiplier of one or two digits, with enough
fuel parseFormulaHelper returns a stack whose length is the sum of the
multipliers, a missing multiplier counting as 1. -/
theorem parseFormulaHelper_flat_length (F : Formula) (hF : F.wellFormed = true)
    (hflat : F.flat = true) :
    ∃ n, ∀ fuel, n ≤ fuel → ∃ stack,
      parseFormulaHelper fuel F.text initStack = Run.done stack ∧
      (bottomToTop stack).length = F.multiplierSum := by
  obtain ⟨n, hn⟩ := parse_formula F hF
  refine ⟨n, fun fuel hfuel => ⟨_, hn fuel hfuel, ?_⟩⟩
  simp [bottomToTop, length_expand_flat F hflat]

/-- Witness of C9 at `H2O`, whose multipliers 2 and 1 add up to 3. -/
theorem parseFormulaHelper_flat_length_witness :
    water.text = "H2O".toList ∧ water.multiplierSum = 3 ∧
    ∃ n, ∀ fuel, n ≤ fuel → ∃ stack,
      parseFormulaHelper fuel water.text initStack = Run.done stack ∧
      (bottomToTop stack).length = water.multiplierSum :=
  ⟨by decide, by decide, parseFormulaHelper_flat_length water (by decide) (by decide)⟩

/-- C10: for every symbol table, findAtomicNumber returns 0 for every symbol
that does not occur in it; the integer countProtons computes from the line
written for a formula whose atoms are all unknown is 0; and with `Xx` missing
the file with the line `Xx2` gets one integer, 0, whatever fuel of at least 2
the run has: a count, not an error. -/
theorem findAtomicNumber_unknown (elements : List ELEMENT) :
    (∀ element, (∀ e ∈ elements, e.symbol ≠ element) →
      findAtomicNumber element elements = 0) ∧
    (∀ F : Formula, F.wellFormed = true →
      (∀ a ∈ F.expand, ∀ e ∈ elements, e.symbol ≠ a) →
      countLine elements (writeStack F.expand) = 0) ∧
    ((∀ e ∈ elements, e.symbol ≠ "Xx".toList) →
      ∀ fuel, 2 ≤ fuel → countProtons fuel elements "Xx2\n".toList = Run.done (some [0])) := by
  have zero : ∀ atoms : List (List Char), (∀ a ∈ atoms, ∀ e ∈ elements, e.symbol ≠ a) →
      protonSum elements atoms = 0 := by
    intro atoms
    induction atoms with
    | nil => intro _; rfl
    | cons a atoms ih =>
      intro h
      have h1 := findAtomicNumber_absent a elements (h a (List.mem_cons_self _ _))
      have h2 := ih (fun x hx => h x (List.mem_cons_of_mem _ hx))
      simp only [protonSum, List.map_cons, List.sum_cons] at h2 ⊢
      rw [h1, h2]
      rfl
  refine ⟨fun element h => findAtomicNumber_absent element elements h, ?_, ?_⟩
  · intro F hF hunknown
    rw [countLine_writeStack elements F.expand
      (fun a ha => isSymbol_isToken (expand_symbols hF a ha)), zero _ hunknown]
    rfl
  · intro hxx fuel hfuel
    have hp : parseFormulaHelper fuel "Xx2".toList initStack
        = Run.done ["Xx".toList, "Xx".toList] := by
      have h2 : parseFormulaHelper 2 "Xx2".toList initStack
          = Run.done ["Xx".toList, "Xx".toList] := by decide
      have := parse_more (fuel - 2) _ _ _ _ h2
      rwa [show 2 + (fuel - 2) = fuel by omega] at this
    have h := countProtons_single fuel elements "Xx2".toList ["Xx".toList, "Xx".toList]
      (by decide) (by decide) (by decide) hp
      (by
        intro a ha
        have : a = "Xx".toList := by simpa using ha
        rw [this]
        exact isSymbol_isToken (by decide))
      (by decide)
    have z : protonSum elements ["Xx".toList, "Xx".toList].reverse = 0 := by
      apply zero
      intro a ha e he
      have : a = "Xx".toList := by simpa using ha
      rw [this]
      exact hxx e he
    have w0 : wrapInt 0 = 0 := rfl
    rw [z, w0] at h
    exact h

/-- Witness of C10: the table with H and O has no `Xx`. -/
theorem findAtomicNumber_unknown_witness :
    findAtomicNumber "Xx".toList hydrogenOxygen = 0 ∧
    ∀ fuel, 2 ≤ fuel → countProtons fuel hydrogenOxygen "Xx2\n".toList = Run.done (some [0]) :=
  ⟨(findAtomicNumber_unknown hydrogenOxygen).1 "Xx".toList (by decide),
   (findAtomicNumber_unknown hydrogenOxygen).2.2 (by decide)⟩

/-- C11: in every symbol table whose symbols are pairwise distinct, the lookup
of the symbol of an entry returns the atomic number of that entry; and in
every table a lookup that returns a number other than 0 has found an entry
whose symbol is exactly, letter case included, the string asked for. -/
theorem findAtomicNumber_distinct (elements : List ELEMENT)
    (hd : (elements.map (fun e => e.symbol)).Nodup) :
    (∀ e ∈ elements, findAtomicNumber e.symbol elements = e.atomicNumber) ∧
    (∀ element, findAtomicNumber element elements ≠ 0 →
      ∃ e ∈ elements, e.symbol = element ∧
        findAtomicNumber element elements = e.atomicNumber) :=
  ⟨findAtomicNumber_mem elements hd, fun element h => findAtomicNumber_found element elements h⟩

/-- Witness of C11: 87 for `Fr` and 93 for `Np`, and nothing for `fr`. -/
theorem findAtomicNumber_distinct_witness :
    findAtomicNumber "Fr".toList franciumNeptunium = 87 ∧
    findAtomicNumber "Np".toList franciumNeptunium = 93 ∧
    findAtomicNumber "fr".toList franciumNeptunium = 0 :=
  ⟨(findAtomicNumber_distinct franciumNeptunium (by decide)).1
      { symbol := ['F', 'r'], atomicNumber := 87 } (by decide),
   (findAtomicNumber_distinct franciumNeptunium (by decide)).1
      { symbol := ['N', 'p'], atomicNumber := 93 } (by decide),
   by decide⟩

/-- C12, the code at the file with the two lines
`H99H99H99H99H99H99H99H99H99H99H99` and `H2O`, with H = 1 and O = 8: both
lines are well-formed and the file passes the validation, the proton counts
of the lines are 1089 and 10, yet with enough fuel countProtons writes three
integers, 1024, 65 and 10: the second integer is not the count of the second
line. -/
theorem countProtons_two_lines :
    joinLines [(hydrogenRun 11).text, water.text]
      = "H99H99H99H99H99H99H99H99H99H99H99\nH2O\n".toList ∧
    (hydrogenRun 11).wellFormed = true ∧ water.wellFormed = true ∧
    (parenthesesValidation "H99H99H99H99H99H99H99H99H99H99H99\nH2O\n".toList).1 = 0 ∧
    protonSum hydrogenOxygen (hydrogenRun 11).expand = 1089 ∧
    protonSum hydrogenOxygen water.expand = 10 ∧
    ∃ n, ∀ fuel, n ≤ fuel →
      countProtons fuel hydrogenOxygen "H99H99H99H99H99H99H99H99H99H99H99\nH2O\n".toList
        = Run.done (some [1024, 65, 10]) := by
  have hin : joinLines [(hydrogenRun 11).text, water.text]
      = "H99H99H99H99H99H99H99H99H99H99H99\nH2O\n".toList := by decide
  have hv : (parenthesesValidation "H99H99H99H99H99H99H99H99H99H99H99\nH2O\n".toList).1 = 0 := by
    decide
  have hwf : ∀ F ∈ [hydrogenRun 11, water], F.wellFormed = true := by
    intro F hmem
    simp only [List.mem_cons, List.mem_singleton, List.not_mem_nil, or_false] at hmem
    rcases hmem with h | h
    · rw [h]; exact wellFormed_hydrogenRun 11
    · rw [h]; decide
  have hlen : ∀ F ∈ [hydrogenRun 11, water], F.text.length + 2 ≤ 256 := by
    intro F hmem
    simp only [List.mem_cons, List.mem_singleton, List.not_mem_nil, or_false] at hmem
    rcases hmem with h | h
    · rw [h]; decide
    · rw [h]; decide
  refine ⟨hin, wellFormed_hydrogenRun 11, by decide, hv, ?_, by decide, ?_⟩
  · rw [expand_hydrogenRun, protonSum_hydrogen]; rfl
  · obtain ⟨n, hn⟩ := parseFormula_formulas [hydrogenRun 11, water] hwf hlen
    refine ⟨n, fun fuel hfuel => ?_⟩
    have hpf := hn fuel hfuel
    have hparsed : joinLines ([hydrogenRun 11, water].map (fun F => spaced F.expand))
        = writeStack (List.replicate (99 * 11) ['H']) ++ "H H O \n".toList := by
      have hw : spaced water.expand ++ ['\n'] = "H H O \n".toList := by decide
      simp only [joinLines, List.map_cons, List.map_nil, List.flatten_cons, List.flatten_nil,
        List.append_nil, expand_hydrogenRun, hw, writeStack_eq]
    have hlast : fileLines 2048 "H H O \n".toList = ["H H O \n".toList] := by decide
    have hc3 : countLine hydrogenOxygen "H H O \n".toList = 10 := by decide
    simp only [List.map_cons, List.map_nil] at hpf
    rw [hin] at hpf
    rw [countProtons_of_parsed fuel _ _ _ hv hpf]
    simp only [List.map_cons, List.map_nil] at hparsed
    rw [hparsed, fileLines_hydrogen_long, hlast]
    have hc1 := countLine_hydrogen_cut 1023 (by decide)
    have hc2 := countLine_hydrogen_rest 65 (by decide)
    simp only [List.map_cons, List.map_nil, hc1, hc2, hc3]
    rfl

/-- C13, the code at the file with the single line of 256 letters `H`: the
line is a well-formed formula and passes the validation, yet with enough fuel
parseFormula writes two lines for it, one of 255 atoms and one of a single
atom, because the line is read through a buffer of 256 characters; the text
written is not the line of the 256 atoms of the expansion. -/
theorem parseFormula_long_line :
    (hydrogens 256).wellFormed = true ∧
    (hydrogens 256).text = List.replicate 256 'H' ∧
    (hydrogens 256).expand = List.replicate 256 ['H'] ∧
    (parenthesesValidation (List.replicate 256 'H' ++ ['\n'])).1 = 0 ∧
    (spaced (List.replicate 255 ['H']) ++ ['\n']) ++ (spaced [['H']] ++ ['\n'])
      ≠ spaced (hydrogens 256).expand ++ ['\n'] ∧
    ∃ n, ∀ fuel, n ≤ fuel →
      parseFormula fuel (List.replicate 256 'H' ++ ['\n'])
        = Run.done (some ((spaced (List.replicate 255 ['H']) ++ ['\n'])
            ++ (spaced [['H']] ++ ['\n']))) := by
  have hne : (spaced (List.replicate 255 ['H']) ++ ['\n']) ++ (spaced [['H']] ++ ['\n'])
      ≠ spaced (hydrogens 256).expand ++ ['\n'] := by
    intro h
    have hl := congrArg List.length h
    have l1 : (spaced [['H']]).length = 2 := rfl
    rw [expand_hydrogens] at hl
    simp only [List.length_append, length_spaced_replicate, List.length_singleton, l1] at hl
    omega
  have hv : (parenthesesValidation (List.replicate 256 'H' ++ ['\n'])).1 = 0 := by
    have h := parenthesesValidation_formulas [hydrogens 256]
      (fun F hmem => by
        rw [List.mem_singleton.mp hmem]; exact wellFormed_hydrogens 256)
      (fun F hmem => by
        rw [List.mem_singleton.mp hmem, text_hydrogens, List.length_replicate]
        decide)
    have e : joinLines ([hydrogens 256].map Formula.text)
        = List.replicate 256 'H' ++ ['\n'] := by
      simp only [joinLines, List.map_cons, List.map_nil, List.flatten_cons, List.flatten_nil,
        List.append_nil, text_hydrogens]
    rw [e] at h
    rw [h]
  refine ⟨wellFormed_hydrogens 256, text_hydrogens 256, expand_hydrogens 256, hv, hne, ?_⟩
  obtain ⟨n, hn⟩ := parse_formulas [hydrogens 255, hydrogens 1]
    (fun F hmem => by
      simp only [List.mem_cons, List.mem_singleton, List.not_mem_nil, or_false] at hmem
      rcases hmem with h | h
      · rw [h]; exact wellFormed_hydrogens 255
      · rw [h]; exact wellFormed_hydrogens 1)
  refine ⟨n, fun fuel hfuel => ?_⟩
  have p1 := hn fuel hfuel (hydrogens 255) (by simp)
  have p2 := hn fuel hfuel (hydrogens 1) (by simp)
  rw [text_hydrogens, expand_hydrogens, List.reverse_replicate] at p1 p2
  have hno : ∀ c ∈ List.replicate 255 'H', c ≠ '\n' := by
    intro c hc
    rw [List.eq_of_mem_replicate hc]; decide
  have hsplit : List.replicate 256 'H' ++ ['\n']
      = List.replicate 255 'H' ++ (['H'] ++ ['\n']) := by
    rw [show (256 : Nat) = 255 + 1 from rfl, List.replicate_add, List.append_assoc]
    rfl
  have hlines : fileLines 256 (List.replicate 256 'H' ++ ['\n'])
      = [List.replicate 255 'H', ['H'] ++ ['\n']] := by
    rw [hsplit]
    exact fileLines_two 256 (by decide) _ _ hno (by rw [List.length_replicate])
      (by decide) (by decide)
  have s1 : stripNewline (List.replicate 255 'H') = List.replicate 255 'H' :=
    stripNewline_none _ hno
  have s2 : stripNewline (['H'] ++ ['\n']) = List.replicate 1 'H' := by decide
  have hx : expandLines fuel [List.replicate 255 'H', ['H'] ++ ['\n']] []
      = Run.done ((spaced (List.replicate 255 ['H']) ++ ['\n'])
          ++ (spaced [['H']] ++ ['\n'])) := by
    rw [expandLines, s1, p1]
    simp only [reverseOnto_eq, initStack, List.append_nil, List.reverse_replicate,
      List.nil_append]
    rw [expandLines, s2, p2]
    simp only [reverseOnto_eq, List.append_nil, List.reverse_replicate]
    rw [expandLines, writeStack_eq, writeStack_eq]
    rfl
  rw [parseFormula, hlines, hx, hv]
  rfl

/-- C14, the code at the file with the single line made of `(`, 510 letters
`A` and `)`: the line judged on its own is balanced, yet parenthesesValidation
returns 2 and reports the lines 1 and 2, because the line is read through a
buffer of 512 characters as two strings. -/
theorem parenthesesValidation_long_line :
    balanced ('(' :: (List.replicate 510 'A' ++ [')'])) ∧
    lineInvalid ('(' :: (List.replicate 510 'A' ++ [')'])) initStack = false ∧
    parenthesesValidation ('(' :: (List.replicate 510 'A' ++ [')', '\n'])) = (2, [1, 2]) := by
  have hA : ∀ c ∈ List.replicate 510 'A', c ≠ '(' ∧ c ≠ ')' := by
    intro c hc
    rw [List.eq_of_mem_replicate hc]
    constructor <;> decide
  have hwhole : lineInvalid ('(' :: (List.replicate 510 'A' ++ [')'])) initStack = false := by
    have e : scanParentheses ('(' :: (List.replicate 510 'A' ++ [')'])) initStack
        = scanParentheses [')'] [['(']] := by
      rw [scanParentheses]
      simp only [bne_self_eq_false, Bool.false_and, if_true, Bool.false_eq_true, if_false]
      rw [scanParentheses_skip _ hA]
      rfl
    rw [lineInvalid, e]
    decide
  refine ⟨(lineInvalid_balanced _).mp hwhole, hwhole, ?_⟩
  have hno : ∀ c ∈ '(' :: List.replicate 510 'A', c ≠ '\n' := by
    intro c hc
    rcases List.mem_cons.mp hc with h | h
    · rw [h]; decide
    · rw [List.eq_of_mem_replicate h]; decide
  have hlines : fileLines 512 ('(' :: (List.replicate 510 'A' ++ [')', '\n']))
      = ['(' :: List.replicate 510 'A', [')'] ++ ['\n']] := by
    have e : '(' :: (List.replicate 510 'A' ++ [')', '\n'])
        = ('(' :: List.replicate 510 'A') ++ ([')'] ++ ['\n']) := rfl
    rw [e]
    exact fileLines_two 512 (by decide) _ _ hno
      (by rw [List.length_cons, List.length_replicate]) (by decide) (by decide)
  have h1 : lineInvalid ('(' :: List.replicate 510 'A') initStack = true := by
    have e : scanParentheses ('(' :: List.replicate 510 'A') initStack
        = scanParentheses [] [['(']] := by
      conv_lhs => rw [scanParentheses]
      simp only [bne_self_eq_false, Bool.false_and, if_true, Bool.false_eq_true, if_false]
      have := scanParentheses_skip _ hA [] (push initStack ['('])
      rw [List.append_nil] at this
      rw [this]
      rfl
    rw [lineInvalid, e]
    decide
  have h2 : lineInvalid ([')'] ++ ['\n']) initStack = true := by decide
  rw [parenthesesValidation_eq, hlines]
  simp only [invalidNumbers, h1, h2, if_true]
  rfl

/-- C15: two lines that become equal when every character other than `(` and
`)` is deleted get the same verdict from the per-line check of
parenthesesValidation, and the same stack at the end of the scan. -/
theorem lineInvalid_parentheses_only (line1 line2 : List Char)
    (h : parenthesesOf line1 = parenthesesOf line2) :
    lineInvalid line1 initStack = lineInvalid line2 initStack ∧
    scanParentheses line1 initStack = scanParentheses line2 initStack := by
  have e : scanParentheses line1 initStack = scanParentheses line2 initStack := by
    rw [← scanParentheses_parenthesesOf line1, ← scanParentheses_parenthesesOf line2, h]
  exact ⟨by rw [lineInvalid, lineInvalid, e], e⟩

/-- Witness of C15: `Ca(OH)2` and `()` have the same parentheses. -/
theorem lineInvalid_parentheses_only_witness :
    parenthesesOf "Ca(OH)2".toList = parenthesesOf "()".toList ∧
    lineInvalid "Ca(OH)2".toList initStack = lineInvalid "()".toList initStack :=
  ⟨by decide, (lineInvalid_parentheses_only "Ca(OH)2".toList "()".toList (by decide)).1⟩

/-- C16 as stated fails at `H0`: the formula is well-formed and has no group,
the multiplier applied to its symbol `H` is 0, not a number from 1 to 99, and
with fuel of at least 2 the scan completes with an empty stack, so that the
symbol written does not occur in the expansion. -/
theorem multiplier_zero_counterexample :
    hydrogenZero.wellFormed = true ∧ hydrogenZero.flat = true ∧
    hydrogenZero.text = "H0".toList ∧
    (readMultiplier (readSymbol "H0".toList).2).1 = 0 ∧
    ¬ (1 ≤ (readMultiplier (readSymbol "H0".toList).2).1) ∧
    ∀ fuel, 2 ≤ fuel → parseFormulaHelper fuel "H0".toList initStack = Run.done [] := by
  refine ⟨by decide, by decide, by decide, by decide, by decide, fun fuel hfuel => ?_⟩
  have h2 : parseFormulaHelper 2 "H0".toList initStack = Run.done [] := by decide
  have := parse_more (fuel - 2) _ _ _ _ h2
  rwa [show 2 + (fuel - 2) = fuel by omega] at this

/-- C16 as amended: every multiplier the multiplier rule of parseFormulaHelper
yields, after a symbol or after a `)`, is at most 99, and it is 0 only when it
is written `0` or `00`; and with enough fuel every symbol written in a
well-formed formula occurs in the stack left by the scan unless its own
multiplier or that of a group around it is 0. -/
theorem readMultiplier_range :
    (∀ formula : List Char, (readMultiplier formula).1 ≤ 99) ∧
    (∀ formula : List Char, (readMultiplier formula).1 = 0 →
      peek formula 0 = '0' ∧ (peek formula 1 = '0' ∨ isdigit (peek formula 1) = false)) ∧
    (∀ F : Formula, F.wellFormed = true →
      ∃ n, ∀ fuel, n ≤ fuel → ∃ stack,
        parseFormulaHelper fuel F.text initStack = Run.done stack ∧
        ∀ p ∈ F.occurrences 1, p.2 ≠ 0 → p.1 ∈ bottomToTop stack) := by
  refine ⟨readMultiplier_le, readMultiplier_eq_zero, ?_⟩
  intro F hF
  obtain ⟨n, hn⟩ := parse_formula F hF
  refine ⟨n, fun fuel hfuel => ⟨_, hn fuel hfuel, ?_⟩⟩
  intro p hp h0
  rw [bottomToTop, List.reverse_reverse]
  exact mem_expand_of_occurrence F p hp h0

/-- Witness of C16 as amended at `H2O`: the symbol `H`, written with the
multiplier 2, occurs in the stack. -/
theorem readMultiplier_range_witness :
    (['H'], 2) ∈ water.occurrences 1 ∧
    ∃ n, ∀ fuel, n ≤ fuel → ∃ stack,
      parseFormulaHelper fuel water.text initStack = Run.done stack ∧
      ∀ p ∈ water.occurrences 1, p.2 ≠ 0 → p.1 ∈ bottomToTop stack :=
  ⟨by decide, readMultiplier_range.2.2 water (by decide)⟩

/-- C17, the code at `h` and at `(h)`: the branch for a symbol takes any
letter as the first letter, so with fuel of at least 2 the scan of `h`
completes with the atom `h` on the stack, which is not an element symbol as
its first letter is not uppercase; the loop that reads a group back from
`temp` takes every letter that is not lowercase as a first letter, so on
`(h)`, which passes the validation, with fuel of at least 5 it reads
`temp[-1]`, before the start of the buffer. -/
theorem lowercase_first_letter :
    (∀ fuel, 2 ≤ fuel → parseFormulaHelper fuel "h".toList initStack = Run.done [['h']]) ∧
    isSymbol ['h'] = false ∧
    (parenthesesValidation "(h)\n".toList).1 = 0 ∧
    pushBack "h".toList.reverse initStack = Run.outOfBounds ∧
    (∀ fuel, 5 ≤ fuel → parseFormulaHelper fuel "(h)".toList initStack = Run.outOfBounds) := by
  refine ⟨fun fuel hfuel => ?_, by decide, by decide, by decide, fun fuel hfuel => ?_⟩
  · have h2 : parseFormulaHelper 2 "h".toList initStack = Run.done [['h']] := by decide
    have := parse_more (fuel - 2) _ _ _ _ h2
    rwa [show 2 + (fuel - 2) = fuel by omega] at this
  · obtain ⟨n, rfl⟩ : ∃ n, fuel = n + 2 + 1 + 1 + 1 := ⟨fuel - 5, by omega⟩
    have e1 : parseFormulaHelper (n + 2 + 1 + 1 + 1) "(h)".toList initStack
        = parseFormulaHelper (n + 2 + 1 + 1) "h)".toList [['(']] := by
      rw [show "(h)".toList = '(' :: "h)".toList from rfl, parse_open]
      rfl
    have e2 : parseFormulaHelper (n + 2 + 1 + 1) "h)".toList [['(']]
        = parseFormulaHelper (n + 2 + 1) ")".toList [['h'], ['(']] := by
      rw [show "h)".toList = 'h' :: ")".toList from rfl, parse_alpha _ _ _ _ (by decide)]
      rfl
    have hpop : popLoop (n + 2) [['h'], ['(']] (top [['h'], ['(']]).2 []
        = Run.done ([['(']], ['h']) := by
      have := popLoop_marker [['h']] (by decide) [] [] n
      simpa using this
    rw [e1, e2, show ")".toList = ')' :: [] from rfl, parseFormulaHelper]
    have halpha : isalpha ')' = false := by decide
    have hne : ')' ≠ '(' := by decide
    simp only [halpha, if_neg hne, if_true, Bool.false_eq_true, if_false, hpop]
    rfl

/-- C18 as stated fails at `H2O`: with fuel of at least 3 parseFormula writes
`H H O ` and a line break, with a space after the last symbol, not the
symbols separated by single spaces and a line break. -/
theorem trailing_space_counterexample :
    water.text = "H2O".toList ∧ water.expand = [['H'], ['H'], ['O']] ∧
    (∀ fuel, 3 ≤ fuel →
      parseFormula fuel "H2O\n".toList = Run.done (some "H H O \n".toList)) ∧
    separated water.expand ++ ['\n'] = "H H O\n".toList ∧
    "H H O \n".toList ≠ separated water.expand ++ ['\n'] := by
  refine ⟨by decide, by decide, fun fuel hfuel => ?_, by decide, by decide⟩
  have h3 : parseFormulaHelper 3 "H2O".toList initStack
      = Run.done [['O'], ['H'], ['H']] := by decide
  have hp := parse_more (fuel - 3) _ _ _ _ h3
  rw [show 3 + (fuel - 3) = fuel by omega] at hp
  exact parseFormula_single fuel "H2O".toList _ (by decide) (by decide) (by decide) hp

/-- C18 as amended: with enough fuel, for every file of lines of well-formed
formulas that fit the line buffer, the text parseFormula writes is, for each
line in order, the symbols of its expanded sequence in that order, each
followed by a single space, and a line break. -/
theorem parseFormula_spaced (Fs : List Formula) (hF : ∀ F ∈ Fs, F.wellFormed = true)
    (hlen : ∀ F ∈ Fs, F.text.length + 2 ≤ 256) :
    ∃ n, ∀ fuel, n ≤ fuel →
      parseFormula fuel (joinLines (Fs.map Formula.text))
        = Run.done (some (joinLines (Fs.map (fun F => spaced F.expand)))) :=
  parseFormula_formulas Fs hF hlen

/-- Witness of C18 as amended at the file with the lines `H2O` and
`((H)2)3`. -/
theorem parseFormula_spaced_witness :
    joinLines ([water, hydrogenNested].map Formula.text) = "H2O\n((H)2)3\n".toList ∧
    joinLines ([water, hydrogenNested].map (fun F => spaced F.expand))
      = "H H O \nH H H H H H \n".toList ∧
    ∃ n, ∀ fuel, n ≤ fuel →
      parseFormula fuel (joinLines ([water, hydrogenNested].map Formula.text))
        = Run.done (some (joinLines ([water, hydrogenNested].map (fun F => spaced F.expand)))) :=
  ⟨by decide, by decide, parseFormula_spaced [water, hydrogenNested] (by decide) (by decide)⟩

/-- C19, the code at `H2O` with H = 1 and O = 8: with fuel of at least 3
parseFormula writes `H H O ` for the line and countProtons writes 10 for it,
but countProtons run on the file with the line `H H O `, which passes the
validation, never returns, whatever the fuel: the scan stays at the first
space, a character it has no branch for, so no sum is written. -/
theorem countProtons_flat_never_returns :
    (∀ fuel, 3 ≤ fuel →
      parseFormula fuel "H2O\n".toList = Run.done (some "H H O \n".toList)) ∧
    (∀ fuel, 3 ≤ fuel →
      countProtons fuel hydrogenOxygen "H2O\n".toList = Run.done (some [10])) ∧
    (parenthesesValidation "H H O \n".toList).1 = 0 ∧
    (∀ fuel, parseFormulaHelper fuel "H H O ".toList initStack = Run.outOfFuel) ∧
    (∀ fuel, countProtons fuel hydrogenOxygen "H H O \n".toList = Run.outOfFuel) := by
  have hp : ∀ fuel, 3 ≤ fuel → parseFormulaHelper fuel "H2O".toList initStack
      = Run.done [['O'], ['H'], ['H']] := by
    intro fuel hfuel
    have h3 : parseFormulaHelper 3 "H2O".toList initStack
        = Run.done [['O'], ['H'], ['H']] := by decide
    have := parse_more (fuel - 3) _ _ _ _ h3
    rwa [show 3 + (fuel - 3) = fuel by omega] at this
  have hstuck : ∀ fuel, parseFormulaHelper fuel "H H O ".toList initStack = Run.outOfFuel := by
    intro fuel
    cases fuel with
    | zero => rfl
    | succ n =>
      have e : parseFormulaHelper (n + 1) "H H O ".toList initStack
          = parseFormulaHelper n " H O ".toList (updateStack ['H'] 1 initStack) := by
        rw [show "H H O ".toList = 'H' :: " H O ".toList from rfl,
          parse_alpha _ _ _ _ (by decide)]
        rfl
      rw [e]
      exact parse_stuck ' ' "H O ".toList _ (by decide) (by decide) (by decide) n
  refine ⟨fun fuel hfuel => ?_, fun fuel hfuel => ?_, by decide, hstuck, fun fuel => ?_⟩
  · exact parseFormula_single fuel "H2O".toList _ (by decide) (by decide) (by decide)
      (hp fuel hfuel)
  · have h := countProtons_single fuel hydrogenOxygen "H2O".toList _ (by decide) (by decide)
      (by decide) (hp fuel hfuel)
      (by
        intro a ha
        simp only [List.mem_cons, List.mem_singleton, List.not_mem_nil, or_false] at ha
        rcases ha with h | h | h <;> (rw [h]; exact isSymbol_isToken (by decide)))
      (by decide)
    have e : wrapInt (protonSum hydrogenOxygen [['O'], ['H'], ['H']].reverse) = 10 := by
      decide
    rw [e] at h
    exact h
  · have v : ((parenthesesValidation "H H O \n".toList).1 != 0) = false := by decide
    have l : fileLines 256 "H H O \n".toList = ["H H O \n".toList] := by decide
    have s : stripNewline "H H O \n".toList = "H H O ".toList := by decide
    have x : expandLines fuel ["H H O \n".toList] [] = Run.outOfFuel := by
      rw [expandLines, s, hstuck]
    have pf : parseFormula fuel "H H O \n".toList = Run.outOfFuel := by
      rw [parseFormula, l, x]
      simp only [v]
      rfl
    rw [countProtons, pf]
    simp only [v]
    rfl

/-- C20: on every initialised stack, pushing strings v1..vn of at most 3
characters each succeeds at every call, and n calls of pop then succeed and
return vn..v1 in that order and leave the stack as it was before the pushes,
with its contents and its size. -/
theorem push_pop_lifo (s : STACK) (values : List (List Char)) (retValue : List Char)
    (h : ∀ v ∈ values, v.length ≤ 3) :
    ∃ pushed : STACK,
      pushAll (some s) values = Run.done (values.map (fun _ => EXIT_SUCCESS), some pushed) ∧
      stackSize pushed = stackSize s + values.length ∧
      popTimes values.length (some pushed) retValue
        = (values.reverse.map (fun v => (EXIT_SUCCESS, v)), some s) := by
  refine ⟨values.reverse ++ s, pushAll_fits values h s, ?_, ?_⟩
  · simp [stackSize, Nat.add_comm]
  · have := popTimes_pushed values.reverse s retValue
    rwa [List.length_reverse] at this

/-- Witness of C20, the test of stack.c: A, B, C are pushed, then C, B, A are
popped and the stack is empty again. -/
theorem push_pop_lifo_witness :
    pushAll (some initStack) [['A'], ['B'], ['C']]
      = Run.done ([EXIT_SUCCESS, EXIT_SUCCESS, EXIT_SUCCESS], some [['C'], ['B'], ['A']]) ∧
    popTimes 3 (some [['C'], ['B'], ['A']]) []
      = ([(EXIT_SUCCESS, ['C']), (EXIT_SUCCESS, ['B']), (EXIT_SUCCESS, ['A'])], some initStack) ∧
    ∃ pushed : STACK,
      pushAll (some initStack) [['A'], ['B'], ['C']]
        = Run.done ([['A'], ['B'], ['C']].map (fun _ => EXIT_SUCCESS), some pushed) ∧
      stackSize pushed = stackSize initStack + [['A'], ['B'], ['C']].length ∧
      popTimes [['A'], ['B'], ['C']].length (some pushed) []
        = ([['A'], ['B'], ['C']].reverse.map (fun v => (EXIT_SUCCESS, v)), some initStack) :=
  ⟨by decide, by decide, push_pop_lifo initStack [['A'], ['B'], ['C']] [] (by decide)⟩

/-- C21: a call of pop returns a failure code exactly when the stack is not
initialised or is empty, and then the stack and the buffer are left as they
were; on a stack with a top element it returns 0, removes that element only
and the size goes down by one.  After pushes of strings of at most 3
characters on a new stack, isEmpty is false while fewer pops than pushes have
been made and true after as many. -/
theorem pop_failure_iff_empty (values : List (List Char)) (k : Nat)
    (h : ∀ v ∈ values, v.length ≤ 3) (hk : k ≤ values.length) :
    (∀ (stack : Option STACK) (retValue : List Char),
      ((popCall stack retValue).1 = EXIT_FAILURE ↔ (stack = none ∨ stack = some [])) ∧
      ((popCall stack retValue).1 = EXIT_FAILURE →
        (popCall stack retValue).2.1 = stack ∧ (popCall stack retValue).2.2 = retValue)) ∧
    (∀ (v : List Char) (s : STACK) (retValue : List Char),
      popCall (some (v :: s)) retValue = (0, some s, v) ∧
      stackSize (v :: s) = stackSize s + 1) ∧
    EXIT_FAILURE ≠ 0 ∧
    (∀ s : STACK, isEmpty s = true ↔ s = []) ∧
    ∃ pushed left : STACK,
      pushAll (some initStack) values
        = Run.done (values.map (fun _ => EXIT_SUCCESS), some pushed) ∧
      (popTimes k (some pushed) []).2 = some left ∧
      stackSize left = values.length - k ∧
      (isEmpty left = true ↔ k = values.length) := by
  refine ⟨fun stack retValue => ⟨popCall_failure_iff stack retValue,
    popCall_failure_frame stack retValue⟩, fun v s retValue => ⟨rfl, rfl⟩, by decide,
    fun s => by rw [isEmpty_iff, List.length_eq_zero], ?_⟩
  refine ⟨values.reverse ++ initStack, (values.reverse ++ initStack).drop k,
    pushAll_fits values h initStack, popTimes_some k _ [] (by simpa [initStack] using hk), ?_, ?_⟩
  · simp [stackSize, initStack]
  · rw [isEmpty_iff]
    simp only [initStack, List.append_nil, List.length_drop, List.length_reverse]
    omega

/-- Witness of C21, the test of stack.c: after the pushes of A, B, C the
stack is not empty after two pops and is empty after three. -/
theorem pop_failure_iff_empty_witness :
    (∃ pushed left : STACK,
      pushAll (some initStack) [['A'], ['B'], ['C']]
        = Run.done ([['A'], ['B'], ['C']].map (fun _ => EXIT_SUCCESS), some pushed) ∧
      (popTimes 2 (some pushed) []).2 = some left ∧
      stackSize left = [['A'], ['B'], ['C']].length - 2 ∧
      (isEmpty left = true ↔ 2 = [['A'], ['B'], ['C']].length)) ∧
    (∃ pushed left : STACK,
      pushAll (some initStack) [['A'], ['B'], ['C']]
        = Run.done ([['A'], ['B'], ['C']].map (fun _ => EXIT_SUCCESS), some pushed) ∧
      (popTimes 3 (some pushed) []).2 = some left ∧
      stackSize left = [['A'], ['B'], ['C']].length - 3 ∧
      (isEmpty left = true ↔ 3 = [['A'], ['B'], ['C']].length)) ∧
    popCall (some initStack) ['C'] = (EXIT_FAILURE, some initStack, ['C']) :=
  ⟨(pop_failure_iff_empty [['A'], ['B'], ['C']] 2 (by decide) (by decide)).2.2.2.2,
   (pop_failure_iff_empty [['A'], ['B'], ['C']] 3 (by decide) (by decide)).2.2.2.2,
   by decide⟩

/-- C22: on a stack with a top element a call of top returns 0, yields that
element and leaves the stack as it was, with its contents and its size, so
that the call of pop made next returns the same string and removes that
element; a call of top leaves every stack as it was, however many calls are
made; on an empty stack, and on a stack that is not initialised, top returns a
failure code and yields the empty string. -/
theorem top_leaves_stack :
    (∀ (v : List Char) (s : STACK) (retValue : List Char),
      topCall (some (v :: s)) = (0, some (v :: s), v) ∧
      popCall (topCall (some (v :: s))).2.1 (topCall (some (v :: s))).2.2 = (0, some s, v) ∧
      (popCall (some (v :: s)) retValue).2.2 = (topCall (some (v :: s))).2.2) ∧
    (∀ stack : Option STACK, (topCall stack).2.1 = stack) ∧
    (∀ s : STACK, ∃ after : STACK,
      (topCall (some s)).2.1 = some after ∧ after = s ∧ stackSize after = stackSize s) ∧
    (∀ (n : Nat) (stack : Option STACK), (topTimes n stack).2 = stack) ∧
    (∀ (n : Nat) (v : List Char) (s : STACK),
      (topTimes n (some (v :: s))).1 = List.replicate n (EXIT_SUCCESS, v)) ∧
    topCall (some initStack) = (EXIT_FAILURE, some initStack, []) ∧
    topCall none = (EXIT_FAILURE, none, []) ∧
    EXIT_FAILURE ≠ 0 ∧
    (∀ s : STACK, (topCall (some s)).1 = (top s).1 ∧ (topCall (some s)).2.2 = (top s).2) := by
  have frame : ∀ stack : Option STACK, (topCall stack).2.1 = stack := by
    intro stack
    cases stack with
    | none => rfl
    | some s => rfl
  refine ⟨fun v s retValue => ⟨rfl, rfl, rfl⟩, frame, fun s => ⟨s, rfl, rfl, rfl⟩, ?_, ?_,
    rfl, rfl, by decide, fun s => ⟨rfl, rfl⟩⟩
  · intro n
    induction n with
    | zero => intro stack; rfl
    | succ n ih =>
      intro stack
      simp only [topTimes]
      rw [ih, frame]
  · intro n
    induction n with
    | zero => intro v s; rfl
    | succ n ih =>
      intro v s
      simp only [topTimes, List.replicate_succ]
      have e : topCall (some (v :: s)) = (EXIT_SUCCESS, some (v :: s), v) := rfl
      rw [e]
      simp only
      rw [ih]

/-- C23: for every array of elements, the empty one included,
sortPeriodicTable leaves the entries in non-decreasing order of atomic number
and the array holds a permutation of the entries it held; the empty array is
left as it is, and the array H, He, C, B of the test becomes H, He, B, C. -/
theorem sortPeriodicTable_sorted_permutation :
    (∀ elements : List ELEMENT,
      (sortPeriodicTable elements).Pairwise (fun a b => a.atomicNumber ≤ b.atomicNumber) ∧
      List.Perm (sortPeriodicTable elements) elements ∧
      (sortPeriodicTable elements).length = elements.length) ∧
    sortPeriodicTable [] = [] ∧
    sortPeriodicTable unsortedTable
      = [{ symbol := ['H'], atomicNumber := 1 }, { symbol := ['H', 'e'], atomicNumber := 2 },
         { symbol := ['B'], atomicNumber := 5 }, { symbol := ['C'], atomicNumber := 6 }] :=
  ⟨fun elements => ⟨sortPeriodicTable_sorted elements, sortPeriodicTable_perm elements,
    (sortPeriodicTable_perm elements).length_eq⟩, rfl, by decide⟩

end ChemicalFormulas

namespace LatinSquare

/-- C24: in a Latin square of size at most 9, for a cell (i, j) inside the
square and a value val, checkDuplicates returns, and it returns true exactly
when some cell of row i or some cell of column j has absolute value val, so
that a pre-filled value, stored negative, is found like a value entered by the
player. -/
theorem checkDuplicates_iff (square : Square) (size i j val : Int) (hsize : size ≤ N)
    (hi : 0 ≤ i ∧ i < size) (hj : 0 ≤ j ∧ j < size) :
    ∃ b, checkDuplicates square size i j val = some b ∧
      (b = true ↔ ∃ k : Int, 0 ≤ k ∧ k < size ∧
        (|square i.toNat k.toNat| = val ∨ |square k.toNat j.toNat| = val)) :=
  checkDuplicates_occurs square size i j val hsize hi hj

/-- Witness of C24 in the square of size 3 with the pre-filled 2 in its first
cell and a 3 in the middle: the value 2 is found from the cell (1, 0) in its
column, the value 3 from the cell (1, 0) in its row, and the value 1 is not
found. -/
theorem checkDuplicates_iff_witness :
    checkDuplicates sample 3 1 0 2 = some true ∧
    checkDuplicates sample 3 1 0 3 = some true ∧
    checkDuplicates sample 3 1 0 1 = some false ∧
    ∃ b, checkDuplicates sample 3 1 0 2 = some b ∧
      (b = true ↔ ∃ k : Int, 0 ≤ k ∧ k < 3 ∧
        (|sample (1 : Int).toNat k.toNat| = 2 ∨ |sample k.toNat (0 : Int).toNat| = 2)) :=
  ⟨by decide, by decide, by decide,
   checkDuplicates_iff sample 3 1 0 2 (by decide) (by decide) (by decide)⟩

/-- C25: for every square, size, i, j and val, whenever checkInput returns,
without a read outside the array, it returns true exactly when i and j are at
least 0 and below size, val is between 0 and size, and either val is 0 and
the cell (i, j) is not a protected cell, or val is not 0, the cell (i, j) is
empty and val does not occur in row i or column j; for every size of at most
9, the sizes the array `short square[N][N]` holds, it does return; so
clearing a protected cell and inserting a value that occurs in the row or the
column are rejected. -/
theorem checkInput_iff (square : Square) (size i j val : Int) :
    (∀ b, checkInput square size i j val = some b →
      (b = true ↔
        0 ≤ i ∧ i < size ∧ 0 ≤ j ∧ j < size ∧ 0 ≤ val ∧ val ≤ size ∧
          ((val = 0 ∧ ¬ square i.toNat j.toNat < 0) ∨
           (val ≠ 0 ∧ square i.toNat j.toNat = 0 ∧ ¬ occurs square size i j val)))) ∧
    (size ≤ N → ∃ b, checkInput square size i j val = some b) ∧
    (size ≤ N → val = 0 → square i.toNat j.toNat < 0 →
      checkInput square size i j val = some false) ∧
    (size ≤ N → val ≠ 0 → occurs square size i j val →
      checkInput square size i j val = some false) := by
  refine ⟨fun b hb => checkInput_some square size i j val b hb, fun hsize => ?_,
    fun hsize hval hneg => ?_, fun hsize hval hocc => ?_⟩
  · obtain ⟨b, hb, _⟩ := checkInput_accepted square size i j val hsize
    exact ⟨b, hb⟩
  · obtain ⟨b, hb, hiff⟩ := checkInput_accepted square size i j val hsize
    cases b with
    | false => exact hb
    | true =>
      obtain ⟨_, _, _, _, _, _, h | h⟩ := hiff.mp rfl
      · exact absurd hneg h.2
      · exact absurd hval h.1
  · obtain ⟨b, hb, hiff⟩ := checkInput_accepted square size i j val hsize
    cases b with
    | false => exact hb
    | true =>
      obtain ⟨_, _, _, _, _, _, h | h⟩ := hiff.mp rfl
      · exact absurd h.1 hval
      · exact absurd hocc h.2.2

/-- Witness of C25 in the square of size 3 with the pre-filled 2 in its first
cell: clearing that cell is rejected, entering 2 in the cell (0, 1) of its row
is rejected, entering 1 there is accepted, and so is clearing the empty cell
(0, 1). -/
theorem checkInput_iff_witness :
    checkInput sample 3 0 0 0 = some false ∧
    checkInput sample 3 0 1 2 = some false ∧
    checkInput sample 3 0 1 1 = some true ∧
    checkInput sample 3 0 1 0 = some true ∧
    (∃ b, checkInput sample 3 0 1 1 = some b) ∧
    (true = true ↔
      (0 : Int) ≤ 0 ∧ (0 : Int) < 3 ∧ (0 : Int) ≤ 1 ∧ (1 : Int) < 3 ∧ (0 : Int) ≤ 1 ∧
        (1 : Int) ≤ 3 ∧
        (((1 : Int) = 0 ∧ ¬ sample (0 : Int).toNat (1 : Int).toNat < 0) ∨
         ((1 : Int) ≠ 0 ∧ sample (0 : Int).toNat (1 : Int).toNat = 0 ∧
           ¬ occurs sample 3 0 1 1))) :=
  ⟨by decide, by decide, by decide, by decide,
   (checkInput_iff sample 3 0 1 1).2.1 (by decide),
   (checkInput_iff sample 3 0 1 1).1 true (by decide)⟩

end LatinSquare

namespace ChemicalFormulas

/-- C26: with enough fuel the scan of a well-formed formula line ends; at the
head of every iteration of its outer loop and after every iteration, the last
included, the number of markers on the stack is the number of `(` read so far
minus the number of `)` read so far; an iteration at a `)` finds on the stack
entries without a marker, then a marker, then a rest P, and leaves entries
without a marker on P as it was, so it removes that marker and no other; and
the stack returned at the end of the line holds no marker, only element
symbols. -/
theorem markers_equal_depth (F : Formula) (hF : F.wellFormed = true) :
    ∃ n, ∀ fuel, n ≤ fuel → ∃ its final,
      scanIterations fuel F.text initStack = Run.done (its, final) ∧
      parseFormulaHelper fuel F.text initStack = Run.done final ∧
      linked F.text initStack its final ∧
      (∀ it ∈ its,
        (∃ p, F.text = p ++ it.formula ∧ markers it.stack + p.count ')' = p.count '(') ∧
        (∃ p, F.text = p ++ it.next ∧ markers it.after + p.count ')' = p.count '(')) ∧
      (∀ it ∈ its, ∀ q, it.formula = ')' :: q →
        ∃ atoms P fresh, it.stack = atoms ++ ['('] :: P ∧ markers atoms = 0 ∧
          it.after = fresh ++ P ∧ markers fresh = 0 ∧
          markers it.after + 1 = markers it.stack) ∧
      markers final = 0 ∧ (∀ x ∈ final, isSymbol x = true) := by
  obtain ⟨n, hn⟩ := scan_formula F hF
  refine ⟨n, fun fuel hfuel => ?_⟩
  obtain ⟨its, hrun, hlinked, hfacts⟩ := hn fuel hfuel
  have hsym : ∀ x ∈ F.expand.reverse, isSymbol x = true := fun x hx =>
    expand_symbols hF x (List.mem_reverse.mp hx)
  refine ⟨its, F.expand.reverse, hrun, ?_, hlinked,
    fun it hit => ⟨(hfacts it hit).before, (hfacts it hit).later⟩, ?_,
    markers_symbols _ hsym, hsym⟩
  · rw [scanIterations_result, hrun]
  · intro it hit q hq
    obtain ⟨_, atoms, P, fresh, h1, h2, h3, h4⟩ := (hfacts it hit).close q hq
    refine ⟨atoms, P, fresh, h1, markers_symbols _ h2, h3, markers_symbols _ h4, ?_⟩
    rw [h1, h3, markers_append, markers_append, markers_cons_marker, markers_symbols _ h2,
      markers_symbols _ h4]
    omega

/-- Witness of C26 at `(H)2O`: the scan makes four iterations, with 0, 1, 1
and 0 markers on the stack at their heads, and ends with H, H, O. -/
theorem markers_equal_depth_witness :
    hydrogenGroup.text = "(H)2O".toList ∧
    scanIterations 5 "(H)2O".toList initStack = Run.done
      ([{ formula := "(H)2O".toList, stack := [], next := "H)2O".toList, after := [['(']],
          codes := [] },
        { formula := "H)2O".toList, stack := [['(']], next := ")2O".toList,
          after := [['H'], ['(']], codes := [] },
        { formula := ")2O".toList, stack := [['H'], ['(']], next := "O".toList,
          after := [['H'], ['H']], codes := [0, 0, 0, 0] },
        { formula := "O".toList, stack := [['H'], ['H']], next := [],
          after := [['O'], ['H'], ['H']], codes := [] }],
       [['O'], ['H'], ['H']]) ∧
    ∃ n, ∀ fuel, n ≤ fuel → ∃ its final,
      scanIterations fuel hydrogenGroup.text initStack = Run.done (its, final) ∧
      parseFormulaHelper fuel hydrogenGroup.text initStack = Run.done final ∧
      linked hydrogenGroup.text initStack its final ∧
      (∀ it ∈ its,
        (∃ p, hydrogenGroup.text = p ++ it.formula ∧
          markers it.stack + p.count ')' = p.count '(') ∧
        (∃ p, hydrogenGroup.text = p ++ it.next ∧
          markers it.after + p.count ')' = p.count '(')) ∧
      (∀ it ∈ its, ∀ q, it.formula = ')' :: q →
        ∃ atoms P fresh, it.stack = atoms ++ ['('] :: P ∧ markers atoms = 0 ∧
          it.after = fresh ++ P ∧ markers fresh = 0 ∧
          markers it.after + 1 = markers it.stack) ∧
      markers final = 0 ∧ (∀ x ∈ final, isSymbol x = true) :=
  ⟨by decide, by decide, markers_equal_depth hydrogenGroup (by decide)⟩

/-- C27: on a stack that holds, from bottom to top, the entries P, a marker
and the element symbols a1..an, the `)` branch with the multiplier m that
follows the `)` stops its pop loop at the marker, removes the marker, and
leaves on the stack, from bottom to top, P as it was followed by m times
a1..an in that order; the scan goes on from that stack. -/
theorem close_branch_repeats (P : STACK) (atoms : List (List Char)) (rest : List Char)
    (fuel : Nat) (ha : ∀ a ∈ atoms, isSymbol a = true) (hfuel : atoms.length + 1 ≤ fuel) :
    bottomToTop (atoms.reverse ++ ['('] :: P) = bottomToTop P ++ ['('] :: atoms ∧
    popLoop fuel (atoms.reverse ++ ['('] :: P) (top (atoms.reverse ++ ['('] :: P)).2 []
      = Run.done (['('] :: P, atoms.reverse.flatten) ∧
    (∃ codes,
      scanIteration fuel ')' rest (atoms.reverse ++ ['('] :: P)
        = Run.done { formula := ')' :: rest, stack := atoms.reverse ++ ['('] :: P,
                     next := (readMultiplier rest).2,
                     after := (repeatList (readMultiplier rest).1 atoms).reverse ++ P,
                     codes := codes }) ∧
    bottomToTop ((repeatList (readMultiplier rest).1 atoms).reverse ++ P)
      = bottomToTop P ++ repeatList (readMultiplier rest).1 atoms ∧
    parseFormulaHelper (fuel + 1) (')' :: rest) (atoms.reverse ++ ['('] :: P)
      = parseFormulaHelper fuel (readMultiplier rest).2
          ((repeatList (readMultiplier rest).1 atoms).reverse ++ P) := by
  have hit := scanIteration_close P atoms rest fuel ha hfuel
  refine ⟨by simp [bottomToTop], (close_atoms P atoms ha 0 fuel hfuel).1, ⟨_, hit⟩,
    by simp [bottomToTop], ?_⟩
  rw [scanIteration_step, hit]

/-- Witness of C27: the `)` of `(CN)6` of `Co3(Fe(CN)6)2`, met on the stack
that holds Co, Co, Co, a marker, Fe, a marker, C and N, leaves Co, Co, Co, a
marker, Fe and six times C, N. -/
theorem close_branch_repeats_witness :
    bottomToTop ((repeatList (readMultiplier "6)2".toList).1 [['C'], ['N']]).reverse
        ++ [['F', 'e'], ['('], ['C', 'o'], ['C', 'o'], ['C', 'o']])
      = [['C', 'o'], ['C', 'o'], ['C', 'o'], ['('], ['F', 'e'],
         ['C'], ['N'], ['C'], ['N'], ['C'], ['N'], ['C'], ['N'], ['C'], ['N'], ['C'], ['N']] ∧
    parseFormulaHelper (3 + 1) (')' :: "6)2".toList)
        ([['C'], ['N']].reverse ++ ['('] :: [['F', 'e'], ['('], ['C', 'o'], ['C', 'o'], ['C', 'o']])
      = parseFormulaHelper 3 (readMultiplier "6)2".toList).2
          ((repeatList (readMultiplier "6)2".toList).1 [['C'], ['N']]).reverse
            ++ [['F', 'e'], ['('], ['C', 'o'], ['C', 'o'], ['C', 'o']]) :=
  ⟨by decide,
   (close_branch_repeats [['F', 'e'], ['('], ['C', 'o'], ['C', 'o'], ['C', 'o']]
      [['C'], ['N']] "6)2".toList 3 (by decide) (by decide)).2.2.2.2⟩

/-- C28: the multiplier rule of parseFormulaHelper.  When the next character
is a digit and the one after it is not, the multiplier is the value of that
digit and one character is read; when the next two characters are digits, the
multiplier is ten times the value of the first plus the value of the second
and two characters are read; otherwise the multiplier is 1 and nothing is
read.  The multiplier is at most 99, which `99` gives.  The same rule gives
the multiplier and the unread part after an element symbol and after a `)`. -/
theorem readMultiplier_rule :
    (∀ formula : List Char, isdigit (peek formula 0) = true → isdigit (peek formula 1) = false →
      readMultiplier formula = (digitValue (peek formula 0), formula.drop 1) ∧
      formula = peek formula 0 :: (readMultiplier formula).2) ∧
    (∀ formula : List Char, isdigit (peek formula 0) = true → isdigit (peek formula 1) = true →
      readMultiplier formula
        = (10 * digitValue (peek formula 0) + digitValue (peek formula 1), formula.drop 2) ∧
      formula = peek formula 0 :: peek formula 1 :: (readMultiplier formula).2) ∧
    (∀ formula : List Char, isdigit (peek formula 0) = false →
      readMultiplier formula = (1, formula)) ∧
    (∀ c : Char, isdigit c = true → digitValue c ≤ 9) ∧
    (∀ formula : List Char, (readMultiplier formula).1 ≤ 99) ∧
    readMultiplier "99".toList = (99, []) ∧
    (∀ (fuel : Nat) (c : Char) (rest : List Char) (stack : STACK), isalpha c = true →
      scanIteration fuel c rest stack
        = Run.done { formula := c :: rest, stack := stack,
                     next := (readMultiplier (readSymbol (c :: rest)).2).2,
                     after := updateStack (readSymbol (c :: rest)).1
                       (readMultiplier (readSymbol (c :: rest)).2).1 stack,
                     codes := [] }) ∧
    (∀ (fuel : Nat) (rest : List Char) (stack stack1 stack2 : STACK) (temp : List Char),
      popLoop fuel stack (top stack).2 [] = Run.done (stack1, temp) →
      pushBackTimes (readMultiplier rest).1 temp (pop stack1 ['(']).2.1 = Run.done stack2 →
      parseFormulaHelper (fuel + 1) (')' :: rest) stack
        = parseFormulaHelper fuel (readMultiplier rest).2 stack2) := by
  refine ⟨fun formula h0 h1 => ⟨readMultiplier_one_digit formula h0 h1, ?_⟩,
    fun formula h0 h1 => ⟨readMultiplier_two_digits formula h0 h1, ?_⟩,
    readMultiplier_no_digit, fun c h => digitValue_le h, readMultiplier_le, by decide,
    fun fuel c rest stack h => by simp [scanIteration, h],
    fun fuel rest stack stack1 stack2 temp h1 h2 => parse_close fuel rest stack stack1 stack2
      temp h1 h2⟩
  · rw [readMultiplier_one_digit formula h0 h1]
    cases formula with
    | nil => exact absurd (peek_digit_cons [] 0 h0) (by simp)
    | cons c cs => simp [peek_cons_zero]
  · rw [readMultiplier_two_digits formula h0 h1]
    cases formula with
    | nil => exact absurd (peek_digit_cons [] 0 h0) (by simp)
    | cons c cs =>
      cases cs with
      | nil => exact absurd (peek_digit_cons [c] 1 h1) (by simp)
      | cons d ds => simp [peek_cons_zero, peek_cons_succ]

/-- C29: for every stack, the second stack that parseFormula fills by popping
the first holds, top first, the entries of the first from bottom to top, and
the text written by popping the second is those entries in that order, oldest
push first, each one once and followed by a space, before the line break; the
entries written are as many as the stack held and are the same entries; when
the entries are tokens, the text splits back into them. -/
theorem writeStack_bottomToTop (stack : STACK) :
    reverseOnto stack initStack = bottomToTop stack ∧
    writeStack (reverseOnto stack initStack) = spaced (bottomToTop stack) ++ ['\n'] ∧
    (bottomToTop stack).length = stack.length ∧
    List.Perm (bottomToTop stack) stack ∧
    ((∀ a ∈ stack, isToken a) →
      strtokSpaces (stripNewline (writeStack (reverseOnto stack initStack))) []
        = bottomToTop stack) := by
  have e : reverseOnto stack initStack = bottomToTop stack := by
    rw [reverseOnto_eq, initStack, List.append_nil, bottomToTop]
  refine ⟨e, by rw [e, writeStack_eq], by simp [bottomToTop],
    List.reverse_perm stack, fun h => ?_⟩
  have ht : ∀ a ∈ bottomToTop stack, isToken a := fun a ha =>
    h a (List.mem_reverse.mp ha)
  rw [e, writeStack_eq, stripNewline_append _ (spaced_no_newline _ ht) []]
  have := strtokSpaces_spaced (bottomToTop stack) ht []
  simpa [strtokSpaces] using this

/-- C30: with enough fuel the scan of a well-formed formula line returns.
Every iteration of the outer loop reads at least one character, so the
iterations are at most as many as the characters of the line; every call of
`top` and `pop` made in the scan returns EXIT_SUCCESS, the code these
functions return on a stack that is not empty and only on such a stack; and at
every `)` the stack holds a marker, at which the inner pop loop stops. -/
theorem scan_terminates (F : Formula) (hF : F.wellFormed = true) :
    (∀ (stack : STACK) (retValue : List Char),
      ((top stack).1 = EXIT_SUCCESS ↔ stack ≠ []) ∧
      ((pop stack retValue).1 = EXIT_SUCCESS ↔ stack ≠ [])) ∧
    ∃ n, ∀ fuel, n ≤ fuel →
      parseFormulaHelper fuel F.text initStack = Run.done F.expand.reverse ∧
      ∃ its,
        scanIterations fuel F.text initStack = Run.done (its, F.expand.reverse) ∧
        linked F.text initStack its F.expand.reverse ∧
        its.length ≤ F.text.length ∧
        (∀ it ∈ its,
          (∃ d, d ≠ [] ∧ it.formula = d ++ it.next) ∧
          it.next.length < it.formula.length ∧
          (∀ c ∈ it.codes, c = EXIT_SUCCESS)) ∧
        (∀ it ∈ its, ∀ q, it.formula = ')' :: q →
          it.codes ≠ [] ∧
          ∃ atoms P, it.stack = atoms ++ ['('] :: P ∧ (∀ a ∈ atoms, a ≠ ['(']) ∧
            ∀ k, atoms.length + 1 ≤ k →
              popLoop k it.stack (top it.stack).2 [] = Run.done (['('] :: P, atoms.flatten)) := by
  constructor
  · intro stack retValue
    cases stack with
    | nil => simp [top, pop, EXIT_SUCCESS, EXIT_FAILURE]
    | cons a s => simp [top, pop]
  obtain ⟨n, hn⟩ := scan_formula F hF
  refine ⟨n, fun fuel hfuel => ?_⟩
  obtain ⟨its, hrun, hlinked, hfacts⟩ := hn fuel hfuel
  have hadv : ∀ it ∈ its, it.next.length < it.formula.length := by
    intro it hit
    obtain ⟨d, hd, he⟩ := (hfacts it hit).advance
    rw [he, List.length_append]
    have : 0 < d.length := List.length_pos.mpr hd
    omega
  refine ⟨by rw [scanIterations_result, hrun], its, hrun, hlinked,
    linked_length its _ _ _ hlinked hadv,
    fun it hit => ⟨(hfacts it hit).advance, hadv it hit, (hfacts it hit).success⟩, ?_⟩
  intro it hit q hq
  obtain ⟨hcodes, atoms, P, fresh, h1, h2, _, _⟩ := (hfacts it hit).close q hq
  have hne : ∀ a ∈ atoms, a ≠ ['('] := fun a ha => isSymbol_ne_marker (h2 a ha)
  refine ⟨hcodes, atoms, P, h1, hne, fun k hk => ?_⟩
  have := popLoop_marker atoms hne P [] (k - (atoms.length + 1))
  rw [show k - (atoms.length + 1) + atoms.length + 1 = k by omega] at this
  rw [h1]
  simpa using this

/-- Witness of C30 at `((H)2)3`: the scan returns with fuel 8. -/
theorem scan_terminates_witness :
    hydrogenNested.text = "((H)2)3".toList ∧
    parseFormulaHelper 8 "((H)2)3".toList initStack
      = Run.done hydrogenNested.expand.reverse ∧
    ∃ n, ∀ fuel, n ≤ fuel →
      parseFormulaHelper fuel hydrogenNested.text initStack
        = Run.done hydrogenNested.expand.reverse ∧
      ∃ its,
        scanIterations fuel hydrogenNested.text initStack
          = Run.done (its, hydrogenNested.expand.reverse) ∧
        linked hydrogenNested.text initStack its hydrogenNested.expand.reverse ∧
        its.length ≤ hydrogenNested.text.length ∧
        (∀ it ∈ its,
          (∃ d, d ≠ [] ∧ it.formula = d ++ it.next) ∧
          it.next.length < it.formula.length ∧
          (∀ c ∈ it.codes, c = EXIT_SUCCESS)) ∧
        (∀ it ∈ its, ∀ q, it.formula = ')' :: q →
          it.codes ≠ [] ∧
          ∃ atoms P, it.stack = atoms ++ ['('] :: P ∧ (∀ a ∈ atoms, a ≠ ['(']) ∧
            ∀ k, atoms.length + 1 ≤ k →
              popLoop k it.stack (top it.stack).2 [] = Run.done (['('] :: P, atoms.flatten)) :=
  ⟨by decide, by decide, (scan_terminates hydrogenNested (by decide)).2⟩

/-- C31: for every list of element symbols a1..an on a stack above a marker,
the pop loop of the group branch fills the buffer `temp` with the letters of
an, ..., a1 in that order, and one pass of the loop that reads `temp` from its
last character down to its first pushes exactly a1..an in that order on any
stack, without a read before the start of `temp`; so do the passes of the
`k` loop, once for each unit of the multiplier. -/
theorem retokenise_round_trip (atoms : List (List Char)) (below stack : STACK)
    (h : ∀ a ∈ atoms, isSymbol a = true) :
    popLoop (atoms.length + 1) (atoms.reverse ++ ['('] :: below)
        (top (atoms.reverse ++ ['('] :: below)).2 []
      = Run.done (['('] :: below, atoms.reverse.flatten) ∧
    pushBack atoms.reverse.flatten.reverse stack = Run.done (atoms.reverse ++ stack) ∧
    bottomToTop (atoms.reverse ++ stack) = bottomToTop stack ++ atoms ∧
    (∀ m : Nat, pushBackTimes m atoms.reverse.flatten stack
      = Run.done ((repeatList m atoms).reverse ++ stack)) := by
  have hsym : ∀ x ∈ atoms.reverse, isSymbol x = true := fun x hx =>
    h x (List.mem_reverse.mp hx)
  refine ⟨(close_atoms below atoms h 0 (atoms.length + 1) (le_refl _)).1, ?_,
    by simp [bottomToTop], fun m => ?_⟩
  · have e : atoms.reverse.flatten.reverse = (atoms.map List.reverse).flatten := by
      rw [List.reverse_flatten, List.map_reverse, List.reverse_reverse]
    rw [e]
    exact pushBack_symbols atoms h stack
  · have := pushBackTimes_symbols m atoms.reverse hsym stack
    rw [repeatList_reverse]
    exact this

/-- Witness of C31 at the symbols Fe, C, N: the buffer holds `NCFe` and the
pass over it pushes Fe, C, N; a buffer that starts with a lowercase letter
makes the pass read before its start. -/
theorem retokenise_round_trip_witness :
    [['F', 'e'], ['C'], ['N']].reverse.flatten = "NCFe".toList ∧
    pushBack "NCFe".toList.reverse [] = Run.done [['N'], ['C'], ['F', 'e']] ∧
    pushBack "h".toList.reverse [] = Run.outOfBounds ∧
    pushBack [['F', 'e'], ['C'], ['N']].reverse.flatten.reverse []
      = Run.done ([['F', 'e'], ['C'], ['N']].reverse ++ []) :=
  ⟨by decide, by decide, by decide,
   (retokenise_round_trip [['F', 'e'], ['C'], ['N']] [] [] (by decide)).2.1⟩

/-- C32: for all well-formed formulas F and G and every stack, with enough
fuel the scan of the text of F followed by the text of G returns the stack
that holds, from bottom to top, the entries it held, unchanged, then the
expansion of F, then the expansion of G; and the scan of the text of F alone
returns the entries the stack held with the expansion of F above them. -/
theorem parseFormulaHelper_compositional (F G : Formula) (hF : F.wellFormed = true)
    (hG : G.wellFormed = true) :
    ∃ n, ∀ (stack : STACK) (fuel : Nat), n ≤ fuel →
      (∃ r, parseFormulaHelper fuel (F.text ++ G.text) stack = Run.done r ∧
        bottomToTop r = bottomToTop stack ++ (F.expand ++ G.expand)) ∧
      (∃ r, parseFormulaHelper fuel F.text stack = Run.done r ∧
        bottomToTop r = bottomToTop stack ++ F.expand) ∧
      (∃ r, parseFormulaHelper fuel (F.text ++ G.text) initStack = Run.done r ∧
        bottomToTop r = F.expand ++ G.expand) := by
  obtain ⟨n2, h2⟩ := parse_two F G hF hG
  obtain ⟨n1, h1⟩ := parse_onto F hF
  refine ⟨max n1 n2, fun stack fuel hfuel => ⟨⟨_, h2 stack fuel (le_trans (le_max_right _ _) hfuel),
    by simp [bottomToTop]⟩, ⟨_, h1 stack fuel (le_trans (le_max_left _ _) hfuel),
    by simp [bottomToTop]⟩, ⟨_, h2 initStack fuel (le_trans (le_max_right _ _) hfuel),
    by simp [bottomToTop, initStack]⟩⟩⟩

/-- Witness of C32 at `H2O` followed by `(H)2O`, on the empty stack and on a
stack that holds a marker and Fe. -/
theorem parseFormulaHelper_compositional_witness :
    water.text ++ hydrogenGroup.text = "H2O(H)2O".toList ∧
    parseFormulaHelper 8 "H2O(H)2O".toList [['F', 'e'], ['(']]
      = Run.done [['O'], ['H'], ['H'], ['O'], ['H'], ['H'], ['F', 'e'], ['(']] ∧
    ∃ n, ∀ (stack : STACK) (fuel : Nat), n ≤ fuel →
      (∃ r, parseFormulaHelper fuel (water.text ++ hydrogenGroup.text) stack = Run.done r ∧
        bottomToTop r = bottomToTop stack ++ (water.expand ++ hydrogenGroup.expand)) ∧
      (∃ r, parseFormulaHelper fuel water.text stack = Run.done r ∧
        bottomToTop r = bottomToTop stack ++ water.expand) ∧
      (∃ r, parseFormulaHelper fuel (water.text ++ hydrogenGroup.text) initStack = Run.done r ∧
        bottomToTop r = water.expand ++ hydrogenGroup.expand) :=
  ⟨by decide, by decide,
   parseFormulaHelper_compositional water hydrogenGroup (by decide) (by decide)⟩

/-- C33: for every table whose symbols are pairwise distinct and every symbol
s, findAtomicNumber of s in the table after sortPeriodicTable is
findAtomicNumber of s in the table before it. -/
theorem findAtomicNumber_after_sort (elements : List ELEMENT) (element : List Char)
    (hd : (elements.map (fun e => e.symbol)).Nodup) :
    findAtomicNumber element (sortPeriodicTable elements)
      = findAtomicNumber element elements :=
  findAtomicNumber_perm element elements (sortPeriodicTable elements)
    (sortPeriodicTable_perm elements) hd

/-- Witness of C33 at the table H, He, C, B of the test, which the sort
changes: B is 5 before and after. -/
theorem findAtomicNumber_after_sort_witness :
    sortPeriodicTable unsortedTable ≠ unsortedTable ∧
    findAtomicNumber ['B'] unsortedTable = 5 ∧
    findAtomicNumber ['B'] (sortPeriodicTable unsortedTable)
      = findAtomicNumber ['B'] unsortedTable :=
  ⟨by decide, by decide, findAtomicNumber_after_sort unsortedTable ['B'] (by decide)⟩

end ChemicalFormulas
